import Mathlib

/-!
Shallow embedding of `src/k8schema/__init__.py` (the `SchemaCache` core:
`_cleanup_schema`, `_fix_kind`, `update`, and the `paths`/`schemas` readers),
together with theorems settling the specification claims about it.

JSON values fetched from the server are modelled by `JValue`.  Python dicts
are association lists in insertion order (Python 3.7+ dicts preserve
insertion order and have unique keys).  Python exceptions (`KeyError`,
`TypeError`, `AttributeError`) are modelled by `Option`: `none` means the
operation raises.
-/

namespace K8Schema

/-- A JSON value, as produced by `requests.Response.json()`.  Numbers are
modelled as integers (no claim involves non-integer numerics). -/
inductive JValue where
  | null
  | bool (b : Bool)
  | num (n : Int)
  | str (s : String)
  | arr (xs : List JValue)
  | obj (fields : List (String × JValue))

abbrev Fields := List (String × JValue)

mutual

/-- Decidable structural equality for `JValue` (hand-rolled: the nested
inductive blocks `deriving`). -/
def decEqJ : (a b : JValue) → Decidable (a = b)
  | .null, .null => isTrue rfl
  | .bool a, .bool b =>
      match decEq a b with
      | isTrue h => isTrue (by rw [h])
      | isFalse h => isFalse (fun hh => h (by injection hh))
  | .num a, .num b =>
      match decEq a b with
      | isTrue h => isTrue (by rw [h])
      | isFalse h => isFalse (fun hh => h (by injection hh))
  | .str a, .str b =>
      match decEq a b with
      | isTrue h => isTrue (by rw [h])
      | isFalse h => isFalse (fun hh => h (by injection hh))
  | .arr xs, .arr ys =>
      match decEqLJ xs ys with
      | isTrue h => isTrue (by rw [h])
      | isFalse h => isFalse (fun hh => h (by injection hh))
  | .obj fs, .obj gs =>
      match decEqFJ fs gs with
      | isTrue h => isTrue (by rw [h])
      | isFalse h => isFalse (fun hh => h (by injection hh))
  | .null, .bool _ | .null, .num _ | .null, .str _ | .null, .arr _ | .null, .obj _
  | .bool _, .null | .bool _, .num _ | .bool _, .str _ | .bool _, .arr _ | .bool _, .obj _
  | .num _, .null | .num _, .bool _ | .num _, .str _ | .num _, .arr _ | .num _, .obj _
  | .str _, .null | .str _, .bool _ | .str _, .num _ | .str _, .arr _ | .str _, .obj _
  | .arr _, .null | .arr _, .bool _ | .arr _, .num _ | .arr _, .str _ | .arr _, .obj _
  | .obj _, .null | .obj _, .bool _ | .obj _, .num _ | .obj _, .str _ | .obj _, .arr _ =>
      isFalse (by intro h; exact JValue.noConfusion h)

def decEqLJ : (xs ys : List JValue) → Decidable (xs = ys)
  | [], [] => isTrue rfl
  | [], _ :: _ => isFalse (by intro h; exact List.noConfusion h)
  | _ :: _, [] => isFalse (by intro h; exact List.noConfusion h)
  | x :: xs, y :: ys =>
      match decEqJ x y with
      | isFalse h => isFalse (fun hh => h (by injection hh))
      | isTrue h1 =>
        match decEqLJ xs ys with
        | isTrue h2 => isTrue (by rw [h1, h2])
        | isFalse h2 => isFalse (fun hh => h2 (by injection hh))

def decEqFJ : (fs gs : List (String × JValue)) → Decidable (fs = gs)
  | [], [] => isTrue rfl
  | [], _ :: _ => isFalse (by intro h; exact List.noConfusion h)
  | _ :: _, [] => isFalse (by intro h; exact List.noConfusion h)
  | (k, v) :: fs, (k2, v2) :: gs =>
      match decEq k k2 with
      | isFalse h => isFalse (fun hh => by
          injection hh with h1 h2
          exact h (congrArg Prod.fst h1))
      | isTrue hk =>
        match decEqJ v v2 with
        | isFalse h => isFalse (fun hh => by
            injection hh with h1 h2
            exact h (congrArg Prod.snd h1))
        | isTrue hv =>
          match decEqFJ fs gs with
          | isTrue h2 => isTrue (by rw [hk, hv, h2])
          | isFalse h2 => isFalse (fun hh => h2 (by injection hh))

end

instance : DecidableEq JValue := decEqJ

/-- Keys of a dict, in insertion order (`list(d.keys())`). -/
def keysF (fs : Fields) : List String := fs.map (·.1)

/-- `k in d` for a dict. -/
def hasKeyF (fs : Fields) (k : String) : Bool := fs.any (·.1 = k)

/-- `d[k]` / `d.get(k)` lookup: first binding of `k` (dicts have unique keys,
so "first" is exact Python behaviour). -/
def lookupF : Fields → String → Option JValue
  | [], _ => none
  | (k, v) :: fs, k' => if k = k' then some v else lookupF fs k'

/-- `d[k] = v`: an existing key keeps its position, a new key is appended
(Python 3.7+ dict semantics). -/
def setF (fs : Fields) (k : String) (v : JValue) : Fields :=
  if hasKeyF fs k then fs.map (fun p => if p.1 = k then (k, v) else p)
  else fs ++ [(k, v)]

/-- `d.pop(k, default)`: removes the binding of `k` if present. -/
def popF (fs : Fields) (k : String) : Fields := fs.filter (·.1 ≠ k)

/-- `len(x)` — defined for strings, lists and dicts; raises `TypeError`
(`none`) on numbers, booleans and `None`. -/
def pyLen : JValue → Option Nat
  | .str s => some s.length
  | .arr xs => some xs.length
  | .obj fs => some fs.length
  | _ => none

mutual

/-- Python `==` on JSON values.  It conflates `True`/`False` with `1`/`0`;
dict comparison is modelled in insertion order (Python ignores order, but
every claim-relevant comparison is between scalars). -/
def pyEq : JValue → JValue → Bool
  | .null, .null => true
  | .bool a, .bool b => a = b
  | .bool a, .num m => (if a then (1 : Int) else 0) = m
  | .num n, .bool b => n = (if b then (1 : Int) else 0)
  | .num n, .num m => n = m
  | .str a, .str b => a = b
  | .arr xs, .arr ys => pyEqL xs ys
  | .obj fs, .obj gs => pyEqF fs gs
  | _, _ => false

def pyEqL : List JValue → List JValue → Bool
  | [], [] => true
  | x :: xs, y :: ys => pyEq x y && pyEqL xs ys
  | _, _ => false

def pyEqF : List (String × JValue) → List (String × JValue) → Bool
  | [], [] => true
  | (k, v) :: fs, (k2, v2) :: gs => k = k2 && pyEq v v2 && pyEqF fs gs
  | _, _ => false

end

/-- `pat` is a leading segment of `s` (over character lists). -/
def charsIsPre : List Char → List Char → Bool
  | [], _ => true
  | _ :: _, [] => false
  | a :: as, b :: bs => a = b && charsIsPre as bs

/-- `pat in s` for strings: `pat` occurs contiguously somewhere in `s`. -/
def charsHasSub (pat : List Char) : List Char → Bool
  | [] => pat.isEmpty
  | c :: cs => charsIsPre pat (c :: cs) || charsHasSub pat cs

/-- `k in x` for a string key `k`: key membership for dicts, element
membership for lists, substring test for strings; `TypeError` otherwise. -/
def pyIn (k : String) : JValue → Option Bool
  | .obj fs => some (hasKeyF fs k)
  | .arr xs => some (xs.any (fun x => pyEq x (.str k)))
  | .str s => some (charsHasSub k.data s.data)
  | _ => none

/-- `x[k]` for a string key `k`: dict lookup (`KeyError` when absent);
`TypeError` on every other type. -/
def jGetItem (v : JValue) (k : String) : Option JValue :=
  match v with
  | .obj fs => lookupF fs k
  | _ => none

/-- `for k in x`: a list yields its elements, a dict its keys, a string its
one-character substrings; `TypeError` otherwise. -/
def pyIterate : JValue → Option (List JValue)
  | .arr xs => some xs
  | .obj fs => some (fs.map (fun kv => JValue.str kv.1))
  | .str s => some (s.data.map (fun c => JValue.str (String.mk [c])))
  | _ => none

/-- f-string rendering of a scalar (`f"{x}"`); container `repr` is not
modelled (no schema document formats a container into `apiVersion`). -/
def pyFormat : JValue → Option String
  | .str s => some s
  | .num n => some (toString n)
  | .bool b => some (if b then "True" else "False")
  | .null => some "None"
  | _ => none

/-- Hashability, as required by `set(...)`: scalars are hashable, lists and
dicts are not (`TypeError`). -/
def isHashable : JValue → Bool
  | .arr _ => false
  | .obj _ => false
  | _ => true

/-- `s.replace(pat, rep)` scan with explicit fuel: all non-overlapping
occurrences, scanned left to right (Python semantics for a non-empty
pattern).  Each step consumes at least one character, so fuel `s.length`
suffices. -/
def replAllF (pat rep : List Char) : Nat → List Char → List Char
  | 0, s => s
  | _ + 1, [] => []
  | fuel + 1, c :: cs =>
    if pat.isEmpty then c :: cs
    else if charsIsPre pat (c :: cs) then
      rep ++ replAllF pat rep fuel (List.drop (pat.length - 1) cs)
    else c :: replAllF pat rep fuel cs

/-- `s.replace(pat, rep)`. -/
def replAll (pat rep s : List Char) : List Char := replAllF pat rep s.length s

/-- The rewritten-away reference namespace (`#/components/schemas/`). -/
def componentsPat : List Char := "#/components/schemas/".data

/-- The local reference namespace (`#/definitions/`). -/
def definitionsRep : List Char := "#/definitions/".data

/-- Line 67: `v["$ref"].replace("#/components/schemas/", "#/definitions/")`. -/
def pyReplaceRef (s : String) : String := String.mk (replAll componentsPat definitionsRep s.data)

/-- `_cleanup_schema` lines 56-63: flatten a single-element `allOf` whose
element has exactly one entry, hoisting that element's `$ref`.  A single-key
element without `$ref` raises `KeyError` (modelled as `none`); an element
whose `len` is undefined raises `TypeError`. -/
def hoistStep (fs : Fields) : Option Fields :=
  match lookupF fs "allOf" with
  | some (.arr [el]) =>
    match pyLen el with
    | none => none
    | some n =>
      if n = 1 then
        match jGetItem el "$ref" with
        | none => none
        | some r => some (setF (popF fs "allOf") "$ref" r)
      else some fs
  | _ => some fs

/-- `_cleanup_schema` lines 66-67: rewrite a string-valued `$ref`. -/
def refStep (fs : Fields) : Fields :=
  match lookupF fs "$ref" with
  | some (.str s) => setF fs "$ref" (.str (pyReplaceRef s))
  | _ => fs

/-- `_cleanup_schema` lines 69-70: `v["enum"] = list(set(v["enum"]))`.  The
iteration order of a Python `set` is unspecified, so the embedding is
parametrised by the order-choice function `dF`; an unhashable element makes
`set(...)` raise `TypeError`. -/
def enumStep (dF : List JValue → List JValue) (fs : Fields) : Option Fields :=
  match lookupF fs "enum" with
  | some (.arr l) =>
    if l.all (fun x => isHashable x) then some (setF fs "enum" (.arr (dF l)))
    else none
  | _ => some fs

mutual

/-- `SchemaCache._cleanup_schema` (lines 52-78), parametrised by the set
iteration order `dF` and a fuel bound; every mutual function consumes one
unit of fuel per call so the recursion is structural (the Python recursion
always terminates on finite JSON; every theorem quantifies over or
instantiates the fuel).  Python's parameter is a dict; a non-dict argument
raises. -/
def cleanupSchema (dF : List JValue → List JValue) : Nat → JValue → Option JValue
  | 0, _ => none
  | fuel + 1, .obj fs =>
    (hoistStep (popF fs "default")).bind (fun fs2 =>
      (enumStep dF (refStep fs2)).bind (fun fs4 =>
        (cleanupFields dF fuel fs4).bind (fun fs5 => some (.obj fs5))))
  | _ + 1, _ => none

/-- Lines 72-78: recurse into every dict value and into every dict found
directly inside a list value (lists inside lists are not descended into). -/
def cleanupFields (dF : List JValue → List JValue) : Nat → Fields → Option Fields
  | 0, _ => none
  | _ + 1, [] => some []
  | fuel + 1, (k, .obj ofs) :: fs =>
    (cleanupSchema dF fuel (.obj ofs)).bind (fun v2 =>
      (cleanupFields dF fuel fs).bind (fun fs2 => some ((k, v2) :: fs2)))
  | fuel + 1, (k, .arr xs) :: fs =>
    (cleanupElems dF fuel xs).bind (fun ys =>
      (cleanupFields dF fuel fs).bind (fun fs2 => some ((k, .arr ys) :: fs2)))
  | fuel + 1, (k, v) :: fs =>
    (cleanupFields dF fuel fs).bind (fun fs2 => some ((k, v) :: fs2))

/-- Lines 76-78: elements of a list value — dicts are cleaned, everything
else (including nested lists) is left as-is. -/
def cleanupElems (dF : List JValue → List JValue) : Nat → List JValue → Option (List JValue)
  | 0, _ => none
  | _ + 1, [] => some []
  | fuel + 1, .obj ofs :: xs =>
    (cleanupSchema dF fuel (.obj ofs)).bind (fun y =>
      (cleanupElems dF fuel xs).bind (fun ys => some (y :: ys)))
  | fuel + 1, x :: xs =>
    (cleanupElems dF fuel xs).bind (fun ys => some (x :: ys))

end

def gvkKey : String := "x-kubernetes-group-version-kind"

/-- View a value as a dict, raising otherwise. -/
def asObj : JValue → Option Fields
  | .obj fs => some fs
  | _ => none

/-- `x[k] = val` on a dict value. -/
def setIn (v : JValue) (k : String) (x : JValue) : Option JValue :=
  match v with
  | .obj fs => some (.obj (setF fs k x))
  | _ => none

/-- `v[k1][k2][k3] = val`: functional image of the nested in-place update. -/
def setPath2 (fs : Fields) (k1 k2 k3 : String) (val : JValue) : Option Fields := do
  let p ← lookupF fs k1
  let c ← jGetItem p k2
  let c2 ← setIn c k3 val
  let p2 ← setIn p k2 c2
  pure (setF fs k1 p2)

/-- `_fix_kind` lines 82-86, the loop body accumulating
`v["properties"]["kind"]["enum"]`: append `k["kind"]` unless already
present. -/
def kindLoop : List JValue → List JValue → Option (List JValue)
  | [], acc => some acc
  | k :: ks, acc =>
    match jGetItem k "kind" with
    | none => none
    | some kv =>
      if acc.any (fun e => pyEq e kv) then kindLoop ks acc
      else kindLoop ks (acc ++ [kv])

/-- `_fix_kind` lines 88-96, the loop accumulating
`v["properties"]["apiVersion"]["enum"]`.  Note the source tests membership
of `k["group"]` — not of the constructed `{group}/{version}` string — before
appending. -/
def apiLoop : List JValue → List JValue → Option (List JValue)
  | [], acc => some acc
  | k :: ks, acc =>
    match jGetItem k "group" with
    | none => none
    | some g =>
      if acc.any (fun e => pyEq e g) then apiLoop ks acc
      else
        match pyLen g with
        | none => none
        | some n =>
          if n > 0 then
            match pyFormat g, (jGetItem k "version").bind pyFormat with
            | some gs, some vs => apiLoop ks (acc ++ [.str (gs ++ "/" ++ vs)])
            | _, _ => none
          else
            match jGetItem k "version" with
            | none => none
            | some vv => apiLoop ks (acc ++ [vv])

/-- `SchemaCache._fix_kind` (lines 80-96).  When the node carries
`x-kubernetes-group-version-kind`, `v["properties"]` is read — a missing
`properties` key raises `KeyError`.  Each of the two branches rebuilds the
respective `enum` from the GVK triples. -/
def fixKind (v : JValue) : Option JValue :=
  match v with
  | .obj fs =>
    if hasKeyF fs gvkKey then do
      let props ← lookupF fs "properties"
      let hasKind ← pyIn "kind" props
      let fs1 ←
        if hasKind then do
          let kindNode ← jGetItem props "kind"
          let _ ← asObj kindNode
          let gvk ← lookupF fs gvkKey
          let items ← pyIterate gvk
          let enumL ← kindLoop items []
          setPath2 fs "properties" "kind" "enum" (.arr enumL)
        else pure fs
      let props1 ← lookupF fs1 "properties"
      let hasApi ← pyIn "apiVersion" props1
      if hasApi then do
        let apiNode ← jGetItem props1 "apiVersion"
        let _ ← asObj apiNode
        let gvk ← lookupF fs1 gvkKey
        let items ← pyIterate gvk
        let enumL ← apiLoop items []
        let fs2 ← setPath2 fs1 "properties" "apiVersion" "enum" (.arr enumL)
        pure (.obj fs2)
      else pure (.obj fs1)
    else some v
  | _ => none

/-- `update` lines 130-131: default to a closed schema unless the node is
marked `x-kubernetes-preserve-unknown-fields`. -/
def apStep (v : JValue) : JValue :=
  match v with
  | .obj fs =>
    if hasKeyF fs "x-kubernetes-preserve-unknown-fields" then .obj fs
    else .obj (setF fs "additionalProperties" (.bool false))
  | v => v

/-- `update` lines 127-132, per stored value: dict values get `_fix_kind`,
the `additionalProperties` default and `_cleanup_schema`; non-dict values
are skipped. -/
def normalizeValue (dF : List JValue → List JValue) (fuel : Nat) (v : JValue) : Option JValue :=
  match v with
  | .obj _ => (fixKind v).bind (fun a => cleanupSchema dF fuel (apStep a))
  | v => some v

/-- `update` lines 127-132 over the whole merged mapping. -/
def normalizeSet (dF : List JValue → List JValue) (fuel : Nat) : Fields → Option Fields
  | [] => some []
  | (k, v) :: fs =>
    (normalizeValue dF fuel v).bind (fun v2 =>
      (normalizeSet dF fuel fs).bind (fun fs2 => some ((k, v2) :: fs2)))

/-- An HTTP response as `update` consumes it: status code plus the parsed
JSON body (`none` when `resp.json()` would raise on a malformed body). -/
structure Resp where
  status : Nat
  body : Option JValue

/-- The remote server: the `/openapi/v3` catalog response and one response
per catalog path. -/
structure Env where
  catalog : Resp
  pathResp : String → Resp

/-- How one `update()` cycle ends: normal completion, the early `return` on
a non-200 catalog (lines 105-107), or an uncaught exception. -/
inductive Outcome where
  | completed
  | abortedStatus (code : Nat)
  | raised
  deriving DecidableEq

/-- Line 123: `resp.json().get("components", {}).get("schemas", {})`;
`.get` on a non-dict raises `AttributeError`. -/
def extractSchemas (b : JValue) : Option JValue :=
  match b with
  | .obj fs =>
    match (lookupF fs "components").getD (.obj []) with
    | .obj cfs => some ((lookupF cfs "schemas").getD (.obj []))
    | _ => none
  | _ => none

/-- Line 122: `self._schemas.update(new)` — existing keys keep their
position and take the new value, new keys are appended. -/
def mergeFields (acc new : Fields) : Fields := new.foldl (fun a kv => setF a kv.1 kv.2) acc

/-- `update` lines 110-124: fetch each catalog path; a non-200 response is
logged and skipped (`continue`), a malformed or non-dict document raises,
ending the loop with the schemas merged so far (`false` = raised). -/
def mergeLoop (env : Env) : List String → Fields → Fields × Bool
  | [], acc => (acc, true)
  | p :: ps, acc =>
    let r := env.pathResp p
    if r.status ≠ 200 then mergeLoop env ps acc
    else
      match r.body with
      | none => (acc, false)
      | some b =>
        match extractSchemas b with
        | none => (acc, false)
        | some (.obj new) => mergeLoop env ps (mergeFields acc new)
        | some _ => (acc, false)

/-- `SchemaCache.update` (lines 98-132).  Line 100 sets `self._schemas = {}`
before anything is fetched, so the prior cache contents `prior` are
discarded unconditionally; on the non-200 catalog path the method returns
with the store still empty.  When normalization raises, the Python dict is
left partially mutated; the model returns the merged pre-normalization
mapping there (no claim inspects that state). -/
def update (dF : List JValue → List JValue) (fuel : Nat) (env : Env) (prior : Fields) :
    Fields × Outcome :=
  if env.catalog.status ≠ 200 then ([], .abortedStatus env.catalog.status)
  else
    match env.catalog.body with
    | none => ([], .raised)
    | some (.obj bfs) =>
      match (lookupF bfs "paths").getD (.obj []) with
      | .obj pfs =>
        match mergeLoop env (keysF pfs) [] with
        | (acc, false) => (acc, .raised)
        | (acc, true) =>
          match normalizeSet dF fuel acc with
          | some final => (final, .completed)
          | none => (acc, .raised)
      | _ => ([], .raised)
    | some _ => ([], .raised)

/-- The `SchemaCache` store: the contents of the `self._schemas` dict. -/
structure CacheStore where
  schemas : Fields

/-- `paths` property (lines 134-137): `list(self._schemas.keys())` builds a
fresh list. -/
def pathsRead (c : CacheStore) : List String := keysF c.schemas

/-- `schemas` property (lines 139-142): `return self._schemas` returns the
internal dict object itself, not a copy. -/
def schemasRead (c : CacheStore) : Fields := c.schemas

/-- A caller mutating the structure returned by `schemas`: because that
structure is the store's own dict (line 142), the mutation lands in the
store. -/
def mutateViaSchemasRead (c : CacheStore) (f : Fields → Fields) : CacheStore :=
  { schemas := f c.schemas }

/-- A caller mutating the list returned by `paths`: `list(...)` (line 137)
built a fresh list, so the store is unaffected. -/
def mutateViaPathsRead (c : CacheStore) (_f : List String → List String) : CacheStore := c

/-- Order-preserving first-occurrence de-duplication: one admissible
realisation of `list(set(...))`. -/
def dedupPy (l : List JValue) : List JValue :=
  l.foldl (fun acc x => if acc.any (fun e => pyEq e x) then acc else acc ++ [x]) []

/-- An admissible `list(set(...))` keeps only elements of its input. -/
def DedupSub (dF : List JValue → List JValue) : Prop :=
  ∀ l, (∀ x ∈ l, isHashable x = true) → ∀ y ∈ dF l, y ∈ l

/-- An admissible `list(set(...))` represents every input element. -/
def DedupCover (dF : List JValue → List JValue) : Prop :=
  ∀ l, (∀ x ∈ l, isHashable x = true) → ∀ x ∈ l, ∃ y ∈ dF l, pyEq y x = true

/-- An admissible `list(set(...))` has pairwise-distinct elements. -/
def DedupDistinct (dF : List JValue → List JValue) : Prop :=
  ∀ l, (∀ x ∈ l, isHashable x = true) → (dF l).Pairwise (fun a b => pyEq a b = false)

/-- A de-dup order choice that is stable on repetition. -/
def DedupIdem (dF : List JValue → List JValue) : Prop :=
  ∀ l, (∀ x ∈ l, isHashable x = true) → dF (dF l) = dF l

/-- Another admissible realisation of `list(set(...))`: same de-duplicated
elements, emitted in the reverse order.  Python's set iteration order is
hash-table dependent, so no particular order may be assumed. -/
def dedupRev (l : List JValue) : List JValue := (dedupPy l).reverse

/-- Reader probe: `w["properties"][p]["enum"]` on an optional node. -/
def propEnum (w : Option JValue) (p : String) : Option JValue :=
  ((w.bind (fun v => jGetItem v "properties")).bind (fun q => jGetItem q p)).bind
    (fun q => jGetItem q "enum")

/-- The dict has no repeated key (always true of a Python dict). -/
def noDupKeysB : Fields → Bool
  | [] => true
  | (k, _) :: fs => !hasKeyF fs k && noDupKeysB fs

mutual

/-- A node is safe for re-cleaning: it is a dict without an `allOf` key and
without duplicate keys, and so is every node the cleanup recursion visits
below it.  (`allOf`-free-ness is what rules out the late hoisting that
breaks idempotence; unique keys hold of every Python dict.) -/
inductive SafeV : JValue → Prop where
  | obj (fs : Fields) : hasKeyF fs "allOf" = false → noDupKeysB fs = true →
      (∀ kv ∈ fs, SafeChild (Prod.snd kv)) → SafeV (.obj fs)

inductive SafeChild : JValue → Prop where
  | obj (fs : Fields) : SafeV (.obj fs) → SafeChild (.obj fs)
  | arr (xs : List JValue) : (∀ x ∈ xs, SafeElem x) → SafeChild (.arr xs)
  | null : SafeChild .null
  | bool (b : Bool) : SafeChild (.bool b)
  | num (n : Int) : SafeChild (.num n)
  | str (s : String) : SafeChild (.str s)

inductive SafeElem : JValue → Prop where
  | obj (fs : Fields) : SafeV (.obj fs) → SafeElem (.obj fs)
  | nonObj (v : JValue) : (∀ fs, v ≠ .obj fs) → SafeElem v

end

mutual

/-- Executable check for `SafeV`, fuelled like the cleanup recursion. -/
def safeVB : Nat → JValue → Bool
  | 0, _ => false
  | fuel + 1, .obj fs => !hasKeyF fs "allOf" && noDupKeysB fs && safeFieldsB fuel fs
  | _ + 1, _ => false

def safeFieldsB : Nat → Fields → Bool
  | 0, _ => false
  | _ + 1, [] => true
  | fuel + 1, (_, .obj ofs) :: fs => safeVB fuel (.obj ofs) && safeFieldsB fuel fs
  | fuel + 1, (_, .arr xs) :: fs => safeElemsB fuel xs && safeFieldsB fuel fs
  | fuel + 1, _ :: fs => safeFieldsB fuel fs

def safeElemsB : Nat → List JValue → Bool
  | 0, _ => false
  | _ + 1, [] => true
  | fuel + 1, .obj ofs :: xs => safeVB fuel (.obj ofs) && safeElemsB fuel xs
  | fuel + 1, _ :: xs => safeElemsB fuel xs

end

/-- The `$ref` entry of a node, if string-valued, does not mention the
`#/components/schemas/` namespace. -/
def refsOKB (fs : Fields) : Bool :=
  match lookupF fs "$ref" with
  | some (.str s) => !charsHasSub componentsPat s.data
  | _ => true

mutual

/-- `ResetV dF fs fs'`: the node `fs'` is the node `fs` with, at any set of
positions the cleanup recursion visits, the de-duplicated `enum` value
replaced by a hashable pre-image under the set-order choice `dF` (what
`_fix_kind` does when it rebuilds an `enum` that a previous pass already
de-duplicated). -/
inductive ResetV (dF : List JValue → List JValue) : Fields → Fields → Prop where
  | noreset (fs fs' : Fields) : ResetF dF fs fs' → ResetV dF fs fs'
  | reset (fs fs' : Fields) (l0 ldF : List JValue) : ResetF dF fs fs' →
      lookupF fs "enum" = some (.arr ldF) → (∀ x ∈ l0, isHashable x = true) →
      dF l0 = ldF → ResetV dF fs (setF fs' "enum" (.arr l0))

inductive ResetF (dF : List JValue → List JValue) : Fields → Fields → Prop where
  | nil : ResetF dF [] []
  | cons (k : String) (v v' : JValue) (fs fs' : Fields) : ResetC dF v v' →
      ResetF dF fs fs' → ResetF dF ((k, v) :: fs) ((k, v') :: fs')

inductive ResetC (dF : List JValue → List JValue) : JValue → JValue → Prop where
  | refl (v : JValue) : ResetC dF v v
  | obj (fs fs' : Fields) : ResetV dF fs fs' → ResetC dF (.obj fs) (.obj fs')
  | arr (xs xs' : List JValue) : ResetL dF xs xs' → ResetC dF (.arr xs) (.arr xs')

inductive ResetL (dF : List JValue → List JValue) : List JValue → List JValue → Prop where
  | nil : ResetL dF [] []
  | cons (x x' : JValue) (xs xs' : List JValue) : ResetE dF x x' → ResetL dF xs xs' →
      ResetL dF (x :: xs) (x' :: xs')

inductive ResetE (dF : List JValue → List JValue) : JValue → JValue → Prop where
  | refl (x : JValue) : ResetE dF x x
  | obj (fs fs' : Fields) : ResetV dF fs fs' → ResetE dF (.obj fs) (.obj fs')

end

mutual

/-- Every node the cleanup recursion visits — the node itself, its dict
values, and dicts directly inside its list values — has a rewritten
(string) `$ref`. -/
inductive VisitedClean : JValue → Prop where
  | obj (fs : Fields) : refsOKB fs = true →
      (∀ kv ∈ fs, VisitedCleanChild (Prod.snd kv)) → VisitedClean (.obj fs)

inductive VisitedCleanChild : JValue → Prop where
  | obj (fs : Fields) : VisitedClean (.obj fs) → VisitedCleanChild (.obj fs)
  | arr (xs : List JValue) : (∀ x ∈ xs, VisitedCleanElem x) → VisitedCleanChild (.arr xs)
  | null : VisitedCleanChild .null
  | bool (b : Bool) : VisitedCleanChild (.bool b)
  | num (n : Int) : VisitedCleanChild (.num n)
  | str (s : String) : VisitedCleanChild (.str s)

inductive VisitedCleanElem : JValue → Prop where
  | obj (fs : Fields) : VisitedClean (.obj fs) → VisitedCleanElem (.obj fs)
  | nonObj (v : JValue) : (∀ fs, v ≠ .obj fs) → VisitedCleanElem v

end

/-- C1 input: the catalog fetch answers 500. -/
def c1env : Env := { catalog := ⟨500, some (.obj [])⟩, pathResp := fun _ => ⟨200, some (.obj [])⟩ }

/-- C1 input: a non-empty previously stored SchemaSet. -/
def c1prior : Fields := [("A", .obj [("type", .str "object")])]

/-- C2 input: two GVK triples — `{group: "", version: "v1"}` first, then
`{group: "v1", version: "v2"}` — plus a `properties.apiVersion` node. -/
def c2node : JValue := .obj [
  (gvkKey, .arr [
    .obj [("group", .str ""), ("version", .str "v1"), ("kind", .str "Pod")],
    .obj [("group", .str "v1"), ("version", .str "v2"), ("kind", .str "Foo")]]),
  ("properties", .obj [("apiVersion", .obj [])])]

/-- C2: what `_fix_kind` actually produces on `c2node`. -/
def c2nodeOut : JValue := .obj [
  (gvkKey, .arr [
    .obj [("group", .str ""), ("version", .str "v1"), ("kind", .str "Pod")],
    .obj [("group", .str "v1"), ("version", .str "v2"), ("kind", .str "Foo")]]),
  ("properties", .obj [("apiVersion", .obj [("enum", .arr [.str "v1"])])])]

/-- C4 input: a `$ref` inside a list inside a list. -/
def c4set : Fields :=
  [("X", .obj [("a", .arr [.arr [.obj [("$ref", .str "#/components/schemas/Z")]]])])]

/-- C4: what the pass produces on `c4set` — the nested `$ref` survives. -/
def c4out : Fields :=
  [("X", .obj [("a", .arr [.arr [.obj [("$ref", .str "#/components/schemas/Z")]]]),
    ("additionalProperties", .bool false)])]

/-- C5 input: a store holding one schema. -/
def c5store : CacheStore := ⟨[("A", .obj [])]⟩

/-- C6: first GVK triple of the spec's worked example. -/
def c6tri1 : JValue :=
  .obj [("group", .str "apps"), ("version", .str "v1"), ("kind", .str "Deployment")]

/-- C6: second GVK triple of the spec's worked example. -/
def c6tri2 : JValue :=
  .obj [("group", .str ""), ("version", .str "v1"), ("kind", .str "Pod")]

/-- C6 input: the spec's worked `fixKind` example node. -/
def c6node : JValue := .obj [
  (gvkKey, .arr [c6tri1, c6tri2]),
  ("properties", .obj [("kind", .obj []), ("apiVersion", .obj [])])]

/-- C6: shape of the full-pass output on `c6node`, as a function of the
orders `list(set(...))` emits the two enums in. -/
def c6shape (kl al : List JValue) : JValue := .obj [
  (gvkKey, .arr [c6tri1, c6tri2]),
  ("properties", .obj [
    ("kind", .obj [("enum", .arr kl)]),
    ("apiVersion", .obj [("enum", .arr al)])]),
  ("additionalProperties", .bool false)]

/-- C6: the node after `_fix_kind` (insertion-ordered enums). -/
def c6fixed : JValue := .obj [
  (gvkKey, .arr [c6tri1, c6tri2]),
  ("properties", .obj [
    ("kind", .obj [("enum", .arr [.str "Deployment", .str "Pod"])]),
    ("apiVersion", .obj [("enum", .arr [.str "apps/v1", .str "v1"])])])]

/-- C8: a well-formed per-path schema document holding one definition named
after the path. -/
def c8doc (p : String) : JValue :=
  .obj [("components", .obj [("schemas", .obj [(p, .obj [])])])]

/-- C8 counterexample env: catalog lists `p1`, `p2`; `p1` answers 200 with a
malformed (unparsable) body, `p2` is fine. -/
def c8envBad : Env :=
  { catalog := ⟨200, some (.obj [("paths", .obj [("p1", .null), ("p2", .null)])])⟩,
    pathResp := fun p => if p = "p1" then ⟨200, none⟩ else ⟨200, some (c8doc p)⟩ }

/-- C8 witness env: three catalog paths, `p2` answers 503, the others are
fine. -/
def c8envSkip : Env :=
  { catalog := ⟨200, some (.obj [("paths", .obj [("p1", .null), ("p2", .null), ("p3", .null)])])⟩,
    pathResp := fun p => if p = "p2" then ⟨503, none⟩ else ⟨200, some (c8doc p)⟩ }

/-- The schema definitions a path response contributes, when its document
is well-formed (parsable body whose extracted `schemas` is a dict). -/
def pathDefs (env : Env) (p : String) : Option Fields :=
  ((env.pathResp p).body).bind (fun b => (extractSchemas b).bind (fun e => asObj e))

/-- One step of the reference merge: definitions of a successfully fetched
path are merged in, every other path contributes nothing.  This is the
spec's description of the loop at lines 110-124; `mergeLoop` is shown to
coincide with folding it whenever every 200-path is well-formed. -/
def mergeStep (env : Env) (acc : Fields) (p : String) : Fields :=
  if (env.pathResp p).status = 200 then
    match pathDefs env p with
    | some d => mergeFields acc d
    | none => acc
  else acc

/-- Reference merge over the catalog paths in order. -/
def specMergeSuccessful (env : Env) (ps : List String) : Fields :=
  ps.foldl (mergeStep env) []

/-- C8: what the cycle produces on `c8envSkip` (the 503 path is absent). -/
def c8skipOut : Fields :=
  [("p1", .obj [("additionalProperties", .bool false)]),
   ("p3", .obj [("additionalProperties", .bool false)])]

/-- C9 input: an `allOf` whose sole element has two keys (`$ref` plus
`default`); the first pass strips `default`, the second pass then hoists. -/
def c9set : Fields :=
  [("X", .obj [("allOf", .arr [.obj [("$ref", .str "#/components/schemas/Y"), ("default", .null)]])])]

/-- C9: result of the first pass on `c9set`. -/
def c9once : Fields :=
  [("X", .obj [("allOf", .arr [.obj [("$ref", .str "#/definitions/Y")]]),
    ("additionalProperties", .bool false)])]

/-- C9: result of passing `c9once` through the pass again — the single-key
`allOf` is now hoisted, so the result differs. -/
def c9twice : Fields :=
  [("X", .obj [("additionalProperties", .bool false), ("$ref", .str "#/definitions/Y")])]

/-- C9 witness input: an `allOf`-free node carrying a
`x-kubernetes-group-version-kind` triple, `properties.kind` /
`properties.apiVersion` sub-nodes and a `default`. -/
def c9safeSet : Fields := [("X", .obj [
  ("x-kubernetes-group-version-kind", .arr [.obj [("group", .str "apps"),
    ("version", .str "v1"), ("kind", .str "Deployment")]]),
  ("properties", .obj [("kind", .obj [("type", .str "string")]),
    ("apiVersion", .obj [("type", .str "string")])]),
  ("default", .null)])]

/-- C9 witness: the first pass on `c9safeSet` fills both enums, strips
`default` and adds the `additionalProperties` default; a second pass —
which recomputes the enums from the unchanged gvk triple — leaves this
unchanged. -/
def c9safeOut : Fields := [("X", .obj [
  ("x-kubernetes-group-version-kind", .arr [.obj [("group", .str "apps"),
    ("version", .str "v1"), ("kind", .str "Deployment")]]),
  ("properties", .obj [("kind", .obj [("type", .str "string"),
    ("enum", .arr [.str "Deployment"])]),
    ("apiVersion", .obj [("type", .str "string"),
      ("enum", .arr [.str "apps/v1"])])]),
  ("additionalProperties", .bool false)])]

/-- C10 input: a single-element `allOf` whose sole element is a single-key
dict without `$ref`. -/
def c10node : JValue := .obj [("allOf", .arr [.obj [("type", .str "object")]])]

theorem lookupF_eq_none_of_not_has {fs : Fields} {k : String} (h : hasKeyF fs k = false) :
    lookupF fs k = none := by
  induction fs with
  | nil => rfl
  | cons p fs ih =>
    obtain ⟨a, b⟩ := p
    simp only [hasKeyF, List.any_cons, Bool.or_eq_false_iff] at h
    obtain ⟨h1, h2⟩ := h
    simp only [lookupF]
    rw [if_neg (by simpa using h1)]
    exact ih h2

theorem hasKeyF_of_lookupF_some {fs : Fields} {k : String} {v : JValue}
    (h : lookupF fs k = some v) : hasKeyF fs k = true := by
  by_contra hc
  rw [lookupF_eq_none_of_not_has (Bool.eq_false_iff.mpr hc)] at h
  exact Option.noConfusion h

theorem lookupF_map_set {fs : Fields} {k k' : String} {v : JValue} (hne : k' ≠ k) :
    lookupF (fs.map (fun p => if p.1 = k then (k, v) else p)) k' = lookupF fs k' := by
  induction fs with
  | nil => rfl
  | cons p fs ih =>
    obtain ⟨a, b⟩ := p
    simp only [List.map_cons]
    by_cases hp : a = k
    · rw [if_pos (by simpa using hp)]
      simp only [lookupF]
      rw [if_neg (fun hh => hne hh.symm), if_neg (by rw [hp]; exact fun hh => hne hh.symm)]
      exact ih
    · rw [if_neg (by simpa using hp)]
      simp only [lookupF]
      by_cases hq : a = k'
      · rw [if_pos hq, if_pos hq]
      · rw [if_neg hq, if_neg hq]
        exact ih

theorem lookupF_append_of_none {fs gs : Fields} {k : String} (h : lookupF fs k = none) :
    lookupF (fs ++ gs) k = lookupF gs k := by
  induction fs with
  | nil => rfl
  | cons p fs ih =>
    obtain ⟨a, b⟩ := p
    simp only [lookupF] at h
    simp only [List.cons_append, lookupF]
    by_cases hq : a = k
    · rw [if_pos hq] at h
      exact Option.noConfusion h
    · rw [if_neg hq] at h ⊢
      exact ih h

theorem lookupF_append_single_ne {fs : Fields} {k k' : String} {v : JValue} (hne : k' ≠ k) :
    lookupF (fs ++ [(k, v)]) k' = lookupF fs k' := by
  induction fs with
  | nil =>
    simp only [List.nil_append, lookupF]
    rw [if_neg (fun hh => hne hh.symm)]
  | cons p fs ih =>
    obtain ⟨a, b⟩ := p
    simp only [List.cons_append, lookupF]
    by_cases hq : a = k'
    · rw [if_pos hq, if_pos hq]
    · rw [if_neg hq, if_neg hq]
      exact ih

theorem lookupF_setF_ne {fs : Fields} {k k' : String} {v : JValue} (hne : k' ≠ k) :
    lookupF (setF fs k v) k' = lookupF fs k' := by
  unfold setF
  by_cases h : hasKeyF fs k = true
  · rw [if_pos h]
    exact lookupF_map_set hne
  · rw [if_neg h]
    exact lookupF_append_single_ne hne

theorem popF_of_not_has {fs : Fields} {k : String} (h : hasKeyF fs k = false) :
    popF fs k = fs := by
  induction fs with
  | nil => rfl
  | cons p fs ih =>
    obtain ⟨a, b⟩ := p
    simp only [hasKeyF, List.any_cons, Bool.or_eq_false_iff] at h
    obtain ⟨h1, h2⟩ := h
    simp only [popF, List.filter_cons]
    rw [if_pos (by simpa using h1)]
    simp only [popF] at ih
    rw [ih h2]

theorem lookupF_popF_ne {fs : Fields} {k k' : String} (hne : k' ≠ k) :
    lookupF (popF fs k) k' = lookupF fs k' := by
  induction fs with
  | nil => rfl
  | cons p fs ih =>
    obtain ⟨a, b⟩ := p
    simp only [popF, List.filter_cons]
    by_cases hp : a = k
    · rw [if_neg (by simp [hp])]
      simp only [popF] at ih
      rw [ih]
      simp only [lookupF]
      rw [if_neg (by rw [hp]; exact fun hh => hne hh.symm)]
    · rw [if_pos (by simp [hp])]
      simp only [lookupF]
      by_cases hq : a = k'
      · rw [if_pos hq, if_pos hq]
      · rw [if_neg hq, if_neg hq]
        simp only [popF] at ih
        exact ih

theorem hasKeyF_popF_self {fs : Fields} {k : String} : hasKeyF (popF fs k) k = false := by
  induction fs with
  | nil => rfl
  | cons p fs ih =>
    obtain ⟨a, b⟩ := p
    simp only [popF, List.filter_cons]
    by_cases hp : a = k
    · rw [if_neg (by simp [hp])]
      exact ih
    · rw [if_pos (by simp [hp])]
      simp only [hasKeyF, List.any_cons]
      simp only [hasKeyF, popF] at ih
      rw [ih]
      simp [hp]

theorem map_set_all_eq {fs : Fields} {k : String} {v : JValue}
    (h : ∀ p ∈ fs, p.1 = k → p.2 = v) :
    fs.map (fun p => if p.1 = k then (k, v) else p) = fs := by
  induction fs with
  | nil => rfl
  | cons p fs ih =>
    obtain ⟨a, b⟩ := p
    simp only [List.map_cons]
    by_cases hp : a = k
    · rw [if_pos (by simpa using hp)]
      have hb : b = v := h (a, b) (List.mem_cons_self _ _) hp
      rw [ih (fun q hq hq1 => h q (List.mem_cons_of_mem _ hq) hq1), hp, hb]
    · rw [if_neg (by simpa using hp)]
      rw [ih (fun q hq hq1 => h q (List.mem_cons_of_mem _ hq) hq1)]

theorem setF_all_eq {fs : Fields} {k : String} {v : JValue}
    (hk : hasKeyF fs k = true) (h : ∀ p ∈ fs, p.1 = k → p.2 = v) : setF fs k v = fs := by
  unfold setF
  rw [if_pos hk]
  exact map_set_all_eq h

theorem setF_uniform {fs : Fields} {k : String} {v : JValue} :
    ∀ p ∈ setF fs k v, p.1 = k → p.2 = v := by
  intro p hp hk
  unfold setF at hp
  by_cases h : hasKeyF fs k = true
  · rw [if_pos h] at hp
    obtain ⟨q, hq, hqe⟩ := List.mem_map.mp hp
    by_cases hq1 : q.1 = k
    · rw [if_pos hq1] at hqe
      rw [← hqe]
    · rw [if_neg hq1] at hqe
      rw [← hqe] at hk
      exact absurd hk hq1
  · rw [if_neg h] at hp
    rcases List.mem_append.mp hp with hin | hin
    · have hkk : hasKeyF fs k = true := by
        unfold hasKeyF
        rw [List.any_eq_true]
        exact ⟨p, hin, by simpa using hk⟩
      exact absurd hkk h
    · simp only [List.mem_singleton] at hin
      rw [hin]

theorem charsIsPre_append_swap {q : List Char} :
    ∀ {p r : List Char}, charsIsPre p (q ++ r) = true → q.length ≤ p.length →
      charsIsPre q p = true := by
  induction q with
  | nil => intro p r _ _; rfl
  | cons c bs ih =>
    intro p r h hl
    cases p with
    | nil => simp at hl
    | cons a as =>
      simp only [List.cons_append, charsIsPre, Bool.and_eq_true, decide_eq_true_eq] at h ⊢
      obtain ⟨h1, h2⟩ := h
      exact ⟨h1.symm, ih h2 (by simpa using hl)⟩

theorem hasSub_append_no_hash {d : List Char} :
    ∀ {X : List Char}, (∀ ch ∈ d, ch ≠ '#') →
      charsHasSub componentsPat (d ++ X) = true → charsHasSub componentsPat X = true := by
  induction d with
  | nil => intro X _ h; exact h
  | cons c d ih =>
    intro X hd h
    simp only [List.cons_append, charsHasSub, Bool.or_eq_true] at h
    rcases h with h | h
    · exfalso
      have hpat : componentsPat = '#' :: "/components/schemas/".data := rfl
      rw [hpat] at h
      simp only [charsIsPre, Bool.and_eq_true, decide_eq_true_eq] at h
      exact hd c (List.mem_cons_self _ _) h.1.symm
    · exact ih (fun ch hch => hd ch (List.mem_cons_of_mem _ hch)) h

theorem charsIsPre_replAllF {fuel : Nat} :
    ∀ {cs t : List Char}, t ≠ [] → (∀ ch ∈ t, ch ≠ '#') →
      charsIsPre t (replAllF componentsPat definitionsRep fuel cs) = true →
      charsIsPre t cs = true := by
  induction fuel with
  | zero => intro cs t _ _ h; exact h
  | succ fuel ih =>
    intro cs t ht hh h
    cases cs with
    | nil =>
      simp only [replAllF] at h
      cases t with
      | nil => exact absurd rfl ht
      | cons a as => simp [charsIsPre] at h
    | cons c cs =>
      simp only [replAllF] at h
      rw [if_neg (by decide : ¬componentsPat.isEmpty = true)] at h
      by_cases hp : charsIsPre componentsPat (c :: cs) = true
      · rw [if_pos hp] at h
        exfalso
        have hrep : definitionsRep = '#' :: "/definitions/".data := rfl
        rw [hrep] at h
        cases t with
        | nil => exact ht rfl
        | cons a as =>
          simp only [List.cons_append, charsIsPre, Bool.and_eq_true, decide_eq_true_eq] at h
          exact hh a (List.mem_cons_self _ _) h.1
      · rw [if_neg hp] at h
        cases t with
        | nil => exact absurd rfl ht
        | cons a as =>
          simp only [charsIsPre, Bool.and_eq_true, decide_eq_true_eq] at h ⊢
          obtain ⟨h1, h2⟩ := h
          refine ⟨h1, ?_⟩
          cases has : as with
          | nil => rfl
          | cons a2 as2 =>
            rw [← has]
            exact ih (by rw [has]; exact fun hz => List.noConfusion hz)
              (fun ch hch => hh ch (List.mem_cons_of_mem _ hch)) (has ▸ h2)

theorem isPre_pat_head_ne {c : Char} {z : List Char} (hc : c ≠ '#') :
    charsIsPre componentsPat (c :: z) = false := by
  have hpat : componentsPat = '#' :: "/components/schemas/".data := rfl
  rw [hpat]
  simp only [charsIsPre]
  rw [decide_eq_false (fun h => hc h.symm), Bool.false_and]

theorem hasSub_cons_ne_hash {c : Char} {X : List Char} (hc : c ≠ '#') :
    charsHasSub componentsPat (c :: X) = charsHasSub componentsPat X := by
  simp only [charsHasSub]
  rw [isPre_pat_head_ne hc, Bool.false_or]

theorem not_isPre_pat_rep (Z : List Char) :
    charsIsPre componentsPat (definitionsRep ++ Z) = false := by
  have h1 : definitionsRep ++ Z = '#' :: '/' :: 'd' :: ("efinitions/".data ++ Z) := rfl
  have h2 : componentsPat = '#' :: '/' :: 'c' :: "omponents/schemas/".data := rfl
  rw [h1, h2]
  simp only [charsIsPre]
  rw [show (decide ('c' = 'd')) = false from rfl]
  simp

theorem hasSub_prepend_rep {X : List Char} :
    charsHasSub componentsPat (definitionsRep ++ X) = charsHasSub componentsPat X := by
  have hh := not_isPre_pat_rep X
  have h1 : definitionsRep ++ X = '#' :: ("/definitions/".data ++ X) := rfl
  rw [h1] at hh ⊢
  simp only [charsHasSub, List.nil_append]
  rw [hh]
  rw [isPre_pat_head_ne (by decide : ('/' : Char) ≠ '#'),
    isPre_pat_head_ne (by decide : ('d' : Char) ≠ '#'),
    isPre_pat_head_ne (by decide : ('e' : Char) ≠ '#'),
    isPre_pat_head_ne (by decide : ('f' : Char) ≠ '#'),
    isPre_pat_head_ne (by decide : ('i' : Char) ≠ '#'),
    isPre_pat_head_ne (by decide : ('n' : Char) ≠ '#'),
    isPre_pat_head_ne (by decide : ('i' : Char) ≠ '#'),
    isPre_pat_head_ne (by decide : ('t' : Char) ≠ '#'),
    isPre_pat_head_ne (by decide : ('i' : Char) ≠ '#'),
    isPre_pat_head_ne (by decide : ('o' : Char) ≠ '#'),
    isPre_pat_head_ne (by decide : ('n' : Char) ≠ '#'),
    isPre_pat_head_ne (by decide : ('s' : Char) ≠ '#'),
    isPre_pat_head_ne (by decide : ('/' : Char) ≠ '#')]
  simp

theorem hasSub_replAllF {fuel : Nat} :
    ∀ {s : List Char}, s.length ≤ fuel →
      charsHasSub componentsPat (replAllF componentsPat definitionsRep fuel s) = false := by
  induction fuel with
  | zero =>
    intro s hf
    have hs : s = [] := List.length_eq_zero.mp (Nat.le_zero.mp hf)
    rw [hs]
    rfl
  | succ fuel ih =>
    intro s hf
    cases s with
    | nil => rfl
    | cons c cs =>
      simp only [replAllF]
      rw [if_neg (by decide : ¬componentsPat.isEmpty = true)]
      by_cases hp : charsIsPre componentsPat (c :: cs) = true
      · rw [if_pos hp]
        have hdrop : (List.drop (componentsPat.length - 1) cs).length ≤ fuel := by
          simp only [List.length_drop]
          have : cs.length ≤ fuel := by
            simpa using Nat.le_of_succ_le_succ hf
          omega
        rw [hasSub_prepend_rep]
        exact ih hdrop
      · rw [if_neg hp]
        have hcs : cs.length ≤ fuel := by simpa using Nat.le_of_succ_le_succ hf
        by_cases hhash : c = '#'
        · subst hhash
          have hpat : componentsPat = '#' :: "/components/schemas/".data := rfl
          simp only [charsHasSub]
          rw [ih hcs, Bool.or_false]
          have hstep : ∀ z : List Char, charsIsPre componentsPat ('#' :: z) =
              charsIsPre "/components/schemas/".data z := by
            intro z
            rw [hpat]
            simp [charsIsPre]
          rw [hstep]
          by_cases hq : charsIsPre "/components/schemas/".data
              (replAllF componentsPat definitionsRep fuel cs) = true
          · exfalso
            have htail := charsIsPre_replAllF (by decide) (by decide) hq
            apply hp
            rw [hstep]
            exact htail
          · exact Bool.eq_false_iff.mpr hq
        · simp only [charsHasSub]
          rw [isPre_pat_head_ne hhash, ih hcs]
          rfl

theorem replAllF_of_no_sub {pat rep : List Char} {fuel : Nat} :
    ∀ {s : List Char}, charsHasSub pat s = false → replAllF pat rep fuel s = s := by
  induction fuel with
  | zero => intro s _; rfl
  | succ fuel ih =>
    intro s h
    cases s with
    | nil => rfl
    | cons c cs =>
      simp only [charsHasSub, Bool.or_eq_false_iff] at h
      obtain ⟨h1, h2⟩ := h
      simp only [replAllF]
      by_cases hemp : pat.isEmpty = true
      · exfalso
        have : pat = [] := by
          cases pat
          · rfl
          · simp [List.isEmpty] at hemp
        rw [this] at h1
        exact Bool.noConfusion h1
      · rw [if_neg hemp, if_neg (by rw [h1]; exact Bool.noConfusion)]
        rw [ih h2]

theorem pyReplaceRef_no_sub (s : String) :
    charsHasSub componentsPat (pyReplaceRef s).data = false :=
  hasSub_replAllF (Nat.le_refl _)

theorem pyReplaceRef_fixed {s : String} (h : charsHasSub componentsPat s.data = false) :
    pyReplaceRef s = s := by
  unfold pyReplaceRef replAll
  rw [replAllF_of_no_sub h]

theorem lookupF_map_set_self {fs : Fields} {k : String} {v : JValue}
    (h : hasKeyF fs k = true) :
    lookupF (fs.map (fun p => if p.1 = k then (k, v) else p)) k = some v := by
  induction fs with
  | nil => exact absurd h (by simp [hasKeyF])
  | cons p fs ih =>
    obtain ⟨a, b⟩ := p
    simp only [List.map_cons]
    by_cases hp : a = k
    · rw [if_pos (by simpa using hp)]
      simp [lookupF]
    · rw [if_neg (by simpa using hp)]
      simp only [lookupF]
      rw [if_neg hp]
      exact ih (by
        simp only [hasKeyF, List.any_cons] at h
        rcases Bool.or_eq_true_iff.mp h with h1 | h1
        · exact absurd (by simpa using h1) hp
        · exact h1)

theorem lookupF_setF_self {fs : Fields} {k : String} {v : JValue} :
    lookupF (setF fs k v) k = some v := by
  unfold setF
  by_cases h : hasKeyF fs k = true
  · rw [if_pos h]
    exact lookupF_map_set_self h
  · rw [if_neg h]
    rw [lookupF_append_of_none (lookupF_eq_none_of_not_has (Bool.eq_false_iff.mpr h))]
    simp [lookupF]

/-- Destructure one successful step of `cleanupSchema` on a dict. -/
theorem cleanupSchema_succ_elim {dF : List JValue → List JValue} {fuel : Nat} {fs : Fields}
    {w : JValue} (h : cleanupSchema dF (fuel + 1) (.obj fs) = some w) :
    ∃ fs2 fs4 fs5, hoistStep (popF fs "default") = some fs2 ∧
      enumStep dF (refStep fs2) = some fs4 ∧
      cleanupFields dF fuel fs4 = some fs5 ∧ w = .obj fs5 := by
  simp only [cleanupSchema] at h
  cases h2 : hoistStep (popF fs "default") with
  | none => rw [h2] at h; exact Option.noConfusion h
  | some fs2 =>
    rw [h2, Option.some_bind] at h
    cases h4 : enumStep dF (refStep fs2) with
    | none => rw [h4] at h; exact Option.noConfusion h
    | some fs4 =>
      rw [h4, Option.some_bind] at h
      cases h5 : cleanupFields dF fuel fs4 with
      | none => rw [h5] at h; exact Option.noConfusion h
      | some fs5 =>
        rw [h5, Option.some_bind] at h
        exact ⟨fs2, fs4, fs5, rfl, h4, h5, (Option.some_inj.mp h).symm⟩

/-- `_cleanup_schema` only ever returns a dict. -/
theorem cleanupSchema_obj_out {dF : List JValue → List JValue} {fuel : Nat} {v w : JValue}
    (h : cleanupSchema dF fuel v = some w) : ∃ gs, w = .obj gs := by
  match fuel, v with
  | 0, _ => exact Option.noConfusion h
  | fuel + 1, .obj fs =>
    obtain ⟨fs2, fs4, fs5, _, _, _, hw⟩ := cleanupSchema_succ_elim h
    exact ⟨fs5, hw⟩
  | fuel + 1, .null => exact Option.noConfusion h
  | fuel + 1, .bool _ => exact Option.noConfusion h
  | fuel + 1, .num _ => exact Option.noConfusion h
  | fuel + 1, .str _ => exact Option.noConfusion h
  | fuel + 1, .arr _ => exact Option.noConfusion h

/-- Destructure one successful step of `cleanupElems` on a dict head. -/
theorem cleanupElems_obj_elim {dF : List JValue → List JValue} {fuel : Nat} {ofs : Fields}
    {xs ys : List JValue} (h : cleanupElems dF (fuel + 1) (.obj ofs :: xs) = some ys) :
    ∃ y ys2, cleanupSchema dF fuel (.obj ofs) = some y ∧
      cleanupElems dF fuel xs = some ys2 ∧ ys = y :: ys2 := by
  simp only [cleanupElems] at h
  cases h1 : cleanupSchema dF fuel (.obj ofs) with
  | none => rw [h1] at h; exact Option.noConfusion h
  | some y =>
    rw [h1, Option.some_bind] at h
    cases h2 : cleanupElems dF fuel xs with
    | none => rw [h2] at h; exact Option.noConfusion h
    | some ys2 =>
      rw [h2, Option.some_bind] at h
      exact ⟨y, ys2, rfl, rfl, (Option.some_inj.mp h).symm⟩

/-- Destructure one successful step of `cleanupElems` on a non-dict head. -/
theorem cleanupElems_skip_elim {dF : List JValue → List JValue} {fuel : Nat} {x : JValue}
    {xs ys : List JValue} (hx : ∀ ofs, x ≠ .obj ofs)
    (h : cleanupElems dF (fuel + 1) (x :: xs) = some ys) :
    ∃ ys2, cleanupElems dF fuel xs = some ys2 ∧ ys = x :: ys2 := by
  match x, hx with
  | .null, _ | .bool _, _ | .num _, _ | .str _, _ | .arr _, _ =>
    simp only [cleanupElems] at h
    cases h2 : cleanupElems dF fuel xs with
    | none => rw [h2] at h; exact Option.noConfusion h
    | some ys2 =>
      rw [h2, Option.some_bind] at h
      exact ⟨ys2, rfl, (Option.some_inj.mp h).symm⟩
  | .obj ofs, hx => exact absurd rfl (hx ofs)

theorem cleanupElems_length {dF : List JValue → List JValue} :
    ∀ {fuel : Nat} {xs ys : List JValue}, cleanupElems dF fuel xs = some ys →
      ys.length = xs.length := by
  intro fuel
  induction fuel with
  | zero => intro xs ys h; exact Option.noConfusion h
  | succ fuel ih =>
    intro xs ys h
    match xs with
    | [] =>
      simp only [cleanupElems] at h
      rw [← Option.some_inj.mp h]
    | .obj ofs :: xs =>
      obtain ⟨y, ys2, h1, h2, hys⟩ := cleanupElems_obj_elim h
      rw [hys]
      simp [ih h2]
    | .null :: xs | .bool _ :: xs | .num _ :: xs | .str _ :: xs | .arr _ :: xs =>
      obtain ⟨ys2, h2, hys⟩ := cleanupElems_skip_elim (by intro _ hh; exact JValue.noConfusion hh) h
      rw [hys]
      simp [ih h2]

theorem refStep_lookup_ne {fs : Fields} {k : String} (hne : k ≠ "$ref") :
    lookupF (refStep fs) k = lookupF fs k := by
  cases h : lookupF fs "$ref" with
  | none => simp only [refStep, h]
  | some v =>
    cases v with
    | str s =>
      simp only [refStep, h]
      exact lookupF_setF_ne hne
    | null => simp only [refStep, h]
    | bool _ => simp only [refStep, h]
    | num _ => simp only [refStep, h]
    | arr _ => simp only [refStep, h]
    | obj _ => simp only [refStep, h]

theorem enumStep_lookup_ne {dF : List JValue → List JValue} {fs fs' : Fields} {k : String}
    (h : enumStep dF fs = some fs') (hne : k ≠ "enum") :
    lookupF fs' k = lookupF fs k := by
  cases hl : lookupF fs "enum" with
  | none =>
    simp only [enumStep, hl] at h
    rw [← Option.some_inj.mp h]
  | some v =>
    cases v with
    | arr l =>
      simp only [enumStep, hl] at h
      by_cases hall : (l.all fun x => isHashable x) = true
      · rw [if_pos hall] at h
        rw [← Option.some_inj.mp h]
        exact lookupF_setF_ne hne
      · rw [if_neg hall] at h
        exact Option.noConfusion h
    | null =>
      simp only [enumStep, hl] at h
      rw [← Option.some_inj.mp h]
    | bool _ =>
      simp only [enumStep, hl] at h
      rw [← Option.some_inj.mp h]
    | num _ =>
      simp only [enumStep, hl] at h
      rw [← Option.some_inj.mp h]
    | str _ =>
      simp only [enumStep, hl] at h
      rw [← Option.some_inj.mp h]
    | obj _ =>
      simp only [enumStep, hl] at h
      rw [← Option.some_inj.mp h]

/-- Destructure one successful step of `cleanupFields` on a dict value. -/
theorem cleanupFields_obj_elim {dF : List JValue → List JValue} {fuel : Nat} {k : String}
    {ofs : Fields} {fs fs2 : Fields}
    (h : cleanupFields dF (fuel + 1) ((k, .obj ofs) :: fs) = some fs2) :
    ∃ v2 fs2', cleanupSchema dF fuel (.obj ofs) = some v2 ∧
      cleanupFields dF fuel fs = some fs2' ∧ fs2 = (k, v2) :: fs2' := by
  simp only [cleanupFields] at h
  cases h1 : cleanupSchema dF fuel (.obj ofs) with
  | none => rw [h1] at h; exact Option.noConfusion h
  | some v2 =>
    rw [h1, Option.some_bind] at h
    cases h2 : cleanupFields dF fuel fs with
    | none => rw [h2] at h; exact Option.noConfusion h
    | some fs2' =>
      rw [h2, Option.some_bind] at h
      exact ⟨v2, fs2', rfl, rfl, (Option.some_inj.mp h).symm⟩

/-- Destructure one successful step of `cleanupFields` on a list value. -/
theorem cleanupFields_arr_elim {dF : List JValue → List JValue} {fuel : Nat} {k : String}
    {xs : List JValue} {fs fs2 : Fields}
    (h : cleanupFields dF (fuel + 1) ((k, .arr xs) :: fs) = some fs2) :
    ∃ ys fs2', cleanupElems dF fuel xs = some ys ∧
      cleanupFields dF fuel fs = some fs2' ∧ fs2 = (k, .arr ys) :: fs2' := by
  simp only [cleanupFields] at h
  cases h1 : cleanupElems dF fuel xs with
  | none => rw [h1] at h; exact Option.noConfusion h
  | some ys =>
    rw [h1, Option.some_bind] at h
    cases h2 : cleanupFields dF fuel fs with
    | none => rw [h2] at h; exact Option.noConfusion h
    | some fs2' =>
      rw [h2, Option.some_bind] at h
      exact ⟨ys, fs2', rfl, rfl, (Option.some_inj.mp h).symm⟩

/-- Destructure one successful step of `cleanupFields` on a scalar value. -/
theorem cleanupFields_skip_elim {dF : List JValue → List JValue} {fuel : Nat} {k : String}
    {x : JValue} {fs fs2 : Fields} (hx1 : ∀ ofs, x ≠ .obj ofs) (hx2 : ∀ xs, x ≠ .arr xs)
    (h : cleanupFields dF (fuel + 1) ((k, x) :: fs) = some fs2) :
    ∃ fs2', cleanupFields dF fuel fs = some fs2' ∧ fs2 = (k, x) :: fs2' := by
  match x, hx1, hx2 with
  | .null, _, _ | .bool _, _, _ | .num _, _, _ | .str _, _, _ =>
    simp only [cleanupFields] at h
    cases h2 : cleanupFields dF fuel fs with
    | none => rw [h2] at h; exact Option.noConfusion h
    | some fs2' =>
      rw [h2, Option.some_bind] at h
      exact ⟨fs2', rfl, (Option.some_inj.mp h).symm⟩
  | .obj ofs, hx1, _ => exact absurd rfl (hx1 ofs)
  | .arr xs, _, hx2 => exact absurd rfl (hx2 xs)

/-- A string-valued entry of a cleaned field list was string-valued, with
the same string, before cleaning. -/
theorem cleanupFields_str_rev {dF : List JValue → List JValue} :
    ∀ {fuel : Nat} {fs fs2 : Fields} {k : String} {s : String},
      cleanupFields dF fuel fs = some fs2 → lookupF fs2 k = some (.str s) →
      lookupF fs k = some (.str s) := by
  intro fuel
  induction fuel with
  | zero => intro fs fs2 k s h _; exact Option.noConfusion h
  | succ fuel ih =>
    intro fs fs2 k s h hl
    match fs with
    | [] =>
      simp only [cleanupFields] at h
      rw [← Option.some_inj.mp h] at hl
      exact Option.noConfusion hl
    | (k0, .obj ofs) :: fs =>
      obtain ⟨v2, fs2', h1, h2, hfs2⟩ := cleanupFields_obj_elim h
      rw [hfs2] at hl
      simp only [lookupF] at hl ⊢
      by_cases hk : k0 = k
      · rw [if_pos hk] at hl
        obtain ⟨gs, hg⟩ := cleanupSchema_obj_out h1
        rw [hg] at hl
        exact absurd (Option.some_inj.mp hl) (by intro hh; exact JValue.noConfusion hh)
      · rw [if_neg hk] at hl ⊢
        exact ih h2 hl
    | (k0, .arr xs) :: fs =>
      obtain ⟨ys, fs2', h1, h2, hfs2⟩ := cleanupFields_arr_elim h
      rw [hfs2] at hl
      simp only [lookupF] at hl ⊢
      by_cases hk : k0 = k
      · rw [if_pos hk] at hl
        exact absurd (Option.some_inj.mp hl) (by intro hh; exact JValue.noConfusion hh)
      · rw [if_neg hk] at hl ⊢
        exact ih h2 hl
    | (k0, .null) :: fs | (k0, .bool _) :: fs | (k0, .num _) :: fs
    | (k0, .str _) :: fs =>
      obtain ⟨fs2', h2, hfs2⟩ := cleanupFields_skip_elim
        (by intro _ hh; exact JValue.noConfusion hh)
        (by intro _ hh; exact JValue.noConfusion hh) h
      rw [hfs2] at hl
      simp only [lookupF] at hl ⊢
      by_cases hk : k0 = k
      · rw [if_pos hk] at hl ⊢
        exact hl
      · rw [if_neg hk] at hl ⊢
        exact ih h2 hl

theorem refStep_of_str {fs : Fields} {s : String} (h : lookupF fs "$ref" = some (.str s)) :
    lookupF (refStep fs) "$ref" = some (.str (pyReplaceRef s)) := by
  simp only [refStep, h]
  exact lookupF_setF_self

theorem refStep_of_not_str {fs : Fields} (h : ∀ s, lookupF fs "$ref" ≠ some (.str s)) :
    refStep fs = fs := by
  cases hl : lookupF fs "$ref" with
  | none => simp only [refStep, hl]
  | some v =>
    cases v with
    | str s => exact absurd hl (h s)
    | null => simp only [refStep, hl]
    | bool _ => simp only [refStep, hl]
    | num _ => simp only [refStep, hl]
    | arr _ => simp only [refStep, hl]
    | obj _ => simp only [refStep, hl]

/-- The hoist is skipped when `allOf` is a list of length other than 1. -/
theorem hoistStep_skip_len {fs : Fields} {l : List JValue}
    (hl : lookupF fs "allOf" = some (.arr l)) (hlen : l.length ≠ 1) :
    hoistStep fs = some fs := by
  match l, hlen with
  | [], _ => simp only [hoistStep, hl]
  | a :: b :: l2, _ => simp only [hoistStep, hl]
  | [a], hlen => exact absurd rfl hlen

/-- A list-valued entry survives field cleaning as a list of the same
length. -/
theorem cleanupFields_arr_fwd {dF : List JValue → List JValue} :
    ∀ {fuel : Nat} {fs fs2 : Fields} {k : String} {l : List JValue},
      cleanupFields dF fuel fs = some fs2 → lookupF fs k = some (.arr l) →
      ∃ l', lookupF fs2 k = some (.arr l') ∧ l'.length = l.length := by
  intro fuel
  induction fuel with
  | zero => intro fs fs2 k l h _; exact Option.noConfusion h
  | succ fuel ih =>
    intro fs fs2 k l h hl
    match fs with
    | [] => exact Option.noConfusion hl
    | (k0, .obj ofs) :: fs =>
      obtain ⟨v2, fs2', h1, h2, hfs2⟩ := cleanupFields_obj_elim h
      rw [hfs2]
      simp only [lookupF] at hl ⊢
      by_cases hk : k0 = k
      · rw [if_pos hk] at hl
        exact absurd (Option.some_inj.mp hl) (by intro hh; exact JValue.noConfusion hh)
      · rw [if_neg hk] at hl ⊢
        exact ih h2 hl
    | (k0, .arr xs) :: fs =>
      obtain ⟨ys, fs2', h1, h2, hfs2⟩ := cleanupFields_arr_elim h
      rw [hfs2]
      simp only [lookupF] at hl ⊢
      by_cases hk : k0 = k
      · rw [if_pos hk] at hl ⊢
        have hx : xs = l := by
          have := Option.some_inj.mp hl
          injection this
        exact ⟨ys, rfl, by rw [cleanupElems_length h1, hx]⟩
      · rw [if_neg hk] at hl ⊢
        exact ih h2 hl
    | (k0, .null) :: fs | (k0, .bool _) :: fs | (k0, .num _) :: fs
    | (k0, .str _) :: fs =>
      obtain ⟨fs2', h2, hfs2⟩ := cleanupFields_skip_elim
        (by intro _ hh; exact JValue.noConfusion hh)
        (by intro _ hh; exact JValue.noConfusion hh) h
      rw [hfs2]
      simp only [lookupF] at hl ⊢
      by_cases hk : k0 = k
      · rw [if_pos hk] at hl ⊢
        exact absurd (Option.some_inj.mp hl) (by intro hh; exact JValue.noConfusion hh)
      · rw [if_neg hk] at hl ⊢
        exact ih h2 hl

/-- Cleaning leaves every visited node with rewritten `$ref` strings. -/
theorem cleanup_visited (dF : List JValue → List JValue) : ∀ fuel : Nat,
    (∀ v w, cleanupSchema dF fuel v = some w → VisitedClean w) ∧
    (∀ fs fs2, cleanupFields dF fuel fs = some fs2 →
      ∀ kv ∈ fs2, VisitedCleanChild (Prod.snd kv)) ∧
    (∀ xs ys, cleanupElems dF fuel xs = some ys → ∀ y ∈ ys, VisitedCleanElem y) := by
  intro fuel
  induction fuel with
  | zero =>
    exact ⟨fun v w h => Option.noConfusion h, fun fs fs2 h => absurd h (by simp [cleanupFields]),
      fun xs ys h => absurd h (by simp [cleanupElems])⟩
  | succ fuel ih =>
    obtain ⟨ihs, ihf, ihe⟩ := ih
    refine ⟨?_, ?_, ?_⟩
    · intro v w h
      match v with
      | .null | .bool _ | .num _ | .str _ | .arr _ => exact Option.noConfusion h
      | .obj fs =>
        obtain ⟨fs2, fs4, fs5, h2, h4, h5, hw⟩ := cleanupSchema_succ_elim h
        rw [hw]
        refine VisitedClean.obj fs5 ?_ (fun kv hkv => ihf fs4 fs5 h5 kv hkv)
        unfold refsOKB
        cases hr5 : lookupF fs5 "$ref" with
        | none => rfl
        | some v5 =>
          match v5 with
          | .null | .bool _ | .num _ | .arr _ | .obj _ => rfl
          | .str s =>
            have hr4 : lookupF fs4 "$ref" = some (.str s) := cleanupFields_str_rev h5 hr5
            have hr3 : lookupF (refStep fs2) "$ref" = some (.str s) := by
              rw [← enumStep_lookup_ne h4 (by decide)]
              exact hr4
            cases hr2 : lookupF fs2 "$ref" with
            | none =>
              rw [refStep_of_not_str (fun t ht => by rw [hr2] at ht; exact Option.noConfusion ht),
                hr2] at hr3
              exact Option.noConfusion hr3
            | some v2 =>
              match v2 with
              | .str t =>
                have h8 := refStep_of_str hr2
                rw [hr3] at h8
                have h9 := Option.some_inj.mp h8
                cases h9
                simp [pyReplaceRef_no_sub]
              | .null | .bool _ | .num _ | .arr _ | .obj _ =>
                rw [refStep_of_not_str (fun t ht => by
                    rw [hr2] at ht
                    have := Option.some_inj.mp ht
                    exact JValue.noConfusion this), hr2] at hr3
                exact absurd (Option.some_inj.mp hr3) (by intro hh; exact JValue.noConfusion hh)
    · intro fs fs2 h kv hkv
      match fs with
      | [] =>
        simp only [cleanupFields] at h
        rw [← Option.some_inj.mp h] at hkv
        exact absurd hkv (List.not_mem_nil kv)
      | (k0, .obj ofs) :: fs =>
        obtain ⟨v2, fs2', h1, h2, hfs2⟩ := cleanupFields_obj_elim h
        rw [hfs2] at hkv
        rcases List.mem_cons.mp hkv with hkv | hkv
        · rw [hkv]
          obtain ⟨gs, hg⟩ := cleanupSchema_obj_out h1
          have hv : VisitedClean v2 := ihs _ _ h1
          rw [hg] at hv ⊢
          exact VisitedCleanChild.obj gs hv
        · exact ihf _ _ h2 kv hkv
      | (k0, .arr xs) :: fs =>
        obtain ⟨ys, fs2', h1, h2, hfs2⟩ := cleanupFields_arr_elim h
        rw [hfs2] at hkv
        rcases List.mem_cons.mp hkv with hkv | hkv
        · rw [hkv]
          exact VisitedCleanChild.arr ys (fun y hy => ihe _ _ h1 y hy)
        · exact ihf _ _ h2 kv hkv
      | (k0, .null) :: fs =>
        obtain ⟨fs2', h2, hfs2⟩ := cleanupFields_skip_elim
          (by intro _ hh; exact JValue.noConfusion hh)
          (by intro _ hh; exact JValue.noConfusion hh) h
        rw [hfs2] at hkv
        rcases List.mem_cons.mp hkv with hkv | hkv
        · rw [hkv]; exact VisitedCleanChild.null
        · exact ihf _ _ h2 kv hkv
      | (k0, .bool b) :: fs =>
        obtain ⟨fs2', h2, hfs2⟩ := cleanupFields_skip_elim
          (by intro _ hh; exact JValue.noConfusion hh)
          (by intro _ hh; exact JValue.noConfusion hh) h
        rw [hfs2] at hkv
        rcases List.mem_cons.mp hkv with hkv | hkv
        · rw [hkv]; exact VisitedCleanChild.bool b
        · exact ihf _ _ h2 kv hkv
      | (k0, .num n) :: fs =>
        obtain ⟨fs2', h2, hfs2⟩ := cleanupFields_skip_elim
          (by intro _ hh; exact JValue.noConfusion hh)
          (by intro _ hh; exact JValue.noConfusion hh) h
        rw [hfs2] at hkv
        rcases List.mem_cons.mp hkv with hkv | hkv
        · rw [hkv]; exact VisitedCleanChild.num n
        · exact ihf _ _ h2 kv hkv
      | (k0, .str s) :: fs =>
        obtain ⟨fs2', h2, hfs2⟩ := cleanupFields_skip_elim
          (by intro _ hh; exact JValue.noConfusion hh)
          (by intro _ hh; exact JValue.noConfusion hh) h
        rw [hfs2] at hkv
        rcases List.mem_cons.mp hkv with hkv | hkv
        · rw [hkv]; exact VisitedCleanChild.str s
        · exact ihf _ _ h2 kv hkv
    · intro xs ys h y hy
      match xs with
      | [] =>
        simp only [cleanupElems] at h
        rw [← Option.some_inj.mp h] at hy
        exact absurd hy (List.not_mem_nil y)
      | .obj ofs :: xs =>
        obtain ⟨y1, ys2, h1, h2, hys⟩ := cleanupElems_obj_elim h
        rw [hys] at hy
        rcases List.mem_cons.mp hy with hy | hy
        · rw [hy]
          obtain ⟨gs, hg⟩ := cleanupSchema_obj_out h1
          have hv : VisitedClean y1 := ihs _ _ h1
          rw [hg] at hv ⊢
          exact VisitedCleanElem.obj gs hv
        · exact ihe _ _ h2 y hy
      | .null :: xs | .bool _ :: xs | .num _ :: xs | .str _ :: xs | .arr _ :: xs =>
        obtain ⟨ys2, h2, hys⟩ := cleanupElems_skip_elim
          (by intro _ hh; exact JValue.noConfusion hh) h
        rw [hys] at hy
        rcases List.mem_cons.mp hy with hy | hy
        · rw [hy]
          exact VisitedCleanElem.nonObj _ (by intro _ hh; exact JValue.noConfusion hh)
        · exact ihe _ _ h2 y hy

theorem pyEq_refl_hashable {x : JValue} (h : isHashable x = true) : pyEq x x = true := by
  match x with
  | .null => rfl
  | .bool b => simp [pyEq]
  | .num n => simp [pyEq]
  | .str s => simp [pyEq]
  | .arr _ => exact Bool.noConfusion h
  | .obj _ => exact Bool.noConfusion h

theorem dedupPy_aux_mem : ∀ (l acc : List JValue) (y : JValue),
    y ∈ l.foldl (fun acc x => if acc.any (fun e => pyEq e x) then acc else acc ++ [x]) acc →
    y ∈ acc ∨ y ∈ l := by
  intro l
  induction l with
  | nil => intro acc y h; exact Or.inl h
  | cons x ls ih =>
    intro acc y h
    simp only [List.foldl_cons] at h
    rcases ih _ y h with hy | hy
    · by_cases hc : (acc.any fun e => pyEq e x) = true
      · rw [if_pos hc] at hy
        exact Or.inl hy
      · rw [if_neg hc] at hy
        rcases List.mem_append.mp hy with hy | hy
        · exact Or.inl hy
        · simp only [List.mem_singleton] at hy
          exact Or.inr (by rw [hy]; exact List.mem_cons_self _ _)
    · exact Or.inr (List.mem_cons_of_mem _ hy)

theorem dedupPy_aux_acc : ∀ (l acc : List JValue) (y : JValue), y ∈ acc →
    y ∈ l.foldl (fun acc x => if acc.any (fun e => pyEq e x) then acc else acc ++ [x]) acc := by
  intro l
  induction l with
  | nil => intro acc y h; exact h
  | cons x ls ih =>
    intro acc y h
    simp only [List.foldl_cons]
    apply ih
    by_cases hc : (acc.any fun e => pyEq e x) = true
    · rw [if_pos hc]; exact h
    · rw [if_neg hc]; exact List.mem_append_left _ h

theorem dedupPy_sub : DedupSub dedupPy := by
  intro l _ y hy
  rcases dedupPy_aux_mem l [] y hy with hy | hy
  · exact absurd hy (List.not_mem_nil y)
  · exact hy

theorem dedupPy_aux_cover : ∀ (l acc : List JValue), (∀ x ∈ l, isHashable x = true) →
    ∀ x ∈ l, ∃ y, y ∈ l.foldl
      (fun acc x => if acc.any (fun e => pyEq e x) then acc else acc ++ [x]) acc ∧
      pyEq y x = true := by
  intro l
  induction l with
  | nil => intro acc _ x hx; exact absurd hx (List.not_mem_nil x)
  | cons z ls ih =>
    intro acc hall x hx
    simp only [List.foldl_cons]
    rcases List.mem_cons.mp hx with hx | hx
    · subst hx
      by_cases hc : (acc.any fun e => pyEq e x) = true
      · obtain ⟨e, he, hex⟩ := List.any_eq_true.mp hc
        rw [if_pos hc]
        exact ⟨e, dedupPy_aux_acc ls acc e he, hex⟩
      · rw [if_neg hc]
        exact ⟨x, dedupPy_aux_acc ls (acc ++ [x]) x (List.mem_append_right _
          (List.mem_singleton.mpr rfl)),
          pyEq_refl_hashable (hall x (List.mem_cons_self _ _))⟩
    · exact ih _ (fun q hq => hall q (List.mem_cons_of_mem _ hq)) x hx

theorem dedupPy_cover : DedupCover dedupPy := by
  intro l hall x hx
  obtain ⟨y, hy, hxy⟩ := dedupPy_aux_cover l [] hall x hx
  exact ⟨y, hy, hxy⟩

theorem dedupPy_aux_distinct : ∀ (l acc : List JValue),
    acc.Pairwise (fun a b => pyEq a b = false) →
    (l.foldl (fun acc x => if acc.any (fun e => pyEq e x) then acc else acc ++ [x])
      acc).Pairwise (fun a b => pyEq a b = false) := by
  intro l
  induction l with
  | nil => intro acc h; exact h
  | cons z ls ih =>
    intro acc h
    simp only [List.foldl_cons]
    apply ih
    by_cases hc : (acc.any fun e => pyEq e z) = true
    · rw [if_pos hc]; exact h
    · rw [if_neg hc]
      rw [List.pairwise_append]
      refine ⟨h, List.pairwise_singleton _ _, ?_⟩
      intro a ha b hb
      rw [List.mem_singleton.mp hb]
      have := List.any_eq_false.mp (Bool.eq_false_iff.mpr hc)
      exact Bool.eq_false_iff.mpr (this a ha)

theorem dedupPy_distinct : DedupDistinct dedupPy := by
  intro l _
  exact dedupPy_aux_distinct l [] (List.Pairwise.nil)

theorem dedupPy_aux_fixed : ∀ (l acc : List JValue),
    l.Pairwise (fun a b => pyEq a b = false) →
    (∀ x ∈ l, ∀ e ∈ acc, pyEq e x = false) →
    l.foldl (fun acc x => if acc.any (fun e => pyEq e x) then acc else acc ++ [x]) acc =
      acc ++ l := by
  intro l
  induction l with
  | nil => intro acc _ _; simp
  | cons z ls ih =>
    intro acc hpair hacc
    simp only [List.foldl_cons]
    have hc : (acc.any fun e => pyEq e z) = false := by
      rw [List.any_eq_false]
      intro e he
      rw [hacc z (List.mem_cons_self _ _) e he]
      exact Bool.false_ne_true
    have htail : ∀ x ∈ ls, ∀ e ∈ acc ++ [z], pyEq e x = false := by
      intro x hx e he
      rcases List.mem_append.mp he with he | he
      · exact hacc x (List.mem_cons_of_mem _ hx) e he
      · rw [List.mem_singleton.mp he]
        exact (List.pairwise_cons.mp hpair).1 x hx
    rw [if_neg (fun hh => by rw [hc] at hh; exact Bool.noConfusion hh)]
    rw [ih (acc ++ [z]) (List.pairwise_cons.mp hpair).2 htail]
    simp

theorem dedupPy_idem : DedupIdem dedupPy := by
  intro l hall
  have hd : (dedupPy l).Pairwise (fun a b => pyEq a b = false) := dedupPy_distinct l hall
  have h2 := dedupPy_aux_fixed (dedupPy l) [] hd (fun x _ e he => absurd he (List.not_mem_nil e))
  simpa [dedupPy] using h2

/-- With an admissible order choice, `list(set([a, b]))` for two distinct
hashable values is `[a, b]` or `[b, a]`. -/
theorem dedup_pair {dF : List JValue → List JValue} (hsub : DedupSub dF)
    (hcov : DedupCover dF) (hdis : DedupDistinct dF) {a b : JValue}
    (hha : isHashable a = true) (hhb : isHashable b = true)
    (hab : pyEq a b = false) (hba : pyEq b a = false) :
    dF [a, b] = [a, b] ∨ dF [a, b] = [b, a] := by
  have hall : ∀ x ∈ [a, b], isHashable x = true := by
    intro x hx
    rcases List.mem_cons.mp hx with hx | hx
    · rw [hx]; exact hha
    · rw [List.mem_singleton.mp hx]; exact hhb
  have hmem : ∀ y ∈ dF [a, b], y = a ∨ y = b := by
    intro y hy
    have := hsub [a, b] hall y hy
    rcases List.mem_cons.mp this with h | h
    · exact Or.inl h
    · exact Or.inr (List.mem_singleton.mp h)
  obtain ⟨ya, hya, hya2⟩ := hcov [a, b] hall a (List.mem_cons_self _ _)
  obtain ⟨yb, hyb, hyb2⟩ := hcov [a, b] hall b (List.mem_cons_of_mem _ (List.mem_singleton.mpr rfl))
  have hd := hdis [a, b] hall
  cases hout : dF [a, b] with
  | nil =>
    rw [hout] at hya
    exact absurd hya (List.not_mem_nil ya)
  | cons x rest =>
    have hx : x = a ∨ x = b := hmem x (by rw [hout]; exact List.mem_cons_self _ _)
    cases rest with
    | nil =>
      exfalso
      rw [hout] at hya hyb
      rw [List.mem_singleton.mp hya] at hya2
      rw [List.mem_singleton.mp hyb] at hyb2
      rcases hx with hx | hx
      · rw [hx] at hyb2
        rw [hyb2] at hab
        exact Bool.noConfusion hab
      · rw [hx] at hya2
        rw [hya2] at hba
        exact Bool.noConfusion hba
    | cons y rest2 =>
      have hy : y = a ∨ y = b :=
        hmem y (by rw [hout]; exact List.mem_cons_of_mem _ (List.mem_cons_self _ _))
      rw [hout] at hd
      have hxy : pyEq x y = false := (List.pairwise_cons.mp hd).1 y (List.mem_cons_self _ _)
      have hrefl_a : pyEq a a = true := pyEq_refl_hashable hha
      have hrefl_b : pyEq b b = true := pyEq_refl_hashable hhb
      have hrest : rest2 = [] := by
        cases hrest2 : rest2 with
        | nil => rfl
        | cons z rest3 =>
          exfalso
          have hz : z = a ∨ z = b := hmem z (by
            rw [hout, hrest2]
            exact List.mem_cons_of_mem _ (List.mem_cons_of_mem _ (List.mem_cons_self _ _)))
          have hxz : pyEq x z = false := (List.pairwise_cons.mp hd).1 z (by
            rw [hrest2]
            exact List.mem_cons_of_mem _ (List.mem_cons_self _ _))
          have hyz : pyEq y z = false :=
            (List.pairwise_cons.mp (List.pairwise_cons.mp hd).2).1 z (by
              rw [hrest2]
              exact List.mem_cons_self _ _)
          rcases hz with hz | hz
          · rcases hx with hx | hx
            · rw [hx, hz, hrefl_a] at hxz
              exact Bool.noConfusion hxz
            · rcases hy with hy | hy
              · rw [hy, hz, hrefl_a] at hyz
                exact Bool.noConfusion hyz
              · rw [hx, hy, hrefl_b] at hxy
                exact Bool.noConfusion hxy
          · rcases hx with hx | hx
            · rcases hy with hy | hy
              · rw [hx, hy, hrefl_a] at hxy
                exact Bool.noConfusion hxy
              · rw [hy, hz, hrefl_b] at hyz
                exact Bool.noConfusion hyz
            · rw [hx, hz, hrefl_b] at hxz
              exact Bool.noConfusion hxz
      subst hrest
      rcases hx with hx | hx <;> rcases hy with hy | hy
      · exfalso
        rw [hx, hy, hrefl_a] at hxy
        exact Bool.noConfusion hxy
      · exact Or.inl (by rw [hx, hy])
      · exact Or.inr (by rw [hx, hy])
      · exfalso
        rw [hx, hy, hrefl_b] at hxy
        exact Bool.noConfusion hxy

theorem cleanupSchema_succ_intro {dF : List JValue → List JValue} {fuel : Nat}
    {fs fs2 fs4 fs5 : Fields} (h2 : hoistStep (popF fs "default") = some fs2)
    (h4 : enumStep dF (refStep fs2) = some fs4)
    (h5 : cleanupFields dF fuel fs4 = some fs5) :
    cleanupSchema dF (fuel + 1) (.obj fs) = some (.obj fs5) := by
  simp only [cleanupSchema]
  rw [h2, Option.some_bind, h4, Option.some_bind, h5, Option.some_bind]

theorem cleanupFields_obj_intro {dF : List JValue → List JValue} {fuel : Nat} {k : String}
    {ofs fs fs2 : Fields} {v2 : JValue} (h1 : cleanupSchema dF fuel (.obj ofs) = some v2)
    (h2 : cleanupFields dF fuel fs = some fs2) :
    cleanupFields dF (fuel + 1) ((k, .obj ofs) :: fs) = some ((k, v2) :: fs2) := by
  simp only [cleanupFields]
  rw [h1, Option.some_bind, h2, Option.some_bind]

theorem cleanupFields_arr_intro {dF : List JValue → List JValue} {fuel : Nat} {k : String}
    {xs ys : List JValue} {fs fs2 : Fields} (h1 : cleanupElems dF fuel xs = some ys)
    (h2 : cleanupFields dF fuel fs = some fs2) :
    cleanupFields dF (fuel + 1) ((k, .arr xs) :: fs) = some ((k, .arr ys) :: fs2) := by
  simp only [cleanupFields]
  rw [h1, Option.some_bind, h2, Option.some_bind]

theorem cleanupFields_bool_intro {dF : List JValue → List JValue} {fuel : Nat} {k : String}
    {b : Bool} {fs fs2 : Fields} (h2 : cleanupFields dF fuel fs = some fs2) :
    cleanupFields dF (fuel + 1) ((k, .bool b) :: fs) = some ((k, .bool b) :: fs2) := by
  simp only [cleanupFields]
  rw [h2, Option.some_bind]

/-- A list of hashable (hence non-dict) values passes through the element
cleaning unchanged, given enough fuel. -/
theorem cleanupElems_hashable {dF : List JValue → List JValue} :
    ∀ {fuel : Nat} {xs : List JValue}, (∀ x ∈ xs, isHashable x = true) →
      xs.length < fuel → cleanupElems dF fuel xs = some xs := by
  intro fuel
  induction fuel with
  | zero => intro xs _ hl; omega
  | succ fuel ih =>
    intro xs hall hl
    match xs with
    | [] => rfl
    | .null :: xs =>
      simp only [cleanupElems]
      rw [ih (fun q hq => hall q (List.mem_cons_of_mem _ hq)) (by simpa using hl),
        Option.some_bind]
    | .bool b :: xs =>
      simp only [cleanupElems]
      rw [ih (fun q hq => hall q (List.mem_cons_of_mem _ hq)) (by simpa using hl),
        Option.some_bind]
    | .num n :: xs =>
      simp only [cleanupElems]
      rw [ih (fun q hq => hall q (List.mem_cons_of_mem _ hq)) (by simpa using hl),
        Option.some_bind]
    | .str s :: xs =>
      simp only [cleanupElems]
      rw [ih (fun q hq => hall q (List.mem_cons_of_mem _ hq)) (by simpa using hl),
        Option.some_bind]
    | .arr a :: xs =>
      exact absurd (hall _ (List.mem_cons_self _ _)) (by simp [isHashable])
    | .obj o :: xs =>
      exact absurd (hall _ (List.mem_cons_self _ _)) (by simp [isHashable])

/-- The full pass on the C6 example node, as a function of the set
iteration orders chosen for the two synthesised enums. -/
theorem c6_run (dF : List JValue → List JValue) (KL AL : List JValue)
    (hKn : ∀ x ∈ KL, isHashable x = true) (hKl : KL.length < 23)
    (hAn : ∀ x ∈ AL, isHashable x = true) (hAl : AL.length < 22)
    (hk : dF [.str "Deployment", .str "Pod"] = KL)
    (ha : dF [.str "apps/v1", .str "v1"] = AL) :
    normalizeValue dF 30 c6node = some (c6shape KL AL) := by
  have h4k : enumStep dF (refStep (popF
      [("enum", .arr [.str "Deployment", .str "Pod"])] "default")) =
      some [("enum", .arr KL)] := by
    rw [← hk]
    rfl
  have hkind : cleanupSchema dF 25
      (.obj [("enum", .arr [.str "Deployment", .str "Pod"])]) =
      some (.obj [("enum", .arr KL)]) :=
    cleanupSchema_succ_intro rfl h4k
      (cleanupFields_arr_intro (cleanupElems_hashable hKn hKl)
        (rfl : cleanupFields dF 23 [] = some []))
  have h4a : enumStep dF (refStep (popF
      [("enum", .arr [.str "apps/v1", .str "v1"])] "default")) =
      some [("enum", .arr AL)] := by
    rw [← ha]
    rfl
  have hapi : cleanupSchema dF 24
      (.obj [("enum", .arr [.str "apps/v1", .str "v1"])]) =
      some (.obj [("enum", .arr AL)]) :=
    cleanupSchema_succ_intro rfl h4a
      (cleanupFields_arr_intro (cleanupElems_hashable hAn hAl)
        (rfl : cleanupFields dF 22 [] = some []))
  have hprops : cleanupSchema dF 27
      (.obj [("kind", .obj [("enum", .arr [.str "Deployment", .str "Pod"])]),
        ("apiVersion", .obj [("enum", .arr [.str "apps/v1", .str "v1"])])]) =
      some (.obj [("kind", .obj [("enum", .arr KL)]),
        ("apiVersion", .obj [("enum", .arr AL)])]) :=
    cleanupSchema_succ_intro rfl rfl
      (cleanupFields_obj_intro hkind (cleanupFields_obj_intro hapi
        (rfl : cleanupFields dF 24 [] = some [])))
  have htop : cleanupSchema dF 30 (apStep c6fixed) = some (c6shape KL AL) :=
    cleanupSchema_succ_intro rfl rfl
      (cleanupFields_arr_intro (rfl : cleanupElems dF 28 [c6tri1, c6tri2] =
          some [c6tri1, c6tri2])
        (cleanupFields_obj_intro hprops (cleanupFields_bool_intro
          (rfl : cleanupFields dF 26 [] = some []))))
  have hnv : normalizeValue dF 30 c6node = cleanupSchema dF 30 (apStep c6fixed) := by
    show (fixKind c6node).bind (fun a => cleanupSchema dF 30 (apStep a)) = _
    rw [show fixKind c6node = some c6fixed from rfl, Option.some_bind]
  rw [hnv]
  exact htop

theorem hasKeyF_setF_self {fs : Fields} {k : String} {v : JValue} :
    hasKeyF (setF fs k v) k = true :=
  hasKeyF_of_lookupF_some lookupF_setF_self

theorem lookupF_isSome_of_has {fs : Fields} {k : String} (h : hasKeyF fs k = true) :
    ∃ v, lookupF fs k = some v := by
  induction fs with
  | nil => exact absurd h (by simp [hasKeyF])
  | cons p fs ih =>
    obtain ⟨a, b⟩ := p
    simp only [lookupF]
    by_cases hp : a = k
    · rw [if_pos hp]
      exact ⟨b, rfl⟩
    · rw [if_neg hp]
      apply ih
      simp only [hasKeyF, List.any_cons] at h
      rcases Bool.or_eq_true_iff.mp h with h1 | h1
      · exact absurd (by simpa using h1) hp
      · exact h1

theorem hasKeyF_setF_of {fs : Fields} {k k' : String} {v : JValue}
    (h : hasKeyF fs k' = true) : hasKeyF (setF fs k v) k' = true := by
  by_cases hk : k' = k
  · rw [hk]
    exact hasKeyF_setF_self
  · obtain ⟨w, hl⟩ := lookupF_isSome_of_has h
    exact hasKeyF_of_lookupF_some (by rw [lookupF_setF_ne hk]; exact hl)

theorem mergeFields_has_left {new : Fields} :
    ∀ {acc : Fields} {k : String}, hasKeyF acc k = true →
      hasKeyF (mergeFields acc new) k = true := by
  induction new with
  | nil => intro acc k h; exact h
  | cons p new ih =>
    intro acc k h
    unfold mergeFields at ih ⊢
    simp only [List.foldl_cons]
    exact ih (hasKeyF_setF_of h)

theorem mergeFields_has_right {new : Fields} :
    ∀ {acc : Fields} {k : String}, hasKeyF new k = true →
      hasKeyF (mergeFields acc new) k = true := by
  induction new with
  | nil => intro acc k h; exact absurd h (by simp [hasKeyF])
  | cons p new ih =>
    intro acc k h
    obtain ⟨a, b⟩ := p
    unfold mergeFields at ih ⊢
    simp only [List.foldl_cons]
    simp only [hasKeyF, List.any_cons] at h
    rcases Bool.or_eq_true_iff.mp h with h1 | h1
    · have ha : a = k := by simpa using h1
      rw [← ha]
      exact mergeFields_has_left (by rw [ha]; exact hasKeyF_setF_self)
    · exact ih h1

theorem foldl_mergeStep_has_acc (env : Env) :
    ∀ (ps : List String) {acc : Fields} {k : String}, hasKeyF acc k = true →
      hasKeyF (ps.foldl (mergeStep env) acc) k = true := by
  intro ps
  induction ps with
  | nil => intro acc k h; exact h
  | cons p ps ih =>
    intro acc k h
    simp only [List.foldl_cons]
    apply ih
    unfold mergeStep
    by_cases hs : (env.pathResp p).status = 200
    · rw [if_pos hs]
      cases hd : pathDefs env p with
      | none => exact h
      | some d => exact mergeFields_has_left h
    · rw [if_neg hs]
      exact h

theorem foldl_mergeStep_covers (env : Env) :
    ∀ (ps : List String) {acc : Fields} {p : String} {d : Fields} {k : String},
      p ∈ ps → (env.pathResp p).status = 200 → pathDefs env p = some d →
      hasKeyF d k = true → hasKeyF (ps.foldl (mergeStep env) acc) k = true := by
  intro ps
  induction ps with
  | nil => intro acc p d k hp _ _ _; exact absurd hp (List.not_mem_nil p)
  | cons q ps ih =>
    intro acc p d k hp hs hd hk
    simp only [List.foldl_cons]
    rcases List.mem_cons.mp hp with hp | hp
    · subst hp
      apply foldl_mergeStep_has_acc
      unfold mergeStep
      rw [if_pos hs, hd]
      exact mergeFields_has_right hk
    · exact ih hp hs hd hk

theorem pathDefs_elim {env : Env} {p : String} {d : Fields} (h : pathDefs env p = some d) :
    ∃ b, (env.pathResp p).body = some b ∧ extractSchemas b = some (.obj d) := by
  unfold pathDefs at h
  cases hb : (env.pathResp p).body with
  | none => rw [hb] at h; exact Option.noConfusion h
  | some b =>
    rw [hb, Option.some_bind] at h
    cases he : extractSchemas b with
    | none => rw [he] at h; exact Option.noConfusion h
    | some e =>
      rw [he, Option.some_bind] at h
      match e, h with
      | .obj new, h =>
        have h9 : new = d := Option.some_inj.mp h
        rw [← h9]
        exact ⟨b, rfl, he⟩
      | .null, h | .bool _, h | .num _, h | .str _, h | .arr _, h => exact Option.noConfusion h

/-- When every 200-path document is well-formed, the fetch loop completes
and computes the reference merge. -/
theorem mergeLoop_ok (env : Env) :
    ∀ (ps : List String) (acc : Fields),
      (∀ p ∈ ps, (env.pathResp p).status = 200 → ∃ d, pathDefs env p = some d) →
      mergeLoop env ps acc = (ps.foldl (mergeStep env) acc, true) := by
  intro ps
  induction ps with
  | nil => intro acc _; rfl
  | cons p ps ih =>
    intro acc hwf
    simp only [mergeLoop, List.foldl_cons]
    by_cases hs : (env.pathResp p).status = 200
    · rw [if_neg (by simpa using hs)]
      obtain ⟨d, hd⟩ := hwf p (List.mem_cons_self _ _) hs
      obtain ⟨b, hb, he⟩ := pathDefs_elim hd
      simp only [hb, he]
      have hstep : mergeStep env acc p = mergeFields acc d := by
        unfold mergeStep
        rw [if_pos hs, hd]
      rw [hstep]
      exact ih (mergeFields acc d) (fun q hq => hwf q (List.mem_cons_of_mem _ hq))
    · rw [if_pos (by simpa using hs)]
      have hstep : mergeStep env acc p = acc := by
        unfold mergeStep
        rw [if_neg hs]
      rw [hstep]
      exact ih acc (fun q hq => hwf q (List.mem_cons_of_mem _ hq))

theorem normalizeSet_keys {dF : List JValue → List JValue} {fuel : Nat} :
    ∀ {fs fs2 : Fields}, normalizeSet dF fuel fs = some fs2 → keysF fs2 = keysF fs := by
  intro fs
  induction fs with
  | nil =>
    intro fs2 h
    simp only [normalizeSet] at h
    rw [← Option.some_inj.mp h]
  | cons p fs ih =>
    obtain ⟨k, v⟩ := p
    intro fs2 h
    simp only [normalizeSet] at h
    cases h1 : normalizeValue dF fuel v with
    | none => rw [h1] at h; exact Option.noConfusion h
    | some v2 =>
      rw [h1, Option.some_bind] at h
      cases h2 : normalizeSet dF fuel fs with
      | none => rw [h2] at h; exact Option.noConfusion h
      | some t2 =>
        rw [h2, Option.some_bind] at h
        rw [← Option.some_inj.mp h]
        simp only [keysF, List.map_cons]
        have := ih h2
        simp only [keysF] at this
        rw [this]

theorem hasKeyF_iff_mem_keys {fs : Fields} {k : String} :
    hasKeyF fs k = true ↔ k ∈ keysF fs := by
  unfold hasKeyF keysF
  rw [List.any_eq_true]
  constructor
  · rintro ⟨p, hp, he⟩
    exact List.mem_map.mpr ⟨p, hp, by simpa using he⟩
  · intro h
    obtain ⟨p, hp, he⟩ := List.mem_map.mp h
    exact ⟨p, hp, by simpa using he⟩

/-- C1: the claim says a refresh cycle whose catalog fetch answers non-200
aborts leaving the previously stored non-empty SchemaSet observable.  In
the code, `update` line 100 empties `self._schemas` before fetching and the
non-200 early return (lines 105-107) never restores it: after the failed
cycle, `paths` and `schemas` readers observe the empty mapping, not
`c1prior`. -/
theorem c1_catalog_failure_empties_cache :
    update dedupPy 9 c1env c1prior = ([], Outcome.abortedStatus 500) ∧
    pathsRead ⟨(update dedupPy 9 c1env c1prior).1⟩ = [] ∧
    schemasRead ⟨(update dedupPy 9 c1env c1prior).1⟩ = [] ∧
    pathsRead ⟨c1prior⟩ = ["A"] ∧
    ([] : Fields) ≠ c1prior :=
  ⟨rfl, rfl, rfl, rfl, by decide⟩

/-- C2: the claim says `fixKind` gives `properties.apiVersion` the
de-duplicated list of `{group}/{version}` strings, one per triple.  The
source (line 91) tests membership of `k["group"]` instead of the
constructed string, so the triple `{group: "v1", version: "v2"}` is dropped
when the string `"v1"` (from the earlier empty-group triple) is already in
the enum: the result is `["v1"]`, not `["v1", "v1/v2"]`. -/
theorem c2_apiVersion_membership_tests_group :
    fixKind c2node = some c2nodeOut ∧
    propEnum (some c2nodeOut) "apiVersion" = some (.arr [.str "v1"]) ∧
    JValue.arr [.str "v1"] ≠ JValue.arr [.str "v1", .str "v1/v2"] :=
  ⟨rfl, rfl, by decide⟩

/-- C3 counterexample: a node carrying `x-kubernetes-group-version-kind`
but no `properties` key at all makes `_fix_kind` raise `KeyError` at
`v["properties"]` (line 82) instead of being a no-op. -/
theorem c3_missing_properties_key_raises :
    fixKind (.obj [(gvkKey, .arr [])]) = none := rfl

/-- C4 counterexample: a completed normalization pass whose output still
contains a `$ref` string with the `#/components/schemas/` prefix — the
cleanup recursion (lines 72-78) does not descend into a list nested inside
a list, so the reference survives un-rewritten. -/
theorem c4_ref_in_nested_array_survives :
    normalizeSet dedupPy 9 c4set = some c4out ∧
    ((jGetItem (.obj c4out) "X").bind (fun x => jGetItem x "a")) =
      some (.arr [.arr [.obj [("$ref", .str "#/components/schemas/Z")]]]) ∧
    charsHasSub componentsPat "#/components/schemas/Z".data = true :=
  ⟨rfl, rfl, rfl⟩

/-- C5 counterexample: `schemas` (line 142) returns the store's own dict,
so a caller clearing the returned mapping empties the store — a subsequent
`paths` read no longer shows the stored SchemaSet. -/
theorem c5_schemas_returns_alias :
    pathsRead c5store = ["A"] ∧
    pathsRead (mutateViaSchemasRead c5store (fun _ => [])) = [] ∧
    pathsRead (mutateViaSchemasRead c5store (fun _ => [])) ≠ pathsRead c5store :=
  ⟨rfl, rfl, by decide⟩

/-- C5 amended: mutations of the fresh list returned by `paths` (line 137)
never touch the store, while mutations of the structure returned by
`schemas` (line 142) are mutations of the store itself — the property reads
are not copy/snapshot on the `schemas` side. -/
theorem c5_amended_paths_copies_schemas_aliases :
    (∀ (c : CacheStore) (f : List String → List String),
      schemasRead (mutateViaPathsRead c f) = schemasRead c ∧
      pathsRead (mutateViaPathsRead c f) = pathsRead c) ∧
    (∀ (c : CacheStore) (g : Fields → Fields),
      schemasRead (mutateViaSchemasRead c g) = g (schemasRead c)) :=
  ⟨fun _ _ => ⟨rfl, rfl⟩, fun _ _ => rfl⟩

/-- C6 counterexample: with an admissible set-iteration order that emits
the de-duplicated elements in reverse, the full pass yields
`properties.kind.enum == ["Pod", "Deployment"]`, not the insertion-ordered
`["Deployment", "Pod"]` the claim states — `list(set(...))` (line 70) makes
the final enum order unspecified. -/
theorem c6_set_order_not_insertion_order :
    propEnum (normalizeValue dedupRev 30 c6node) "kind" =
      some (.arr [.str "Pod", .str "Deployment"]) ∧
    propEnum (normalizeValue dedupRev 30 c6node) "apiVersion" =
      some (.arr [.str "v1", .str "apps/v1"]) ∧
    JValue.arr [.str "Pod", .str "Deployment"] ≠ JValue.arr [.str "Deployment", .str "Pod"] :=
  ⟨rfl, rfl, by decide⟩

/-- C8 counterexample: when one catalog path answers 200 with a malformed
body while another is fine, `resp.json()` (line 122) raises and the cycle
aborts rather than skipping the failing path. -/
theorem c8_malformed_path_doc_aborts_cycle :
    (update dedupPy 9 c8envBad []).2 = Outcome.raised ∧
    Outcome.raised ≠ Outcome.completed :=
  ⟨rfl, by decide⟩

/-- C9 counterexample: a second application of the full pass to the
already-normalized `c9once` hoists the `allOf` whose element shrank to a
single key when the first pass removed its `default`, producing a different
SchemaSet. -/
theorem c9_second_pass_changes_result :
    normalizeSet dedupPy 9 c9set = some c9once ∧
    normalizeSet dedupPy 9 c9once = some c9twice ∧
    c9twice ≠ c9once :=
  ⟨rfl, rfl, by decide⟩

/-- C10: `_cleanup_schema` is not total — on a node whose `allOf` is a
one-element list whose sole element is a single-key dict without `$ref`,
the hoist (line 63) raises `KeyError` instead of leaving the node untouched
or completing. -/
theorem c10_hoist_raises_on_single_key_without_ref :
    hoistStep [("allOf", .arr [.obj [("type", .str "object")]])] = none ∧
    cleanupSchema dedupPy 3 c10node = none :=
  ⟨rfl, rfl⟩

/-- C3 amended: `_fix_kind` is a no-op (and raises nothing) when the node
lacks `x-kubernetes-group-version-kind`, or carries it together with a
`properties` mapping that has neither a `kind` nor an `apiVersion` entry;
the remaining case of the original claim — GVK metadata present but no
`properties` key at all — raises instead (see the counterexample). -/
theorem c3_amended_fixKind_skip_cases (fs : Fields) :
    (hasKeyF fs gvkKey = false → fixKind (.obj fs) = some (.obj fs)) ∧
    (∀ pfs, hasKeyF fs gvkKey = true → lookupF fs "properties" = some (.obj pfs) →
      hasKeyF pfs "kind" = false → hasKeyF pfs "apiVersion" = false →
      fixKind (.obj fs) = some (.obj fs)) := by
  constructor
  · intro h
    simp [fixKind, h]
  · intro pfs h1 h2 h3 h4
    simp [fixKind, h1, h2, pyIn, h3, h4]

/-- C3 amended, witnessed at concrete nodes for both no-op cases. -/
theorem c3_amended_fixKind_skip_cases_witness :
    fixKind (.obj [("t", .null)]) = some (.obj [("t", .null)]) ∧
    fixKind (.obj [(gvkKey, .arr []), ("properties", .obj [("z", .null)])]) =
      some (.obj [(gvkKey, .arr []), ("properties", .obj [("z", .null)])]) :=
  ⟨(c3_amended_fixKind_skip_cases _).1 (by decide),
   (c3_amended_fixKind_skip_cases _).2 [("z", JValue.null)] (by decide) rfl
     (by decide) (by decide)⟩

/-- C4 amended: in the output of a completed normalization pass, every dict
value is `VisitedClean` — its `$ref` string, and the `$ref` string of every
node the cleanup recursion reaches below it (dict values and dicts directly
inside list values), contains no `#/components/schemas/`.  Nothing is
guaranteed for positions the recursion does not visit, such as dicts inside
a list inside a list (see the counterexample). -/
theorem c4_amended_visited_refs_rewritten (dF : List JValue → List JValue) (fuel : Nat) :
    ∀ (s t : Fields), normalizeSet dF fuel s = some t →
      ∀ kv ∈ t, ∀ ofs : Fields, Prod.snd kv = JValue.obj ofs → VisitedClean (Prod.snd kv) := by
  intro s
  induction s with
  | nil =>
    intro t h kv hkv ofs _
    simp only [normalizeSet] at h
    rw [← Option.some_inj.mp h] at hkv
    exact absurd hkv (List.not_mem_nil kv)
  | cons p s ih =>
    obtain ⟨k, v⟩ := p
    intro t h kv hkv ofs hobj
    simp only [normalizeSet] at h
    cases h1 : normalizeValue dF fuel v with
    | none => rw [h1] at h; exact Option.noConfusion h
    | some v2 =>
      rw [h1, Option.some_bind] at h
      cases h2 : normalizeSet dF fuel s with
      | none => rw [h2] at h; exact Option.noConfusion h
      | some t2 =>
        rw [h2, Option.some_bind] at h
        rw [← Option.some_inj.mp h] at hkv
        rcases List.mem_cons.mp hkv with hkv | hkv
        · rw [hkv] at hobj ⊢
          match v, h1 with
          | .obj vfs, h1 =>
            simp only [normalizeValue] at h1
            cases hfk : fixKind (.obj vfs) with
            | none => rw [hfk] at h1; exact Option.noConfusion h1
            | some a =>
              rw [hfk, Option.some_bind] at h1
              exact (cleanup_visited dF fuel).1 _ _ h1
          | .null, h1 | .bool _, h1 | .num _, h1 | .str _, h1 | .arr _, h1 =>
            simp only [normalizeValue] at h1
            rw [← Option.some_inj.mp h1] at hobj
            exact absurd hobj (by intro hh; exact JValue.noConfusion hh)
        · exact ih t2 h2 kv hkv ofs hobj

/-- C4 amended, witnessed on the concrete pass output `c4out`: its sole
schema node is itself `VisitedClean` (even though the `$ref` buried in its
list-in-list survives un-rewritten, that position is not visited). -/
theorem c4_amended_visited_refs_rewritten_witness :
    VisitedClean (JValue.obj
      [("a", .arr [.arr [.obj [("$ref", .str "#/components/schemas/Z")]]]),
       ("additionalProperties", .bool false)]) :=
  c4_amended_visited_refs_rewritten dedupPy 9 c4set c4out rfl
    ("X", JValue.obj
      [("a", .arr [.arr [.obj [("$ref", .str "#/components/schemas/Z")]]]),
       ("additionalProperties", .bool false)])
    (by decide)
    [("a", .arr [.arr [.obj [("$ref", .str "#/components/schemas/Z")]]]),
       ("additionalProperties", .bool false)] rfl

/-- C6 amended: on the spec's worked example node, for every admissible
set-iteration order, the full pass produces `properties.kind.enum` equal to
`["Deployment", "Pod"]` up to order and `properties.apiVersion.enum` equal
to `["apps/v1", "v1"]` up to order; the exact order is whatever
`list(set(...))` (line 70) emits and is not the claimed insertion order in
general. -/
theorem c6_amended_enums_up_to_order (dF : List JValue → List JValue)
    (hsub : DedupSub dF) (hcov : DedupCover dF) (hdis : DedupDistinct dF) :
    ∃ w, normalizeValue dF 30 c6node = some w ∧
      (propEnum (some w) "kind" = some (.arr [.str "Deployment", .str "Pod"]) ∨
       propEnum (some w) "kind" = some (.arr [.str "Pod", .str "Deployment"])) ∧
      (propEnum (some w) "apiVersion" = some (.arr [.str "apps/v1", .str "v1"]) ∨
       propEnum (some w) "apiVersion" = some (.arr [.str "v1", .str "apps/v1"])) := by
  have hk := @dedup_pair dF hsub hcov hdis (.str "Deployment") (.str "Pod")
    (by decide) (by decide) (by decide) (by decide)
  have ha := @dedup_pair dF hsub hcov hdis (.str "apps/v1") (.str "v1")
    (by decide) (by decide) (by decide) (by decide)
  rcases hk with hk | hk <;> rcases ha with ha | ha
  · exact ⟨c6shape [.str "Deployment", .str "Pod"] [.str "apps/v1", .str "v1"],
      c6_run dF _ _ (by decide) (by decide) (by decide) (by decide) hk ha,
      Or.inl rfl, Or.inl rfl⟩
  · exact ⟨c6shape [.str "Deployment", .str "Pod"] [.str "v1", .str "apps/v1"],
      c6_run dF _ _ (by decide) (by decide) (by decide) (by decide) hk ha,
      Or.inl rfl, Or.inr rfl⟩
  · exact ⟨c6shape [.str "Pod", .str "Deployment"] [.str "apps/v1", .str "v1"],
      c6_run dF _ _ (by decide) (by decide) (by decide) (by decide) hk ha,
      Or.inr rfl, Or.inl rfl⟩
  · exact ⟨c6shape [.str "Pod", .str "Deployment"] [.str "v1", .str "apps/v1"],
      c6_run dF _ _ (by decide) (by decide) (by decide) (by decide) hk ha,
      Or.inr rfl, Or.inr rfl⟩

/-- C6 amended, witnessed with the order-preserving admissible choice
`dedupPy`. -/
theorem c6_amended_enums_up_to_order_witness :
    ∃ w, normalizeValue dedupPy 30 c6node = some w ∧
      (propEnum (some w) "kind" = some (.arr [.str "Deployment", .str "Pod"]) ∨
       propEnum (some w) "kind" = some (.arr [.str "Pod", .str "Deployment"])) ∧
      (propEnum (some w) "apiVersion" = some (.arr [.str "apps/v1", .str "v1"]) ∨
       propEnum (some w) "apiVersion" = some (.arr [.str "v1", .str "apps/v1"])) :=
  c6_amended_enums_up_to_order dedupPy dedupPy_sub dedupPy_cover dedupPy_distinct

/-- C8 amended: when the catalog fetch succeeds and every 200-path document
is well-formed, the cycle completes without aborting, non-200 paths are
skipped, and the resulting SchemaSet holds a definition for every name
contributed by a successfully fetched path.  (The malformed-document case
aborts instead — see the counterexample.) -/
theorem c8_amended_non200_paths_skipped (dF : List JValue → List JValue) (fuel : Nat)
    (env : Env) (bfs pfs t prior : Fields)
    (hcat : env.catalog.status = 200)
    (hbody : env.catalog.body = some (.obj bfs))
    (hpaths : lookupF bfs "paths" = some (.obj pfs))
    (hwf : ∀ p ∈ keysF pfs, (env.pathResp p).status = 200 → ∃ d, pathDefs env p = some d)
    (hnorm : normalizeSet dF fuel (specMergeSuccessful env (keysF pfs)) = some t) :
    update dF fuel env prior = (t, Outcome.completed) ∧
    ∀ p ∈ keysF pfs, (env.pathResp p).status = 200 →
      ∀ d, pathDefs env p = some d → ∀ k, hasKeyF d k = true → hasKeyF t k = true := by
  constructor
  · unfold update
    rw [if_neg (fun hh => hh hcat)]
    simp only [hbody, hpaths, Option.getD_some]
    rw [mergeLoop_ok env (keysF pfs) [] hwf]
    unfold specMergeSuccessful at hnorm
    simp only [hnorm]
  · intro p hp hs d hd k hk
    have hmerged : hasKeyF (specMergeSuccessful env (keysF pfs)) k = true := by
      unfold specMergeSuccessful
      exact foldl_mergeStep_covers env (keysF pfs) hp hs hd hk
    have hkeys := normalizeSet_keys hnorm
    rw [hasKeyF_iff_mem_keys, hkeys, ← hasKeyF_iff_mem_keys]
    exact hmerged

/-- C8 amended, witnessed on a three-path catalog whose middle path answers
503: the cycle completes with the other two paths' definitions. -/
theorem c8_amended_non200_paths_skipped_witness :
    update dedupPy 9 c8envSkip [] = (c8skipOut, Outcome.completed) ∧
    hasKeyF c8skipOut "p1" = true ∧ hasKeyF c8skipOut "p3" = true := by
  have hwf : ∀ p ∈ keysF [("p1", JValue.null), ("p2", JValue.null), ("p3", JValue.null)],
      (c8envSkip.pathResp p).status = 200 → ∃ d, pathDefs c8envSkip p = some d := by
    intro p hp hs
    simp only [keysF, List.map_cons, List.map_nil, List.mem_cons, List.not_mem_nil,
      or_false] at hp
    rcases hp with hp | hp | hp
    · exact ⟨[("p1", .obj [])], by rw [hp]; rfl⟩
    · exfalso
      rw [hp] at hs
      exact absurd hs (by decide)
    · exact ⟨[("p3", .obj [])], by rw [hp]; rfl⟩
  have h := c8_amended_non200_paths_skipped dedupPy 9 c8envSkip
    [("paths", .obj [("p1", JValue.null), ("p2", JValue.null), ("p3", JValue.null)])]
    [("p1", JValue.null), ("p2", JValue.null), ("p3", JValue.null)] c8skipOut [] rfl rfl rfl
    hwf rfl
  exact ⟨h.1, h.2 "p1" (by decide) rfl [("p1", .obj [])] rfl "p1" (by decide),
    h.2 "p3" (by decide) rfl [("p3", .obj [])] rfl "p3" (by decide)⟩

theorem hasKeyF_eq_lookup_isSome {fs : Fields} {k : String} :
    hasKeyF fs k = (lookupF fs k).isSome := by
  cases hk : hasKeyF fs k
  · rw [lookupF_eq_none_of_not_has hk]
    rfl
  · obtain ⟨v, hv⟩ := lookupF_isSome_of_has hk
    rw [hv]
    rfl

theorem hasKeyF_setF_ne_eq {fs : Fields} {k k' : String} {v : JValue} (hne : k' ≠ k) :
    hasKeyF (setF fs k v) k' = hasKeyF fs k' := by
  rw [hasKeyF_eq_lookup_isSome, hasKeyF_eq_lookup_isSome, lookupF_setF_ne hne]

theorem keysF_popF {fs : Fields} {j : String} :
    keysF (popF fs j) = (keysF fs).filter (fun a => a ≠ j) := by
  induction fs with
  | nil => rfl
  | cons p fs ih =>
    obtain ⟨a, b⟩ := p
    simp only [popF, keysF, List.filter_cons, List.map_cons] at *
    by_cases hp : a = j
    · rw [if_neg (by simpa using hp), if_neg (by simpa using hp)]
      exact ih
    · rw [if_pos (by simpa using hp), if_pos (by simpa using hp)]
      simp only [List.map_cons]
      rw [ih]

theorem hasKeyF_eq_of_keys {fs gs : Fields} {k : String} (h : keysF fs = keysF gs) :
    hasKeyF fs k = hasKeyF gs k := by
  cases hk : hasKeyF gs k
  · cases hk2 : hasKeyF fs k
    · rfl
    · have hm := hasKeyF_iff_mem_keys.mp hk2
      rw [h] at hm
      rw [hasKeyF_iff_mem_keys.mpr hm] at hk
      exact Bool.noConfusion hk
  · have hm := hasKeyF_iff_mem_keys.mp hk
    rw [← h] at hm
    exact hasKeyF_iff_mem_keys.mpr hm

theorem hasKeyF_popF_of_not {fs : Fields} {j k : String} (h : hasKeyF fs k = false) :
    hasKeyF (popF fs j) k = false := by
  cases hk : hasKeyF (popF fs j) k
  · rfl
  · have hm := hasKeyF_iff_mem_keys.mp hk
    rw [keysF_popF] at hm
    have hm2 := (List.mem_filter.mp hm).1
    rw [hasKeyF_iff_mem_keys.mpr hm2] at h
    exact Bool.noConfusion h

/-- `noDupKeysB` is exactly key-list nodup-ness. -/
theorem noDupKeysB_iff {fs : Fields} : noDupKeysB fs = true ↔ (keysF fs).Nodup := by
  induction fs with
  | nil => simp [noDupKeysB, keysF]
  | cons p fs ih =>
    obtain ⟨a, b⟩ := p
    simp only [noDupKeysB, keysF, List.map_cons, List.nodup_cons, Bool.and_eq_true,
      Bool.not_eq_true']
    constructor
    · rintro ⟨h1, h2⟩
      refine ⟨fun hm => ?_, ih.mp h2⟩
      rw [hasKeyF_iff_mem_keys.mpr hm] at h1
      exact Bool.noConfusion h1
    · rintro ⟨h1, h2⟩
      refine ⟨?_, ih.mpr h2⟩
      cases hk : hasKeyF fs a
      · rfl
      · exact absurd (hasKeyF_iff_mem_keys.mp hk) h1

/-- The hoist is skipped when the node has no `allOf` key at all. -/
theorem hoistStep_skip_nokey {fs : Fields} (h : hasKeyF fs "allOf" = false) :
    hoistStep fs = some fs := by
  simp only [hoistStep, lookupF_eq_none_of_not_has h]

theorem keysF_map_set {fs : Fields} {k : String} {v : JValue} :
    keysF (fs.map (fun p => if p.1 = k then (k, v) else p)) = keysF fs := by
  induction fs with
  | nil => rfl
  | cons p fs ih =>
    obtain ⟨a, b⟩ := p
    simp only [keysF, List.map_cons] at *
    by_cases hp : a = k
    · rw [if_pos (by simpa using hp)]
      simp only [List.map_cons]
      rw [ih, hp]
    · rw [if_neg (by simpa using hp)]
      simp only [List.map_cons]
      rw [ih]

theorem keysF_setF_of_has {fs : Fields} {k : String} {v : JValue} (h : hasKeyF fs k = true) :
    keysF (setF fs k v) = keysF fs := by
  unfold setF
  rw [if_pos h]
  exact keysF_map_set

theorem refStep_keys {fs : Fields} : keysF (refStep fs) = keysF fs := by
  cases hl : lookupF fs "$ref" with
  | none => simp only [refStep, hl]
  | some v =>
    cases v with
    | str s =>
      simp only [refStep, hl]
      exact keysF_setF_of_has (hasKeyF_of_lookupF_some hl)
    | null => simp only [refStep, hl]
    | bool _ => simp only [refStep, hl]
    | num _ => simp only [refStep, hl]
    | arr _ => simp only [refStep, hl]
    | obj _ => simp only [refStep, hl]

theorem enumStep_keys {dF : List JValue → List JValue} {fs fs' : Fields}
    (h : enumStep dF fs = some fs') : keysF fs' = keysF fs := by
  cases hl : lookupF fs "enum" with
  | none =>
    simp only [enumStep, hl] at h
    rw [← Option.some_inj.mp h]
  | some v =>
    cases v with
    | arr l =>
      simp only [enumStep, hl] at h
      by_cases hall : (l.all fun x => isHashable x) = true
      · rw [if_pos hall] at h
        rw [← Option.some_inj.mp h]
        exact keysF_setF_of_has (hasKeyF_of_lookupF_some hl)
      · rw [if_neg hall] at h
        exact Option.noConfusion h
    | null =>
      simp only [enumStep, hl] at h
      rw [← Option.some_inj.mp h]
    | bool _ =>
      simp only [enumStep, hl] at h
      rw [← Option.some_inj.mp h]
    | num _ =>
      simp only [enumStep, hl] at h
      rw [← Option.some_inj.mp h]
    | str _ =>
      simp only [enumStep, hl] at h
      rw [← Option.some_inj.mp h]
    | obj _ =>
      simp only [enumStep, hl] at h
      rw [← Option.some_inj.mp h]

/-- Field cleaning touches values only: the key list is unchanged. -/
theorem cleanupFields_keys {dF : List JValue → List JValue} :
    ∀ {fuel : Nat} {fs fs2 : Fields}, cleanupFields dF fuel fs = some fs2 →
      keysF fs2 = keysF fs := by
  intro fuel
  induction fuel with
  | zero => intro fs fs2 h; exact Option.noConfusion h
  | succ fuel ih =>
    intro fs fs2 h
    match fs with
    | [] =>
      simp only [cleanupFields] at h
      rw [← Option.some_inj.mp h]
    | (k0, .obj ofs) :: fs =>
      obtain ⟨v2, fs2', h1, h2, hfs2⟩ := cleanupFields_obj_elim h
      rw [hfs2]
      simp only [keysF, List.map_cons]
      have hkk := ih h2
      simp only [keysF] at hkk
      rw [hkk]
    | (k0, .arr xs) :: fs =>
      obtain ⟨ys, fs2', h1, h2, hfs2⟩ := cleanupFields_arr_elim h
      rw [hfs2]
      simp only [keysF, List.map_cons]
      have hkk := ih h2
      simp only [keysF] at hkk
      rw [hkk]
    | (k0, .null) :: fs | (k0, .bool _) :: fs | (k0, .num _) :: fs
    | (k0, .str _) :: fs =>
      obtain ⟨fs2', h2, hfs2⟩ := cleanupFields_skip_elim
        (by intro _ hh; exact JValue.noConfusion hh)
        (by intro _ hh; exact JValue.noConfusion hh) h
      rw [hfs2]
      simp only [keysF, List.map_cons]
      have hkk := ih h2
      simp only [keysF] at hkk
      rw [hkk]

theorem mem_setF {fs : Fields} {k : String} {v : JValue} {p : String × JValue}
    (hp : p ∈ setF fs k v) : p ∈ fs ∨ p = (k, v) := by
  unfold setF at hp
  by_cases h : hasKeyF fs k = true
  · rw [if_pos h] at hp
    obtain ⟨q, hq, hqe⟩ := List.mem_map.mp hp
    by_cases hq1 : q.1 = k
    · rw [if_pos hq1] at hqe
      right
      rw [← hqe]
    · rw [if_neg hq1] at hqe
      left
      rw [← hqe]
      exact hq
  · rw [if_neg h] at hp
    rcases List.mem_append.mp hp with hin | hin
    · left
      exact hin
    · right
      simpa using hin

theorem mem_popF {fs : Fields} {k : String} {p : String × JValue} (hp : p ∈ popF fs k) :
    p ∈ fs := (List.mem_filter.mp hp).1

/-- With unique keys, re-assigning a key its looked-up value is a no-op. -/
theorem lookup_unique_of_nodup : ∀ {fs : Fields} {k : String} {v : JValue},
    noDupKeysB fs = true → lookupF fs k = some v →
    ∀ p ∈ fs, p.1 = k → p.2 = v := by
  intro fs
  induction fs with
  | nil => intro k v _ _ p hp; exact absurd hp (List.not_mem_nil p)
  | cons q fs ih =>
    intro k v hnd hl p hp hpk
    obtain ⟨a, b⟩ := q
    simp only [noDupKeysB, Bool.and_eq_true, Bool.not_eq_true'] at hnd
    obtain ⟨hnd1, hnd2⟩ := hnd
    simp only [lookupF] at hl
    rcases List.mem_cons.mp hp with hep | hin
    · rw [hep] at hpk ⊢
      simp only at hpk
      rw [if_pos hpk] at hl
      simpa using Option.some_inj.mp hl
    · by_cases hak : a = k
      · exfalso
        have hhk : hasKeyF fs a = true := by
          unfold hasKeyF
          rw [List.any_eq_true]
          exact ⟨p, hin, by simp [hpk, hak]⟩
        rw [hhk] at hnd1
        exact Bool.noConfusion hnd1
      · rw [if_neg hak] at hl
        exact ih hnd2 hl p hin hpk

theorem setF_lookup_eq_of_nodup {fs : Fields} {k : String} {v : JValue}
    (hnd : noDupKeysB fs = true) (hl : lookupF fs k = some v) : setF fs k v = fs :=
  setF_all_eq (hasKeyF_of_lookupF_some hl) (lookup_unique_of_nodup hnd hl)

/-- A `$ref`-clean node with unique keys is a fixed point of the rewrite
step. -/
theorem refStep_id_of_ok {fs : Fields} (hnd : noDupKeysB fs = true)
    (hok : refsOKB fs = true) : refStep fs = fs := by
  cases hr : lookupF fs "$ref" with
  | none =>
    exact refStep_of_not_str (by intro s hh; rw [hr] at hh; exact Option.noConfusion hh)
  | some v =>
    cases v with
    | str s =>
      simp only [refsOKB, hr, Bool.not_eq_true'] at hok
      have hfix : pyReplaceRef s = s := pyReplaceRef_fixed hok
      simp only [refStep, hr]
      rw [hfix]
      exact setF_lookup_eq_of_nodup hnd hr
    | null =>
      apply refStep_of_not_str
      intro s hh
      rw [hr] at hh
      exact absurd (Option.some_inj.mp hh) (fun hc => JValue.noConfusion hc)
    | bool _ =>
      apply refStep_of_not_str
      intro s hh
      rw [hr] at hh
      exact absurd (Option.some_inj.mp hh) (fun hc => JValue.noConfusion hc)
    | num _ =>
      apply refStep_of_not_str
      intro s hh
      rw [hr] at hh
      exact absurd (Option.some_inj.mp hh) (fun hc => JValue.noConfusion hc)
    | arr _ =>
      apply refStep_of_not_str
      intro s hh
      rw [hr] at hh
      exact absurd (Option.some_inj.mp hh) (fun hc => JValue.noConfusion hc)
    | obj _ =>
      apply refStep_of_not_str
      intro s hh
      rw [hr] at hh
      exact absurd (Option.some_inj.mp hh) (fun hc => JValue.noConfusion hc)

theorem enumStep_of_not_arr {dF : List JValue → List JValue} {fs : Fields}
    (h : ∀ l, lookupF fs "enum" ≠ some (.arr l)) : enumStep dF fs = some fs := by
  cases hl : lookupF fs "enum" with
  | none => simp only [enumStep, hl]
  | some v =>
    cases v with
    | arr l => exact absurd hl (h l)
    | null => simp only [enumStep, hl]
    | bool _ => simp only [enumStep, hl]
    | num _ => simp only [enumStep, hl]
    | str _ => simp only [enumStep, hl]
    | obj _ => simp only [enumStep, hl]

theorem enumStep_of_arr {dF : List JValue → List JValue} {fs : Fields} {l : List JValue}
    (hl : lookupF fs "enum" = some (.arr l)) (hall : (l.all fun x => isHashable x) = true) :
    enumStep dF fs = some (setF fs "enum" (.arr (dF l))) := by
  simp only [enumStep, hl]
  rw [if_pos hall]

theorem enumStep_elim {dF : List JValue → List JValue} {fs fs' : Fields}
    (h : enumStep dF fs = some fs') :
    (∃ l, lookupF fs "enum" = some (.arr l) ∧ (l.all fun x => isHashable x) = true ∧
      fs' = setF fs "enum" (.arr (dF l))) ∨
    ((∀ l, lookupF fs "enum" ≠ some (.arr l)) ∧ fs' = fs) := by
  cases hl : lookupF fs "enum" with
  | none =>
    right
    constructor
    · intro l hh
      exact Option.noConfusion hh
    · simp only [enumStep, hl] at h
      exact (Option.some_inj.mp h).symm
  | some v =>
    cases v with
    | arr l =>
      simp only [enumStep, hl] at h
      by_cases hall : (l.all fun x => isHashable x) = true
      · rw [if_pos hall] at h
        exact Or.inl ⟨l, rfl, hall, (Option.some_inj.mp h).symm⟩
      · rw [if_neg hall] at h
        exact Option.noConfusion h
    | null =>
      right
      constructor
      · intro l hh
        exact absurd (Option.some_inj.mp hh) (fun hc => JValue.noConfusion hc)
      · simp only [enumStep, hl] at h
        exact (Option.some_inj.mp h).symm
    | bool _ =>
      right
      constructor
      · intro l hh
        exact absurd (Option.some_inj.mp hh) (fun hc => JValue.noConfusion hc)
      · simp only [enumStep, hl] at h
        exact (Option.some_inj.mp h).symm
    | num _ =>
      right
      constructor
      · intro l hh
        exact absurd (Option.some_inj.mp hh) (fun hc => JValue.noConfusion hc)
      · simp only [enumStep, hl] at h
        exact (Option.some_inj.mp h).symm
    | str _ =>
      right
      constructor
      · intro l hh
        exact absurd (Option.some_inj.mp hh) (fun hc => JValue.noConfusion hc)
      · simp only [enumStep, hl] at h
        exact (Option.some_inj.mp h).symm
    | obj _ =>
      right
      constructor
      · intro l hh
        exact absurd (Option.some_inj.mp hh) (fun hc => JValue.noConfusion hc)
      · simp only [enumStep, hl] at h
        exact (Option.some_inj.mp h).symm

/-- An entry of the `$ref`-rewrite output is an original entry or a
string-valued `$ref` binding. -/
theorem mem_refStep {fs : Fields} {p : String × JValue} (hp : p ∈ refStep fs) :
    p ∈ fs ∨ ∃ s, p = ("$ref", JValue.str s) := by
  cases hr : lookupF fs "$ref" with
  | none =>
    left
    have hid : refStep fs = fs := by simp only [refStep, hr]
    rw [hid] at hp
    exact hp
  | some v =>
    cases v with
    | str s =>
      have hid : refStep fs = setF fs "$ref" (.str (pyReplaceRef s)) := by
        simp only [refStep, hr]
      rw [hid] at hp
      rcases mem_setF hp with h1 | h2
      · exact Or.inl h1
      · exact Or.inr ⟨pyReplaceRef s, h2⟩
    | null =>
      left
      have hid : refStep fs = fs := by simp only [refStep, hr]
      rw [hid] at hp
      exact hp
    | bool _ =>
      left
      have hid : refStep fs = fs := by simp only [refStep, hr]
      rw [hid] at hp
      exact hp
    | num _ =>
      left
      have hid : refStep fs = fs := by simp only [refStep, hr]
      rw [hid] at hp
      exact hp
    | arr _ =>
      left
      have hid : refStep fs = fs := by simp only [refStep, hr]
      rw [hid] at hp
      exact hp
    | obj _ =>
      left
      have hid : refStep fs = fs := by simp only [refStep, hr]
      rw [hid] at hp
      exact hp

theorem isHashable_ne_obj {x : JValue} (h : isHashable x = true) :
    ∀ ofs, x ≠ .obj ofs := by
  intro ofs hc
  rw [hc] at h
  exact Bool.noConfusion h

/-- Cleaning a list of hashable elements returns the list unchanged. -/
theorem cleanupElems_hashable_eq {dF : List JValue → List JValue} :
    ∀ {fuel : Nat} {xs ys : List JValue}, cleanupElems dF fuel xs = some ys →
      (∀ x ∈ xs, isHashable x = true) → ys = xs := by
  intro fuel
  induction fuel with
  | zero => intro xs ys h _; exact Option.noConfusion h
  | succ fuel ih =>
    intro xs ys h hall
    match xs with
    | [] =>
      simp only [cleanupElems] at h
      rw [← Option.some_inj.mp h]
    | .obj ofs :: xs =>
      exact absurd (hall _ (List.mem_cons_self _ _)) (by simp [isHashable])
    | .null :: xs | .bool _ :: xs | .num _ :: xs | .str _ :: xs | .arr _ :: xs =>
      obtain ⟨ys2, h2, hys⟩ :=
        cleanupElems_skip_elim (by intro _ hh; exact JValue.noConfusion hh) h
      rw [hys, ih h2 (fun q hq => hall q (List.mem_cons_of_mem _ hq))]

/-- A list-valued entry of a cleaned field list came from a list-valued
entry, via element cleaning at some fuel. -/
theorem cleanupFields_arr_rev {dF : List JValue → List JValue} :
    ∀ {fuel : Nat} {fs fs2 : Fields} {k : String} {l' : List JValue},
      cleanupFields dF fuel fs = some fs2 → lookupF fs2 k = some (.arr l') →
      ∃ l f, lookupF fs k = some (.arr l) ∧ cleanupElems dF f l = some l' := by
  intro fuel
  induction fuel with
  | zero => intro fs fs2 k l' h _; exact Option.noConfusion h
  | succ fuel ih =>
    intro fs fs2 k l' h hl
    match fs with
    | [] =>
      simp only [cleanupFields] at h
      rw [← Option.some_inj.mp h] at hl
      exact Option.noConfusion hl
    | (k0, .obj ofs) :: fs =>
      obtain ⟨v2, fs2', h1, h2, hfs2⟩ := cleanupFields_obj_elim h
      rw [hfs2] at hl
      simp only [lookupF] at hl ⊢
      by_cases hk : k0 = k
      · rw [if_pos hk] at hl
        obtain ⟨gs, hg⟩ := cleanupSchema_obj_out h1
        rw [hg] at hl
        exact absurd (Option.some_inj.mp hl) (fun hc => JValue.noConfusion hc)
      · rw [if_neg hk] at hl ⊢
        exact ih h2 hl
    | (k0, .arr xs) :: fs =>
      obtain ⟨ys, fs2', h1, h2, hfs2⟩ := cleanupFields_arr_elim h
      rw [hfs2] at hl
      simp only [lookupF] at hl ⊢
      by_cases hk : k0 = k
      · rw [if_pos hk] at hl ⊢
        have h6 := Option.some_inj.mp hl
        have hy : ys = l' := by injection h6
        refine ⟨xs, fuel, rfl, ?_⟩
        rw [← hy]
        exact h1
      · rw [if_neg hk] at hl ⊢
        exact ih h2 hl
    | (k0, .null) :: fs | (k0, .bool _) :: fs | (k0, .num _) :: fs
    | (k0, .str _) :: fs =>
      obtain ⟨fs2', h2, hfs2⟩ := cleanupFields_skip_elim
        (by intro _ hh; exact JValue.noConfusion hh)
        (by intro _ hh; exact JValue.noConfusion hh) h
      rw [hfs2] at hl
      simp only [lookupF] at hl ⊢
      by_cases hk : k0 = k
      · rw [if_pos hk] at hl ⊢
        exact absurd (Option.some_inj.mp hl) (fun hc => JValue.noConfusion hc)
      · rw [if_neg hk] at hl ⊢
        exact ih h2 hl

/-- A scalar entry passes through field cleaning unchanged. -/
theorem cleanupFields_scalar_fwd {dF : List JValue → List JValue} :
    ∀ {fuel : Nat} {fs fs2 : Fields} {k : String} {x : JValue},
      cleanupFields dF fuel fs = some fs2 → lookupF fs k = some x →
      (∀ ofs, x ≠ .obj ofs) → (∀ xs, x ≠ .arr xs) → lookupF fs2 k = some x := by
  intro fuel
  induction fuel with
  | zero => intro fs fs2 k x h _ _ _; exact Option.noConfusion h
  | succ fuel ih =>
    intro fs fs2 k x h hl hx1 hx2
    match fs with
    | [] => exact Option.noConfusion hl
    | (k0, .obj ofs) :: fs =>
      obtain ⟨v2, fs2', h1, h2, hfs2⟩ := cleanupFields_obj_elim h
      rw [hfs2]
      simp only [lookupF] at hl ⊢
      by_cases hk : k0 = k
      · rw [if_pos hk] at hl
        exact absurd (Option.some_inj.mp hl).symm (hx1 ofs)
      · rw [if_neg hk] at hl ⊢
        exact ih h2 hl hx1 hx2
    | (k0, .arr xs) :: fs =>
      obtain ⟨ys, fs2', h1, h2, hfs2⟩ := cleanupFields_arr_elim h
      rw [hfs2]
      simp only [lookupF] at hl ⊢
      by_cases hk : k0 = k
      · rw [if_pos hk] at hl
        exact absurd (Option.some_inj.mp hl).symm (hx2 xs)
      · rw [if_neg hk] at hl ⊢
        exact ih h2 hl hx1 hx2
    | (k0, .null) :: fs | (k0, .bool _) :: fs | (k0, .num _) :: fs
    | (k0, .str _) :: fs =>
      obtain ⟨fs2', h2, hfs2⟩ := cleanupFields_skip_elim
        (by intro _ hh; exact JValue.noConfusion hh)
        (by intro _ hh; exact JValue.noConfusion hh) h
      rw [hfs2]
      simp only [lookupF] at hl ⊢
      by_cases hk : k0 = k
      · rw [if_pos hk] at hl ⊢
        exact hl
      · rw [if_neg hk] at hl ⊢
        exact ih h2 hl hx1 hx2

theorem cleanupFields_skip_intro {dF : List JValue → List JValue} {fuel : Nat} {k : String}
    {x : JValue} {fs fs2 : Fields} (hx1 : ∀ ofs, x ≠ .obj ofs) (hx2 : ∀ xs, x ≠ .arr xs)
    (h2 : cleanupFields dF fuel fs = some fs2) :
    cleanupFields dF (fuel + 1) ((k, x) :: fs) = some ((k, x) :: fs2) := by
  match x, hx1, hx2 with
  | .null, _, _ | .bool _, _, _ | .num _, _, _ | .str _, _, _ =>
    simp only [cleanupFields]
    rw [h2, Option.some_bind]
  | .obj ofs, hx1, _ => exact absurd rfl (hx1 ofs)
  | .arr xs, _, hx2 => exact absurd rfl (hx2 xs)

theorem cleanupElems_obj_intro {dF : List JValue → List JValue} {fuel : Nat} {ofs : Fields}
    {y : JValue} {xs ys : List JValue} (h1 : cleanupSchema dF fuel (.obj ofs) = some y)
    (h2 : cleanupElems dF fuel xs = some ys) :
    cleanupElems dF (fuel + 1) (.obj ofs :: xs) = some (y :: ys) := by
  simp only [cleanupElems]
  rw [h1, Option.some_bind, h2, Option.some_bind]

theorem cleanupElems_skip_intro {dF : List JValue → List JValue} {fuel : Nat} {x : JValue}
    {xs ys : List JValue} (hx : ∀ ofs, x ≠ .obj ofs) (h2 : cleanupElems dF fuel xs = some ys) :
    cleanupElems dF (fuel + 1) (x :: xs) = some (x :: ys) := by
  match x, hx with
  | .null, _ | .bool _, _ | .num _, _ | .str _, _ | .arr _, _ =>
    simp only [cleanupElems]
    rw [h2, Option.some_bind]
  | .obj ofs, hx => exact absurd rfl (hx ofs)

/-- Idempotence of `_cleanup_schema` on safe nodes (no `allOf` anywhere the
recursion visits, unique keys), for any admissible stable set-order choice:
the output of a successful cleanup is a fixed point of cleanup at the same
fuel. -/
theorem cleanup_idem {dF : List JValue → List JValue} (hsub : DedupSub dF)
    (hidem : DedupIdem dF) : ∀ fuel : Nat,
    (∀ fs w, SafeV (.obj fs) → cleanupSchema dF fuel (.obj fs) = some w →
      cleanupSchema dF fuel w = some w) ∧
    (∀ fs fs2, (∀ kv ∈ fs, SafeChild (Prod.snd kv)) → cleanupFields dF fuel fs = some fs2 →
      cleanupFields dF fuel fs2 = some fs2) ∧
    (∀ xs ys, (∀ x ∈ xs, SafeElem x) → cleanupElems dF fuel xs = some ys →
      cleanupElems dF fuel ys = some ys) := by
  intro fuel
  induction fuel with
  | zero =>
    exact ⟨fun fs w _ h => Option.noConfusion h,
      fun fs fs2 _ h => absurd h (by simp [cleanupFields]),
      fun xs ys _ h => absurd h (by simp [cleanupElems])⟩
  | succ fuel ih =>
    obtain ⟨ihs, ihf, ihe⟩ := ih
    refine ⟨?_, ?_, ?_⟩
    · intro fs w hs h
      obtain ⟨fs2', fs4, fs5, h2, h4, h5, hw⟩ := cleanupSchema_succ_elim h
      cases hs with
      | obj _ hNoAll hNodup hkids =>
      have hskip := hoistStep_skip_nokey (@hasKeyF_popF_of_not fs "default" "allOf" hNoAll)
      rw [h2] at hskip
      have hfs2 : fs2' = popF fs "default" := Option.some_inj.mp hskip
      subst hfs2
      have hkeys : keysF fs5 = keysF (popF fs "default") := by
        rw [cleanupFields_keys h5, enumStep_keys h4, refStep_keys]
      have hdef5 : hasKeyF fs5 "default" = false := by
        rw [hasKeyF_eq_of_keys hkeys]
        exact hasKeyF_popF_self
      have hall5 : hasKeyF fs5 "allOf" = false := by
        rw [hasKeyF_eq_of_keys hkeys]
        exact hasKeyF_popF_of_not hNoAll
      have hnd5 : noDupKeysB fs5 = true := by
        rw [noDupKeysB_iff, hkeys, keysF_popF]
        exact (noDupKeysB_iff.mp hNodup).filter _
      have hvc : VisitedClean w := (cleanup_visited dF (fuel + 1)).1 _ _ h
      rw [hw] at hvc
      have hok5 : refsOKB fs5 = true := by
        cases hvc with
        | obj _ hok _ => exact hok
      have hrid : refStep fs5 = fs5 := refStep_id_of_ok hnd5 hok5
      have hsafe4 : ∀ kv ∈ fs4, SafeChild (Prod.snd kv) := by
        intro kv hkv
        rcases enumStep_elim h4 with ⟨l0, hl0, hall0, hfs4⟩ | ⟨_, hfs4⟩
        · rw [hfs4] at hkv
          rcases mem_setF hkv with hkv1 | hkveq
          · rcases mem_refStep hkv1 with hkv2 | ⟨s, hkveq2⟩
            · exact hkids kv (mem_popF hkv2)
            · rw [hkveq2]
              exact SafeChild.str s
          · rw [hkveq]
            apply SafeChild.arr
            intro x hx
            have hxl0 : x ∈ l0 :=
              hsub l0 (fun q hq => List.all_eq_true.mp hall0 q hq) x hx
            exact SafeElem.nonObj x (isHashable_ne_obj (List.all_eq_true.mp hall0 x hxl0))
        · rw [hfs4] at hkv
          rcases mem_refStep hkv with hkv2 | ⟨s, hkveq2⟩
          · exact hkids kv (mem_popF hkv2)
          · rw [hkveq2]
            exact SafeChild.str s
      have hfields2 : cleanupFields dF fuel fs5 = some fs5 := ihf fs4 fs5 hsafe4 h5
      have henum2 : enumStep dF fs5 = some fs5 := by
        cases he5 : lookupF fs5 "enum" with
        | none =>
          apply enumStep_of_not_arr
          intro l hh
          rw [he5] at hh
          exact Option.noConfusion hh
        | some v =>
          cases v with
          | arr l5 =>
            obtain ⟨l, f, hl4, helems⟩ := cleanupFields_arr_rev h5 he5
            rcases enumStep_elim h4 with ⟨l0, hl0, hall0, hfs4⟩ | ⟨hnoarr, hfs4⟩
            · have hl4v : lookupF fs4 "enum" = some (.arr (dF l0)) := by
                rw [hfs4]
                exact lookupF_setF_self
              rw [hl4] at hl4v
              have h6 := Option.some_inj.mp hl4v
              have hldF : l = dF l0 := by injection h6
              have hhashl : ∀ x ∈ l, isHashable x = true := by
                rw [hldF]
                intro x hx
                exact List.all_eq_true.mp hall0 x
                  (hsub l0 (fun q hq => List.all_eq_true.mp hall0 q hq) x hx)
              have hl5l : l5 = l := cleanupElems_hashable_eq helems hhashl
              have hhashl5 : (l5.all fun x => isHashable x) = true := by
                rw [List.all_eq_true]
                intro x hx
                rw [hl5l] at hx
                exact hhashl x hx
              have hdFl5 : dF l5 = l5 := by
                rw [hl5l, hldF]
                exact hidem l0 (fun q hq => List.all_eq_true.mp hall0 q hq)
              rw [enumStep_of_arr he5 hhashl5, hdFl5,
                setF_lookup_eq_of_nodup hnd5 he5]
            · exfalso
              rw [hfs4] at hl4
              exact hnoarr l hl4
          | null =>
            apply enumStep_of_not_arr
            intro l hh
            rw [he5] at hh
            exact absurd (Option.some_inj.mp hh) (fun hc => JValue.noConfusion hc)
          | bool _ =>
            apply enumStep_of_not_arr
            intro l hh
            rw [he5] at hh
            exact absurd (Option.some_inj.mp hh) (fun hc => JValue.noConfusion hc)
          | num _ =>
            apply enumStep_of_not_arr
            intro l hh
            rw [he5] at hh
            exact absurd (Option.some_inj.mp hh) (fun hc => JValue.noConfusion hc)
          | str _ =>
            apply enumStep_of_not_arr
            intro l hh
            rw [he5] at hh
            exact absurd (Option.some_inj.mp hh) (fun hc => JValue.noConfusion hc)
          | obj _ =>
            apply enumStep_of_not_arr
            intro l hh
            rw [he5] at hh
            exact absurd (Option.some_inj.mp hh) (fun hc => JValue.noConfusion hc)
      rw [hw]
      exact cleanupSchema_succ_intro
        (by rw [popF_of_not_has hdef5]; exact hoistStep_skip_nokey hall5)
        (by rw [hrid]; exact henum2)
        hfields2
    · intro fs fs2 hsafe h
      match fs with
      | [] =>
        simp only [cleanupFields] at h
        rw [← Option.some_inj.mp h]
        rfl
      | (k0, .obj ofs) :: fs =>
        obtain ⟨v2, fs2', h1, h2, hfs2⟩ := cleanupFields_obj_elim h
        have hsc : SafeChild (JValue.obj ofs) := hsafe _ (List.mem_cons_self _ _)
        have hsv : SafeV (.obj ofs) := by
          cases hsc with
          | obj _ hv => exact hv
        obtain ⟨gs, hg⟩ := cleanupSchema_obj_out h1
        have h1' : cleanupSchema dF fuel (.obj gs) = some (.obj gs) := by
          have h7 := ihs ofs v2 hsv h1
          rw [hg] at h7
          exact h7
        rw [hfs2, hg]
        exact cleanupFields_obj_intro h1'
          (ihf fs fs2' (fun q hq => hsafe q (List.mem_cons_of_mem _ hq)) h2)
      | (k0, .arr xs) :: fs =>
        obtain ⟨ys, fs2', h1, h2, hfs2⟩ := cleanupFields_arr_elim h
        have hsc : SafeChild (JValue.arr xs) := hsafe _ (List.mem_cons_self _ _)
        have hse : ∀ x ∈ xs, SafeElem x := by
          cases hsc with
          | arr _ hv => exact hv
        rw [hfs2]
        exact cleanupFields_arr_intro (ihe xs ys hse h1)
          (ihf fs fs2' (fun q hq => hsafe q (List.mem_cons_of_mem _ hq)) h2)
      | (k0, .null) :: fs | (k0, .bool _) :: fs | (k0, .num _) :: fs
      | (k0, .str _) :: fs =>
        obtain ⟨fs2', h2, hfs2⟩ := cleanupFields_skip_elim
          (by intro _ hh; exact JValue.noConfusion hh)
          (by intro _ hh; exact JValue.noConfusion hh) h
        rw [hfs2]
        exact cleanupFields_skip_intro (by intro _ hh; exact JValue.noConfusion hh)
          (by intro _ hh; exact JValue.noConfusion hh)
          (ihf fs fs2' (fun q hq => hsafe q (List.mem_cons_of_mem _ hq)) h2)
    · intro xs ys hsafe h
      match xs with
      | [] =>
        simp only [cleanupElems] at h
        rw [← Option.some_inj.mp h]
        rfl
      | .obj ofs :: xs =>
        obtain ⟨y, ys2, h1, h2, hys⟩ := cleanupElems_obj_elim h
        have hse : SafeElem (JValue.obj ofs) := hsafe _ (List.mem_cons_self _ _)
        have hsv : SafeV (.obj ofs) := by
          cases hse with
          | obj _ hv => exact hv
          | nonObj _ hne => exact absurd rfl (hne ofs)
        obtain ⟨gs, hg⟩ := cleanupSchema_obj_out h1
        have h1' : cleanupSchema dF fuel (.obj gs) = some (.obj gs) := by
          have h7 := ihs ofs y hsv h1
          rw [hg] at h7
          exact h7
        rw [hys, hg]
        exact cleanupElems_obj_intro h1'
          (ihe xs ys2 (fun q hq => hsafe q (List.mem_cons_of_mem _ hq)) h2)
      | .null :: xs | .bool _ :: xs | .num _ :: xs | .str _ :: xs | .arr _ :: xs =>
        obtain ⟨ys2, h2, hys⟩ :=
          cleanupElems_skip_elim (by intro _ hh; exact JValue.noConfusion hh) h
        rw [hys]
        exact cleanupElems_skip_intro (by intro _ hh; exact JValue.noConfusion hh)
          (ihe xs ys2 (fun q hq => hsafe q (List.mem_cons_of_mem _ hq)) h2)

theorem hasKeyF_popF_ne {fs : Fields} {j k : String} (hne : k ≠ j) :
    hasKeyF (popF fs j) k = hasKeyF fs k := by
  rw [hasKeyF_eq_lookup_isSome, hasKeyF_eq_lookup_isSome, lookupF_popF_ne hne]

theorem noDupKeysB_setF {fs : Fields} {k : String} {v : JValue}
    (h : noDupKeysB fs = true) : noDupKeysB (setF fs k v) = true := by
  rw [noDupKeysB_iff] at h ⊢
  unfold setF
  by_cases hk : hasKeyF fs k = true
  · rw [if_pos hk, keysF_map_set]
    exact h
  · rw [if_neg hk]
    have hkeys : keysF (fs ++ [(k, v)]) = keysF fs ++ [k] := by simp [keysF]
    rw [hkeys]
    have hnk : k ∉ keysF fs := fun hm => hk (hasKeyF_iff_mem_keys.mpr hm)
    simp [List.nodup_append, h, hnk]

/-- Assigning a scalar boolean at a non-`allOf` key preserves safety. -/
theorem SafeV_setF_bool {fs : Fields} {k : String} {b : Bool} (hs : SafeV (.obj fs))
    (hk : k ≠ "allOf") : SafeV (.obj (setF fs k (.bool b))) := by
  cases hs with
  | obj _ h1 h2 h3 =>
    apply SafeV.obj
    · rw [hasKeyF_setF_ne_eq (fun hh => hk hh.symm)]
      exact h1
    · exact noDupKeysB_setF h2
    · intro kv hkv
      rcases mem_setF hkv with h4 | h4
      · exact h3 kv h4
      · rw [h4]
        exact SafeChild.bool b

/-- Pass facts about a successful cleanup on an `allOf`-free node: the key
list is the input's without `default`, and scalar entries at keys other
than `default`, `$ref` and `enum` are preserved verbatim. -/
theorem cleanupSchema_props {dF : List JValue → List JValue} {fuel : Nat} {fs fs5 : Fields}
    (hNoAll : hasKeyF fs "allOf" = false)
    (h : cleanupSchema dF fuel (.obj fs) = some (.obj fs5)) :
    keysF fs5 = keysF (popF fs "default") ∧
    (∀ k x, k ≠ "default" → k ≠ "$ref" → k ≠ "enum" → lookupF fs k = some x →
      (∀ ofs, x ≠ .obj ofs) → (∀ xs, x ≠ .arr xs) → lookupF fs5 k = some x) := by
  match fuel with
  | 0 => exact Option.noConfusion h
  | fuel + 1 =>
    obtain ⟨fs2', fs4, fs5', h2, h4, h5, hw⟩ := cleanupSchema_succ_elim h
    have hfs5 : fs5 = fs5' := by injection hw
    subst hfs5
    have hskip := hoistStep_skip_nokey (@hasKeyF_popF_of_not fs "default" "allOf" hNoAll)
    rw [h2] at hskip
    have hfs2 : fs2' = popF fs "default" := Option.some_inj.mp hskip
    subst hfs2
    constructor
    · rw [cleanupFields_keys h5, enumStep_keys h4, refStep_keys]
    · intro k x hkd hkr hke hl hx1 hx2
      apply cleanupFields_scalar_fwd h5 _ hx1 hx2
      rw [enumStep_lookup_ne h4 hke, refStep_lookup_ne hkr, lookupF_popF_ne hkd]
      exact hl

/-- Without `x-kubernetes-group-version-kind`, `_fix_kind` is the identity. -/
theorem fixKind_no_gvk {fs : Fields} (h : hasKeyF fs gvkKey = false) :
    fixKind (.obj fs) = some (.obj fs) := by
  simp only [fixKind]
  rw [if_neg (by simp [h])]

theorem ResetF_refl {dF : List JValue → List JValue} : ∀ fs : Fields, ResetF dF fs fs := by
  intro fs
  induction fs with
  | nil => exact ResetF.nil
  | cons p fs ih =>
    obtain ⟨k, v⟩ := p
    exact ResetF.cons k v v fs fs (ResetC.refl v) ih

theorem ResetL_refl {dF : List JValue → List JValue} : ∀ xs : List JValue, ResetL dF xs xs := by
  intro xs
  induction xs with
  | nil => exact ResetL.nil
  | cons x xs ih => exact ResetL.cons x x xs xs (ResetE.refl x) ih

theorem ResetF_keys {dF : List JValue → List JValue} : ∀ {fs fs' : Fields},
    ResetF dF fs fs' → keysF fs' = keysF fs := by
  intro fs
  induction fs with
  | nil =>
    intro fs' h
    cases h
    rfl
  | cons p fs ih =>
    intro fs' h
    cases h with
    | cons k v v' _ gs hc hf =>
      simp only [keysF, List.map_cons]
      have hkk := ih hf
      simp only [keysF] at hkk
      rw [hkk]

theorem ResetV_keys {dF : List JValue → List JValue} {fs fs' : Fields}
    (h : ResetV dF fs fs') : keysF fs' = keysF fs := by
  cases h with
  | noreset _ _ hf => exact ResetF_keys hf
  | reset _ fs'' l0 ldF hf hl _ _ =>
    have hhk : hasKeyF fs'' "enum" = true := by
      rw [hasKeyF_eq_of_keys (ResetF_keys hf)]
      exact hasKeyF_of_lookupF_some hl
    rw [keysF_setF_of_has hhk]
    exact ResetF_keys hf

theorem ResetF_lookup {dF : List JValue → List JValue} : ∀ {fs fs' : Fields},
    ResetF dF fs fs' → ∀ k : String,
    (lookupF fs k = none → lookupF fs' k = none) ∧
    (∀ v, lookupF fs k = some v → ∃ v', lookupF fs' k = some v' ∧ ResetC dF v v') := by
  intro fs
  induction fs with
  | nil =>
    intro fs' h k
    cases h
    exact ⟨fun _ => rfl, fun v hv => Option.noConfusion hv⟩
  | cons p fs ih =>
    intro fs' h k
    cases h with
    | cons k0 v0 v0' _ gs hc hf =>
      constructor
      · intro hn
        simp only [lookupF] at hn ⊢
        by_cases hk : k0 = k
        · rw [if_pos hk] at hn
          exact Option.noConfusion hn
        · rw [if_neg hk] at hn ⊢
          exact (ih hf k).1 hn
      · intro v hv
        simp only [lookupF] at hv ⊢
        by_cases hk : k0 = k
        · rw [if_pos hk] at hv ⊢
          exact ⟨v0', rfl, by rw [← Option.some_inj.mp hv]; exact hc⟩
        · rw [if_neg hk] at hv ⊢
          exact (ih hf k).2 v hv

theorem ResetC_str_rev {dF : List JValue → List JValue} {v : JValue} {s : String}
    (h : ResetC dF v (.str s)) : v = .str s := by
  cases h with
  | refl _ => rfl

theorem ResetC_arr_rev {dF : List JValue → List JValue} {v : JValue} {l' : List JValue}
    (h : ResetC dF v (.arr l')) : ∃ l, v = .arr l ∧ ResetL dF l l' := by
  cases h with
  | refl _ => exact ⟨l', rfl, ResetL_refl l'⟩
  | arr xs _ hl => exact ⟨xs, rfl, hl⟩

theorem ResetL_hashable_eq {dF : List JValue → List JValue} : ∀ {xs xs' : List JValue},
    ResetL dF xs xs' → (∀ x ∈ xs, isHashable x = true) → xs' = xs := by
  intro xs
  induction xs with
  | nil =>
    intro xs' h _
    cases h
    rfl
  | cons x xs ih =>
    intro xs' h hh
    cases h with
    | cons _ x' _ ys he hl =>
      cases he with
      | refl _ =>
        rw [ih hl (fun q hq => hh q (List.mem_cons_of_mem _ hq))]
      | obj fs fs' _ =>
        exact absurd (hh _ (List.mem_cons_self _ _)) (by simp [isHashable])

theorem ResetF_map_set_rel {dF : List JValue → List JValue} {k : String} {w : JValue} :
    ∀ {fs fs' : Fields}, ResetF dF fs fs' → (∀ p ∈ fs, p.1 = k → ResetC dF p.2 w) →
    ResetF dF fs (fs'.map (fun p => if p.1 = k then (k, w) else p)) := by
  intro fs
  induction fs with
  | nil =>
    intro fs' h _
    cases h
    exact ResetF.nil
  | cons p fs ih =>
    intro fs' h hall
    cases h with
    | cons k0 v0 v0' _ gs hc hf =>
      simp only [List.map_cons]
      by_cases hk : k0 = k
      · subst hk
        rw [if_pos rfl]
        exact ResetF.cons k0 v0 w fs _
          (hall (k0, v0) (List.mem_cons_self _ _) rfl)
          (ih hf (fun q hq hq1 => hall q (List.mem_cons_of_mem _ hq) hq1))
      · rw [if_neg (by simpa using hk)]
        exact ResetF.cons k0 v0 v0' fs _ hc
          (ih hf (fun q hq hq1 => hall q (List.mem_cons_of_mem _ hq) hq1))

theorem ResetF_setF_rel {dF : List JValue → List JValue} {fs gs : Fields} {k : String}
    {w : JValue} (h : ResetF dF fs gs) (hk : hasKeyF fs k = true)
    (hall : ∀ p ∈ fs, p.1 = k → ResetC dF p.2 w) : ResetF dF fs (setF gs k w) := by
  unfold setF
  rw [if_pos (by rw [hasKeyF_eq_of_keys (ResetF_keys h)]; exact hk)]
  exact ResetF_map_set_rel h hall

theorem ResetF_setF_child {dF : List JValue → List JValue} {fs gs c c' : Fields}
    {k : String} (h : ResetF dF fs gs) (hnd : noDupKeysB fs = true)
    (hl : lookupF fs k = some (.obj c)) (hc : ResetV dF c c') :
    ResetF dF fs (setF gs k (.obj c')) := by
  apply ResetF_setF_rel h (hasKeyF_of_lookupF_some hl)
  intro p hp hpk
  rw [lookup_unique_of_nodup hnd hl p hp hpk]
  exact ResetC.obj c c' hc

theorem noDupKeysB_eq_of_keys {fs gs : Fields} (h : keysF fs = keysF gs) :
    noDupKeysB fs = noDupKeysB gs := by
  cases hg : noDupKeysB gs
  · cases hf : noDupKeysB fs
    · rfl
    · have h1 := noDupKeysB_iff.mp hf
      rw [h] at h1
      rw [noDupKeysB_iff.mpr h1] at hg
      exact Bool.noConfusion hg
  · rw [noDupKeysB_iff, h]
    exact noDupKeysB_iff.mp hg

theorem setF_setF {fs : Fields} {k : String} {x y : JValue} :
    setF (setF fs k x) k y = setF fs k y := by
  by_cases hk : hasKeyF fs k = true
  · have h1 : setF fs k x = fs.map (fun p => if p.1 = k then (k, x) else p) := by
      unfold setF
      rw [if_pos hk]
    have h2 : setF fs k y = fs.map (fun p => if p.1 = k then (k, y) else p) := by
      unfold setF
      rw [if_pos hk]
    have hk2 : hasKeyF (fs.map fun p => if p.1 = k then (k, x) else p) k = true := by
      rw [hasKeyF_eq_of_keys keysF_map_set]
      exact hk
    have h3 : setF (setF fs k x) k y
        = (fs.map fun p => if p.1 = k then (k, x) else p).map
            (fun p => if p.1 = k then (k, y) else p) := by
      rw [h1]
      unfold setF
      rw [if_pos hk2]
    rw [h3, h2, List.map_map]
    apply List.map_congr_left
    intro p _
    by_cases hp : p.1 = k
    · simp [Function.comp, hp]
    · simp [Function.comp, hp]
  · have h1 : setF fs k x = fs ++ [(k, x)] := by
      unfold setF
      rw [if_neg hk]
    have h2 : setF fs k y = fs ++ [(k, y)] := by
      unfold setF
      rw [if_neg hk]
    have hk2 : hasKeyF (fs ++ [(k, x)]) k = true := by
      rw [hasKeyF_iff_mem_keys]
      simp [keysF]
    have h3 : setF (setF fs k x) k y
        = (fs ++ [(k, x)]).map (fun p => if p.1 = k then (k, y) else p) := by
      rw [h1]
      unfold setF
      rw [if_pos hk2]
    rw [h3, h2]
    have hmap : (fs ++ [(k, x)]).map (fun p => if p.1 = k then (k, y) else p)
        = fs.map (fun p => if p.1 = k then (k, y) else p) ++ [(k, y)] := by
      simp
    rw [hmap, map_set_all_eq]
    intro p hp hpk
    exfalso
    apply hk
    rw [hasKeyF_iff_mem_keys]
    exact List.mem_map.mpr ⟨p, hp, hpk⟩

theorem ResetC_str_fwd {dF : List JValue → List JValue} {v' : JValue} {s : String}
    (h : ResetC dF (.str s) v') : v' = .str s := by
  cases h with
  | refl _ => rfl

theorem ResetC_not_str_fwd {dF : List JValue → List JValue} {v v' : JValue}
    (h : ResetC dF v v') (hv : ∀ s, v ≠ .str s) : ∀ s, v' ≠ .str s := by
  cases h with
  | refl _ => exact hv
  | obj _ _ _ => intro s hh; exact JValue.noConfusion hh
  | arr _ _ _ => intro s hh; exact JValue.noConfusion hh

theorem ResetC_not_arr_fwd {dF : List JValue → List JValue} {v v' : JValue}
    (h : ResetC dF v v') (hv : ∀ l, v ≠ .arr l) : ∀ l, v' ≠ .arr l := by
  cases h with
  | refl _ => exact hv
  | obj _ _ _ => intro l hh; exact JValue.noConfusion hh
  | arr xs _ _ => exact absurd rfl (hv xs)

/-- A dict-valued entry survives field cleaning as the cleanup of that
dict, at some fuel. -/
theorem cleanupFields_obj_fwd2 {dF : List JValue → List JValue} :
    ∀ {fuel : Nat} {fs fs2 : Fields} {k : String} {c : Fields},
      cleanupFields dF fuel fs = some fs2 → lookupF fs k = some (.obj c) →
      ∃ c2 f, cleanupSchema dF f (.obj c) = some (.obj c2) ∧
        lookupF fs2 k = some (.obj c2) := by
  intro fuel
  induction fuel with
  | zero => intro fs fs2 k c h _; exact Option.noConfusion h
  | succ fuel ih =>
    intro fs fs2 k c h hl
    match fs with
    | [] => exact Option.noConfusion hl
    | (k0, .obj ofs) :: fs =>
      obtain ⟨v2, fs2', h1, h2, hfs2⟩ := cleanupFields_obj_elim h
      rw [hfs2]
      simp only [lookupF] at hl ⊢
      by_cases hk : k0 = k
      · rw [if_pos hk] at hl ⊢
        have h6 := Option.some_inj.mp hl
        have hc : ofs = c := by injection h6
        obtain ⟨gs, hg⟩ := cleanupSchema_obj_out h1
        refine ⟨gs, fuel, ?_, by rw [hg]⟩
        rw [← hc, ← hg]
        exact h1
      · rw [if_neg hk] at hl ⊢
        exact ih h2 hl
    | (k0, .arr xs) :: fs =>
      obtain ⟨ys, fs2', h1, h2, hfs2⟩ := cleanupFields_arr_elim h
      rw [hfs2]
      simp only [lookupF] at hl ⊢
      by_cases hk : k0 = k
      · rw [if_pos hk] at hl
        exact absurd (Option.some_inj.mp hl) (fun hc => JValue.noConfusion hc)
      · rw [if_neg hk] at hl ⊢
        exact ih h2 hl
    | (k0, .null) :: fs | (k0, .bool _) :: fs | (k0, .num _) :: fs
    | (k0, .str _) :: fs =>
      obtain ⟨fs2', h2, hfs2⟩ := cleanupFields_skip_elim
        (by intro _ hh; exact JValue.noConfusion hh)
        (by intro _ hh; exact JValue.noConfusion hh) h
      rw [hfs2]
      simp only [lookupF] at hl ⊢
      by_cases hk : k0 = k
      · rw [if_pos hk] at hl
        exact absurd (Option.some_inj.mp hl) (fun hc => JValue.noConfusion hc)
      · rw [if_neg hk] at hl ⊢
        exact ih h2 hl

/-- A list-valued entry survives field cleaning as the element-cleanup of
that list, at some fuel. -/
theorem cleanupFields_arr_fwd2 {dF : List JValue → List JValue} :
    ∀ {fuel : Nat} {fs fs2 : Fields} {k : String} {l : List JValue},
      cleanupFields dF fuel fs = some fs2 → lookupF fs k = some (.arr l) →
      ∃ l2 f, cleanupElems dF f l = some l2 ∧ lookupF fs2 k = some (.arr l2) := by
  intro fuel
  induction fuel with
  | zero => intro fs fs2 k l h _; exact Option.noConfusion h
  | succ fuel ih =>
    intro fs fs2 k l h hl
    match fs with
    | [] => exact Option.noConfusion hl
    | (k0, .obj ofs) :: fs =>
      obtain ⟨v2, fs2', h1, h2, hfs2⟩ := cleanupFields_obj_elim h
      rw [hfs2]
      simp only [lookupF] at hl ⊢
      by_cases hk : k0 = k
      · rw [if_pos hk] at hl
        exact absurd (Option.some_inj.mp hl) (fun hc => JValue.noConfusion hc)
      · rw [if_neg hk] at hl ⊢
        exact ih h2 hl
    | (k0, .arr xs) :: fs =>
      obtain ⟨ys, fs2', h1, h2, hfs2⟩ := cleanupFields_arr_elim h
      rw [hfs2]
      simp only [lookupF] at hl ⊢
      by_cases hk : k0 = k
      · rw [if_pos hk] at hl ⊢
        have h6 := Option.some_inj.mp hl
        have hc : xs = l := by injection h6
        refine ⟨ys, fuel, ?_, rfl⟩
        rw [← hc]
        exact h1
      · rw [if_neg hk] at hl ⊢
        exact ih h2 hl
    | (k0, .null) :: fs | (k0, .bool _) :: fs | (k0, .num _) :: fs
    | (k0, .str _) :: fs =>
      obtain ⟨fs2', h2, hfs2⟩ := cleanupFields_skip_elim
        (by intro _ hh; exact JValue.noConfusion hh)
        (by intro _ hh; exact JValue.noConfusion hh) h
      rw [hfs2]
      simp only [lookupF] at hl ⊢
      by_cases hk : k0 = k
      · rw [if_pos hk] at hl
        exact absurd (Option.some_inj.mp hl) (fun hc => JValue.noConfusion hc)
      · rw [if_neg hk] at hl ⊢
        exact ih h2 hl

/-- Element cleaning relates input and output lists pointwise: dicts are
cleaned (at some fuel), everything else is kept verbatim. -/
theorem cleanupElems_forall2 {dF : List JValue → List JValue} :
    ∀ {fuel : Nat} {xs ys : List JValue}, cleanupElems dF fuel xs = some ys →
      List.Forall₂ (fun x y => (∃ ofs f, x = JValue.obj ofs ∧ cleanupSchema dF f x = some y) ∨
        (y = x ∧ ∀ ofs, x ≠ .obj ofs)) xs ys := by
  intro fuel
  induction fuel with
  | zero => intro xs ys h; exact Option.noConfusion h
  | succ fuel ih =>
    intro xs ys h
    match xs with
    | [] =>
      simp only [cleanupElems] at h
      rw [← Option.some_inj.mp h]
      exact List.Forall₂.nil
    | .obj ofs :: xs =>
      obtain ⟨y, ys2, h1, h2, hys⟩ := cleanupElems_obj_elim h
      rw [hys]
      exact List.Forall₂.cons (Or.inl ⟨ofs, fuel, rfl, h1⟩) (ih h2)
    | .null :: xs | .bool _ :: xs | .num _ :: xs | .str _ :: xs | .arr _ :: xs =>
      obtain ⟨ys2, h2, hys⟩ :=
        cleanupElems_skip_elim (by intro _ hh; exact JValue.noConfusion hh) h
      rw [hys]
      exact List.Forall₂.cons (Or.inr ⟨rfl, by intro _ hh; exact JValue.noConfusion hh⟩) (ih h2)

/-- C7: on `{"allOf": [{"$ref": "#/components/schemas/Foo"}]}` the pass
hoists the reference and drops `allOf`, yielding exactly
`{"$ref": "#/definitions/Foo"}`; and on any node whose `allOf` is a list
of two or more elements, the hoisting rule leaves the node completely
unchanged (`hoistStep` is the identity on it), so a successful full
cleaning keeps the `allOf` key with its elements pointwise intact —
non-dict elements verbatim, dict elements recursively cleaned by the
ordinary recursion that visits every value. -/
theorem c7_allOf_hoisting :
    cleanupSchema dedupPy 3
      (.obj [("allOf", .arr [.obj [("$ref", .str "#/components/schemas/Foo")]])]) =
      some (.obj [("$ref", .str "#/definitions/Foo")]) ∧
    ∀ (dF : List JValue → List JValue) (fuel : Nat) (fs : Fields) (l : List JValue)
      (w : JValue),
      lookupF fs "allOf" = some (.arr l) → 2 ≤ l.length →
      hoistStep fs = some fs ∧
      (cleanupSchema dF fuel (.obj fs) = some w →
        ∃ l', jGetItem w "allOf" = some (.arr l') ∧
          List.Forall₂ (fun x y =>
            (∃ ofs f, x = JValue.obj ofs ∧ cleanupSchema dF f x = some y) ∨
            (y = x ∧ ∀ ofs, x ≠ .obj ofs)) l l') := by
  constructor
  · rfl
  · intro dF fuel fs l w hl hlen
    refine ⟨hoistStep_skip_len hl (by omega), fun h => ?_⟩
    match fuel with
    | 0 => exact Option.noConfusion h
    | fuel + 1 =>
      obtain ⟨fs2, fs4, fs5, h2, h4, h5, hw⟩ := cleanupSchema_succ_elim h
      have hl1 : lookupF (popF fs "default") "allOf" = some (.arr l) := by
        rw [lookupF_popF_ne (by decide)]
        exact hl
      have hfs2 : fs2 = popF fs "default" := by
        have := hoistStep_skip_len hl1 (by omega)
        rw [this] at h2
        exact (Option.some_inj.mp h2).symm
      have hl2 : lookupF fs2 "allOf" = some (.arr l) := by
        rw [hfs2]
        exact hl1
      have hl3 : lookupF (refStep fs2) "allOf" = some (.arr l) := by
        rw [refStep_lookup_ne (by decide)]
        exact hl2
      have hl4 : lookupF fs4 "allOf" = some (.arr l) := by
        rw [enumStep_lookup_ne h4 (by decide)]
        exact hl3
      obtain ⟨l2, f, hce, hlk⟩ := cleanupFields_arr_fwd2 h5 hl4
      rw [hw]
      exact ⟨l2, hlk, cleanupElems_forall2 hce⟩

/-- C7 witness: a three-element `allOf` (all nulls) is untouched by the
hoisting rule and survives a full cleaning pointwise intact. -/
theorem c7_allOf_hoisting_witness :
    hoistStep [("allOf", .arr [.null, .null, .null])] =
      some [("allOf", .arr [.null, .null, .null])] ∧
    ∃ l', jGetItem (.obj [("allOf", .arr [.null, .null, .null])]) "allOf" =
        some (.arr l') ∧
      List.Forall₂ (fun x y =>
        (∃ ofs f, x = JValue.obj ofs ∧ cleanupSchema dedupPy f x = some y) ∨
        (y = x ∧ ∀ ofs, x ≠ .obj ofs)) [.null, .null, .null] l' := by
  have h := c7_allOf_hoisting.2 dedupPy 7 [("allOf", .arr [.null, .null, .null])]
    [.null, .null, .null] (.obj [("allOf", .arr [.null, .null, .null])]) rfl (by decide)
  exact ⟨h.1, h.2 (by rfl)⟩

theorem ResetF_setF {dF : List JValue → List JValue} {fs gs : Fields} {k : String}
    {v : JValue} (h : ResetF dF fs gs) (hnd : noDupKeysB fs = true)
    (hl : lookupF fs k = some v) : ResetF dF fs (setF gs k v) := by
  apply ResetF_setF_rel h (hasKeyF_of_lookupF_some hl)
  intro p hp hpk
  rw [lookup_unique_of_nodup hnd hl p hp hpk]
  exact ResetC.refl v

theorem refsOKB_ResetF {dF : List JValue → List JValue} {fs fs' : Fields}
    (h : ResetF dF fs fs') (hok : refsOKB fs = true) : refsOKB fs' = true := by
  cases hr' : lookupF fs' "$ref" with
  | none => simp only [refsOKB, hr']
  | some v' =>
    cases hr : lookupF fs "$ref" with
    | none =>
      rw [(ResetF_lookup h "$ref").1 hr] at hr'
      exact Option.noConfusion hr'
    | some v =>
      obtain ⟨v'', hv'', hcv⟩ := (ResetF_lookup h "$ref").2 v hr
      rw [hr'] at hv''
      have h9 := Option.some_inj.mp hv''
      subst h9
      cases v' with
      | str s' =>
        have hv : v = .str s' := ResetC_str_rev hcv
        rw [hv] at hr
        simp only [refsOKB, hr] at hok
        simp only [refsOKB, hr']
        exact hok
      | null => simp only [refsOKB, hr']
      | bool _ => simp only [refsOKB, hr']
      | num _ => simp only [refsOKB, hr']
      | arr _ => simp only [refsOKB, hr']
      | obj _ => simp only [refsOKB, hr']

/-- Relational idempotence of `_cleanup_schema`: re-cleaning the output of a
successful cleanup on a safe node returns that output, even when some
visited de-duplicated `enum` values have been replaced by hashable
pre-images (as `_fix_kind` does on a second pass). -/
theorem cleanup_idem_reset {dF : List JValue → List JValue} (hsub : DedupSub dF)
    (hidem : DedupIdem dF) : ∀ fuel : Nat,
    (∀ fs fs5 fs', SafeV (.obj fs) → cleanupSchema dF fuel (.obj fs) = some (.obj fs5) →
      ResetV dF fs5 fs' → cleanupSchema dF fuel (.obj fs') = some (.obj fs5)) ∧
    (∀ fs fs2 gs', (∀ kv ∈ fs, SafeChild (Prod.snd kv)) → cleanupFields dF fuel fs = some fs2 →
      ResetF dF fs2 gs' → cleanupFields dF fuel gs' = some fs2) ∧
    (∀ xs ys ys', (∀ x ∈ xs, SafeElem x) → cleanupElems dF fuel xs = some ys →
      ResetL dF ys ys' → cleanupElems dF fuel ys' = some ys) := by
  intro fuel
  induction fuel with
  | zero =>
    exact ⟨fun fs fs5 fs' _ h _ => Option.noConfusion h,
      fun fs fs2 gs' _ h _ => absurd h (by simp [cleanupFields]),
      fun xs ys ys' _ h _ => absurd h (by simp [cleanupElems])⟩
  | succ fuel ih =>
    obtain ⟨ihs, ihf, ihe⟩ := ih
    refine ⟨?_, ?_, ?_⟩
    · intro fs fs5 fs' hs h hrv
      obtain ⟨fs2', fs4, fs5'', h2, h4, h5, hw⟩ := cleanupSchema_succ_elim h
      have hww : fs5 = fs5'' := by injection hw
      subst hww
      cases hs with
      | obj _ hNoAll hNodup hkids =>
      have hskip := hoistStep_skip_nokey (@hasKeyF_popF_of_not fs "default" "allOf" hNoAll)
      rw [h2] at hskip
      have hfs2 : fs2' = popF fs "default" := Option.some_inj.mp hskip
      subst hfs2
      have hkeys : keysF fs5 = keysF (popF fs "default") := by
        rw [cleanupFields_keys h5, enumStep_keys h4, refStep_keys]
      have hdef5 : hasKeyF fs5 "default" = false := by
        rw [hasKeyF_eq_of_keys hkeys]
        exact hasKeyF_popF_self
      have hall5 : hasKeyF fs5 "allOf" = false := by
        rw [hasKeyF_eq_of_keys hkeys]
        exact hasKeyF_popF_of_not hNoAll
      have hnd5 : noDupKeysB fs5 = true := by
        rw [noDupKeysB_iff, hkeys, keysF_popF]
        exact (noDupKeysB_iff.mp hNodup).filter _
      have hvc : VisitedClean (.obj fs5) := (cleanup_visited dF (fuel + 1)).1 _ _ h
      have hok5 : refsOKB fs5 = true := by
        cases hvc with
        | obj _ hok _ => exact hok
      have hsafe4 : ∀ kv ∈ fs4, SafeChild (Prod.snd kv) := by
        intro kv hkv
        rcases enumStep_elim h4 with ⟨l0, hl0, hall0, hfs4⟩ | ⟨_, hfs4⟩
        · rw [hfs4] at hkv
          rcases mem_setF hkv with hkv1 | hkveq
          · rcases mem_refStep hkv1 with hkv2 | ⟨s, hkveq2⟩
            · exact hkids kv (mem_popF hkv2)
            · rw [hkveq2]
              exact SafeChild.str s
          · rw [hkveq]
            apply SafeChild.arr
            intro x hx
            have hxl0 : x ∈ l0 :=
              hsub l0 (fun q hq => List.all_eq_true.mp hall0 q hq) x hx
            exact SafeElem.nonObj x (isHashable_ne_obj (List.all_eq_true.mp hall0 x hxl0))
        · rw [hfs4] at hkv
          rcases mem_refStep hkv with hkv2 | ⟨s, hkveq2⟩
          · exact hkids kv (mem_popF hkv2)
          · rw [hkveq2]
            exact SafeChild.str s
      have hkeys' : keysF fs' = keysF fs5 := ResetV_keys hrv
      have hdef' : hasKeyF fs' "default" = false := by
        rw [hasKeyF_eq_of_keys hkeys']
        exact hdef5
      have hall' : hasKeyF fs' "allOf" = false := by
        rw [hasKeyF_eq_of_keys hkeys']
        exact hall5
      have hnd' : noDupKeysB fs' = true := by
        rw [noDupKeysB_eq_of_keys hkeys']
        exact hnd5
      cases hrv with
      | noreset _ _ hRF =>
        have hrid' : refStep fs' = fs' := refStep_id_of_ok hnd' (refsOKB_ResetF hRF hok5)
        have henum' : ∃ fs4'', enumStep dF fs' = some fs4'' ∧
            cleanupFields dF fuel fs4'' = some fs5 := by
          cases he5 : lookupF fs5 "enum" with
          | none =>
            refine ⟨fs', ?_, ihf fs4 fs5 fs' hsafe4 h5 hRF⟩
            apply enumStep_of_not_arr
            intro l hh
            rw [(ResetF_lookup hRF "enum").1 he5] at hh
            exact Option.noConfusion hh
          | some v =>
            obtain ⟨v', hv', hcv⟩ := (ResetF_lookup hRF "enum").2 v he5
            cases v with
            | arr l5 =>
              obtain ⟨l, f, hl4, helems⟩ := cleanupFields_arr_rev h5 he5
              rcases enumStep_elim h4 with ⟨l0, hl0, hall0, hfs4⟩ | ⟨hnoarr, hfs4⟩
              · have hl4v : lookupF fs4 "enum" = some (.arr (dF l0)) := by
                  rw [hfs4]
                  exact lookupF_setF_self
                rw [hl4] at hl4v
                have h6 := Option.some_inj.mp hl4v
                have hldF : l = dF l0 := by injection h6
                have hhashl : ∀ x ∈ l, isHashable x = true := by
                  rw [hldF]
                  intro x hx
                  exact List.all_eq_true.mp hall0 x
                    (hsub l0 (fun q hq => List.all_eq_true.mp hall0 q hq) x hx)
                have hl5l : l5 = l := cleanupElems_hashable_eq helems hhashl
                have hhashl5 : ∀ x ∈ l5, isHashable x = true := by
                  intro x hx
                  rw [hl5l] at hx
                  exact hhashl x hx
                have hv'arr : v' = .arr l5 := by
                  cases hcv with
                  | refl _ => rfl
                  | arr _ xs' hL => rw [ResetL_hashable_eq hL hhashl5]
                rw [hv'arr] at hv'
                have hdFl5 : dF l5 = l5 := by
                  rw [hl5l, hldF]
                  exact hidem l0 (fun q hq => List.all_eq_true.mp hall0 q hq)
                refine ⟨fs', ?_, ihf fs4 fs5 fs' hsafe4 h5 hRF⟩
                rw [enumStep_of_arr hv' (List.all_eq_true.mpr fun q hq => hhashl5 q hq),
                  hdFl5, setF_lookup_eq_of_nodup hnd' hv']
              · exfalso
                rw [hfs4] at hl4
                exact hnoarr l hl4
            | null =>
              refine ⟨fs', ?_, ihf fs4 fs5 fs' hsafe4 h5 hRF⟩
              apply enumStep_of_not_arr
              intro l hh
              rw [hv'] at hh
              exact (ResetC_not_arr_fwd hcv
                (by intro _ hc; exact JValue.noConfusion hc)) l (Option.some_inj.mp hh)
            | bool _ =>
              refine ⟨fs', ?_, ihf fs4 fs5 fs' hsafe4 h5 hRF⟩
              apply enumStep_of_not_arr
              intro l hh
              rw [hv'] at hh
              exact (ResetC_not_arr_fwd hcv
                (by intro _ hc; exact JValue.noConfusion hc)) l (Option.some_inj.mp hh)
            | num _ =>
              refine ⟨fs', ?_, ihf fs4 fs5 fs' hsafe4 h5 hRF⟩
              apply enumStep_of_not_arr
              intro l hh
              rw [hv'] at hh
              exact (ResetC_not_arr_fwd hcv
                (by intro _ hc; exact JValue.noConfusion hc)) l (Option.some_inj.mp hh)
            | str _ =>
              refine ⟨fs', ?_, ihf fs4 fs5 fs' hsafe4 h5 hRF⟩
              apply enumStep_of_not_arr
              intro l hh
              rw [hv'] at hh
              exact (ResetC_not_arr_fwd hcv
                (by intro _ hc; exact JValue.noConfusion hc)) l (Option.some_inj.mp hh)
            | obj _ =>
              refine ⟨fs', ?_, ihf fs4 fs5 fs' hsafe4 h5 hRF⟩
              apply enumStep_of_not_arr
              intro l hh
              rw [hv'] at hh
              exact (ResetC_not_arr_fwd hcv
                (by intro _ hc; exact JValue.noConfusion hc)) l (Option.some_inj.mp hh)
        obtain ⟨fs4'', he'', hf''⟩ := henum'
        exact cleanupSchema_succ_intro
          (by rw [popF_of_not_has hdef']; exact hoistStep_skip_nokey hall')
          (by rw [hrid']; exact he'') hf''
      | reset _ fs'' l0 ldF hRF hlenum hhash hdFl0 =>
        have hok'' : refsOKB (setF fs'' "enum" (.arr l0)) = refsOKB fs'' := by
          unfold refsOKB
          rw [lookupF_setF_ne (by decide)]
        have hrid' : refStep (setF fs'' "enum" (.arr l0)) = setF fs'' "enum" (.arr l0) := by
          apply refStep_id_of_ok hnd'
          rw [hok'']
          exact refsOKB_ResetF hRF hok5
        have hle' : lookupF (setF fs'' "enum" (.arr l0)) "enum" = some (.arr l0) :=
          lookupF_setF_self
        have henum' : enumStep dF (setF fs'' "enum" (.arr l0))
            = some (setF fs'' "enum" (.arr ldF)) := by
          rw [enumStep_of_arr hle' (List.all_eq_true.mpr fun q hq => hhash q hq), hdFl0,
            setF_setF]
        have hf'' : cleanupFields dF fuel (setF fs'' "enum" (.arr ldF)) = some fs5 :=
          ihf fs4 fs5 _ hsafe4 h5 (ResetF_setF hRF hnd5 hlenum)
        exact cleanupSchema_succ_intro
          (by rw [popF_of_not_has hdef']; exact hoistStep_skip_nokey hall')
          (by rw [hrid']; exact henum') hf''
    · intro fs fs2 gs' hsafe h hRF
      match fs with
      | [] =>
        simp only [cleanupFields] at h
        have h6 := Option.some_inj.mp h
        rw [← h6] at hRF ⊢
        cases hRF
        rfl
      | (k0, .obj ofs) :: fs =>
        obtain ⟨v2, fs2', h1, h2, hfs2⟩ := cleanupFields_obj_elim h
        rw [hfs2] at hRF ⊢
        cases hRF with
        | cons _ _ v2' _ gs2' hcv hRFtail =>
          have hsc : SafeChild (JValue.obj ofs) := hsafe _ (List.mem_cons_self _ _)
          have hsv : SafeV (.obj ofs) := by
            cases hsc with
            | obj _ hv => exact hv
          obtain ⟨gs2, hg⟩ := cleanupSchema_obj_out h1
          rw [hg] at h1 hcv
          have hftail : cleanupFields dF fuel gs2' = some fs2' :=
            ihf fs fs2' gs2' (fun q hq => hsafe q (List.mem_cons_of_mem _ hq)) h2 hRFtail
          cases hcv with
          | refl _ =>
            rw [hg]
            exact cleanupFields_obj_intro (ihs ofs gs2 gs2 hsv h1
              (ResetV.noreset _ _ (ResetF_refl gs2))) hftail
          | obj _ c' hrv' =>
            rw [hg]
            exact cleanupFields_obj_intro (ihs ofs gs2 c' hsv h1 hrv') hftail
      | (k0, .arr xs) :: fs =>
        obtain ⟨ys, fs2', h1, h2, hfs2⟩ := cleanupFields_arr_elim h
        rw [hfs2] at hRF ⊢
        cases hRF with
        | cons _ _ v2' _ gs2' hcv hRFtail =>
          have hsc : SafeChild (JValue.arr xs) := hsafe _ (List.mem_cons_self _ _)
          have hse : ∀ x ∈ xs, SafeElem x := by
            cases hsc with
            | arr _ hv => exact hv
          have hftail : cleanupFields dF fuel gs2' = some fs2' :=
            ihf fs fs2' gs2' (fun q hq => hsafe q (List.mem_cons_of_mem _ hq)) h2 hRFtail
          cases hcv with
          | refl _ =>
            exact cleanupFields_arr_intro (ihe xs ys ys hse h1 (ResetL_refl ys)) hftail
          | arr _ xs' hL =>
            exact cleanupFields_arr_intro (ihe xs ys xs' hse h1 hL) hftail
      | (k0, .null) :: fs | (k0, .bool _) :: fs | (k0, .num _) :: fs
      | (k0, .str _) :: fs =>
        obtain ⟨fs2', h2, hfs2⟩ := cleanupFields_skip_elim
          (by intro _ hh; exact JValue.noConfusion hh)
          (by intro _ hh; exact JValue.noConfusion hh) h
        rw [hfs2] at hRF ⊢
        cases hRF with
        | cons _ _ v2' _ gs2' hcv hRFtail =>
          have hftail : cleanupFields dF fuel gs2' = some fs2' :=
            ihf fs fs2' gs2' (fun q hq => hsafe q (List.mem_cons_of_mem _ hq)) h2 hRFtail
          cases hcv with
          | refl _ =>
            exact cleanupFields_skip_intro (by intro _ hh; exact JValue.noConfusion hh)
              (by intro _ hh; exact JValue.noConfusion hh) hftail
    · intro xs ys ys' hsafe h hRL
      match xs with
      | [] =>
        simp only [cleanupElems] at h
        have h6 := Option.some_inj.mp h
        rw [← h6] at hRL ⊢
        cases hRL
        rfl
      | .obj ofs :: xs =>
        obtain ⟨y, ys2, h1, h2, hys⟩ := cleanupElems_obj_elim h
        rw [hys] at hRL ⊢
        cases hRL with
        | cons _ y' _ ys2' he hRLtail =>
          have hsec : SafeElem (JValue.obj ofs) := hsafe _ (List.mem_cons_self _ _)
          have hsv : SafeV (.obj ofs) := by
            cases hsec with
            | obj _ hv => exact hv
            | nonObj _ hne => exact absurd rfl (hne ofs)
          obtain ⟨gs2, hg⟩ := cleanupSchema_obj_out h1
          rw [hg] at h1 he
          have hetail : cleanupElems dF fuel ys2' = some ys2 :=
            ihe xs ys2 ys2' (fun q hq => hsafe q (List.mem_cons_of_mem _ hq)) h2 hRLtail
          cases he with
          | refl _ =>
            rw [hg]
            exact cleanupElems_obj_intro (ihs ofs gs2 gs2 hsv h1
              (ResetV.noreset _ _ (ResetF_refl gs2))) hetail
          | obj _ c' hrv' =>
            rw [hg]
            exact cleanupElems_obj_intro (ihs ofs gs2 c' hsv h1 hrv') hetail
      | .null :: xs | .bool _ :: xs | .num _ :: xs | .str _ :: xs | .arr _ :: xs =>
        obtain ⟨ys2, h2, hys⟩ :=
          cleanupElems_skip_elim (by intro _ hh; exact JValue.noConfusion hh) h
        rw [hys] at hRL ⊢
        cases hRL with
        | cons _ y' _ ys2' he hRLtail =>
          have hetail : cleanupElems dF fuel ys2' = some ys2 :=
            ihe xs ys2 ys2' (fun q hq => hsafe q (List.mem_cons_of_mem _ hq)) h2 hRLtail
          cases he with
          | refl _ =>
            exact cleanupElems_skip_intro (by intro _ hh; exact JValue.noConfusion hh) hetail

set_option maxHeartbeats 2000000 in
/-- `_fix_kind` on a node carrying the gvk key whose `properties` has both
`kind` and `apiVersion` dict entries: both enums are rebuilt from the
triples. -/
theorem fixKind_gvk_TT {fs pfs kfs afs : Fields} {g : JValue} {items K A : List JValue}
    (hgvk : hasKeyF fs gvkKey = true)
    (hP : lookupF fs "properties" = some (.obj pfs))
    (hkT : hasKeyF pfs "kind" = true)
    (hkv : lookupF pfs "kind" = some (.obj kfs))
    (haT : hasKeyF pfs "apiVersion" = true)
    (hav : lookupF pfs "apiVersion" = some (.obj afs))
    (hg : lookupF fs gvkKey = some g)
    (hitems : pyIterate g = some items)
    (hK : kindLoop items [] = some K)
    (hA : apiLoop items [] = some A) :
    fixKind (.obj fs) = some (.obj (setF fs "properties" (.obj
      (setF (setF pfs "kind" (.obj (setF kfs "enum" (.arr K)))) "apiVersion"
        (.obj (setF afs "enum" (.arr A))))))) := by
  have h1 : lookupF (setF fs "properties"
      (.obj (setF pfs "kind" (.obj (setF kfs "enum" (.arr K)))))) "properties"
      = some (.obj (setF pfs "kind" (.obj (setF kfs "enum" (.arr K))))) := lookupF_setF_self
  have h2 : lookupF (setF pfs "kind" (.obj (setF kfs "enum" (.arr K)))) "apiVersion"
      = some (.obj afs) := by
    rw [lookupF_setF_ne (by decide)]
    exact hav
  have h3 : lookupF (setF fs "properties"
      (.obj (setF pfs "kind" (.obj (setF kfs "enum" (.arr K)))))) gvkKey = some g := by
    rw [lookupF_setF_ne (by decide)]
    exact hg
  have h4 : hasKeyF (setF pfs "kind" (.obj (setF kfs "enum" (.arr K)))) "apiVersion"
      = true := by
    rw [hasKeyF_setF_ne_eq (by decide)]
    exact haT
  simp [fixKind, setPath2, jGetItem, asObj, setIn, pyIn, hgvk, hP, hkT, hkv, haT, hav, hg,
    hitems, hK, hA, h1, h2, h3, h4, setF_setF]

set_option maxHeartbeats 2000000 in
/-- `_fix_kind` when `properties` has a `kind` dict entry but no
`apiVersion`: only the kind enum is rebuilt. -/
theorem fixKind_gvk_TF {fs pfs kfs : Fields} {g : JValue} {items K : List JValue}
    (hgvk : hasKeyF fs gvkKey = true)
    (hP : lookupF fs "properties" = some (.obj pfs))
    (hkT : hasKeyF pfs "kind" = true)
    (hkv : lookupF pfs "kind" = some (.obj kfs))
    (haF : hasKeyF pfs "apiVersion" = false)
    (hg : lookupF fs gvkKey = some g)
    (hitems : pyIterate g = some items)
    (hK : kindLoop items [] = some K) :
    fixKind (.obj fs) = some (.obj (setF fs "properties" (.obj
      (setF pfs "kind" (.obj (setF kfs "enum" (.arr K))))))) := by
  have h1 : lookupF (setF fs "properties"
      (.obj (setF pfs "kind" (.obj (setF kfs "enum" (.arr K)))))) "properties"
      = some (.obj (setF pfs "kind" (.obj (setF kfs "enum" (.arr K))))) := lookupF_setF_self
  have h4 : hasKeyF (setF pfs "kind" (.obj (setF kfs "enum" (.arr K)))) "apiVersion"
      = false := by
    rw [hasKeyF_setF_ne_eq (by decide)]
    exact haF
  simp [fixKind, setPath2, jGetItem, asObj, setIn, pyIn, hgvk, hP, hkT, hkv, haF, hg,
    hitems, hK, h1, h4]

set_option maxHeartbeats 2000000 in
/-- `_fix_kind` when `properties` has an `apiVersion` dict entry but no
`kind`: only the apiVersion enum is rebuilt. -/
theorem fixKind_gvk_FT {fs pfs afs : Fields} {g : JValue} {items A : List JValue}
    (hgvk : hasKeyF fs gvkKey = true)
    (hP : lookupF fs "properties" = some (.obj pfs))
    (hkF : hasKeyF pfs "kind" = false)
    (haT : hasKeyF pfs "apiVersion" = true)
    (hav : lookupF pfs "apiVersion" = some (.obj afs))
    (hg : lookupF fs gvkKey = some g)
    (hitems : pyIterate g = some items)
    (hA : apiLoop items [] = some A) :
    fixKind (.obj fs) = some (.obj (setF fs "properties" (.obj
      (setF pfs "apiVersion" (.obj (setF afs "enum" (.arr A))))))) := by
  simp [fixKind, setPath2, jGetItem, asObj, setIn, pyIn, hgvk, hP, hkF, haT, hav, hg,
    hitems, hA]

/-- `_fix_kind` when neither `kind` nor `apiVersion` membership holds in
`properties` (whatever container it is): the node is unchanged. -/
theorem fixKind_no_branch {fs : Fields} {P : JValue}
    (hgvk : hasKeyF fs gvkKey = true)
    (hP : lookupF fs "properties" = some P)
    (hk : pyIn "kind" P = some false)
    (ha : pyIn "apiVersion" P = some false) :
    fixKind (.obj fs) = some (.obj fs) := by
  simp [fixKind, hgvk, hP, hk, ha]

/-- Python equality on values only relates a hashable value to hashable
values. -/
theorem pyEq_hashable {e kv : JValue} (h : pyEq e kv = true) (he : isHashable e = true) :
    isHashable kv = true := by
  cases e <;> cases kv <;> simp_all [pyEq, isHashable]

theorem kindLoop_acc_mem : ∀ {items acc K : List JValue}, kindLoop items acc = some K →
    ∀ y ∈ acc, y ∈ K := by
  intro items
  induction items with
  | nil =>
    intro acc K h y hy
    simp only [kindLoop] at h
    rw [← Option.some_inj.mp h]
    exact hy
  | cons k ks ih =>
    intro acc K h y hy
    simp only [kindLoop] at h
    cases hkv : jGetItem k "kind" with
    | none => rw [hkv] at h; exact Option.noConfusion h
    | some kv =>
      simp only [hkv] at h
      by_cases hmem : (acc.any fun e => pyEq e kv) = true
      · rw [if_pos hmem] at h
        exact ih h y hy
      · rw [if_neg hmem] at h
        exact ih h y (List.mem_append_left _ hy)

theorem apiLoop_acc_mem : ∀ {items acc A : List JValue}, apiLoop items acc = some A →
    ∀ y ∈ acc, y ∈ A := by
  intro items
  induction items with
  | nil =>
    intro acc A h y hy
    simp only [apiLoop] at h
    rw [← Option.some_inj.mp h]
    exact hy
  | cons k ks ih =>
    intro acc A h y hy
    simp only [apiLoop] at h
    cases hg : jGetItem k "group" with
    | none => rw [hg] at h; exact Option.noConfusion h
    | some g =>
      simp only [hg] at h
      by_cases hmem : (acc.any fun e => pyEq e g) = true
      · rw [if_pos hmem] at h
        exact ih h y hy
      · rw [if_neg hmem] at h
        cases hlen : pyLen g with
        | none => rw [hlen] at h; exact Option.noConfusion h
        | some n =>
          simp only [hlen] at h
          by_cases hn : n > 0
          · rw [if_pos hn] at h
            cases hfg : pyFormat g with
            | none =>
              simp only [hfg] at h
              exact Option.noConfusion h
            | some gs =>
              cases hfv : (jGetItem k "version").bind pyFormat with
              | none =>
                simp only [hfg, hfv] at h
                exact Option.noConfusion h
              | some vs =>
                simp only [hfg, hfv] at h
                exact ih h y (List.mem_append_left _ hy)
          · rw [if_neg hn] at h
            cases hvv : jGetItem k "version" with
            | none => rw [hvv] at h; exact Option.noConfusion h
            | some vv =>
              simp only [hvv] at h
              exact ih h y (List.mem_append_left _ hy)

/-- Rebuilding the kind enum from pointwise-preserved triples yields the
same list: the loop reads only `k["kind"]`, and every engaged value is
hashable (it ends up in an enum the cleanup de-duplicates). -/
theorem kindLoop_pres : ∀ {items items2 acc K : List JValue},
    List.Forall₂ (fun x y => ∀ key val, key ≠ "default" → key ≠ "$ref" → key ≠ "enum" →
      jGetItem x key = some val →
      (isHashable val = true ∨ val = .arr [] ∨ val = .obj []) →
      jGetItem y key = some val) items items2 →
    kindLoop items acc = some K → (∀ y ∈ K, isHashable y = true) →
    (∀ y ∈ acc, y ∈ K) → kindLoop items2 acc = some K := by
  intro items
  induction items with
  | nil =>
    intro items2 acc K hF2 h _ _
    cases hF2
    exact h
  | cons k ks ih =>
    intro items2 acc K hF2 h hKh hacc
    cases hF2 with
    | cons hR hF2t =>
      simp only [kindLoop] at h
      cases hkv : jGetItem k "kind" with
      | none => rw [hkv] at h; exact Option.noConfusion h
      | some kv =>
        simp only [hkv] at h
        by_cases hmem : (acc.any fun e => pyEq e kv) = true
        · rw [if_pos hmem] at h
          have hkvh : isHashable kv = true := by
            obtain ⟨e, he, hpe⟩ := List.any_eq_true.mp hmem
            exact pyEq_hashable hpe (hKh e (hacc e he))
          have hy := hR "kind" kv (by decide) (by decide) (by decide) hkv (Or.inl hkvh)
          simp only [kindLoop, hy]
          rw [if_pos hmem]
          exact ih hF2t h hKh hacc
        · rw [if_neg hmem] at h
          have hkvK : kv ∈ K :=
            kindLoop_acc_mem h kv (List.mem_append_right _ (List.mem_singleton.mpr rfl))
          have hy := hR "kind" kv (by decide) (by decide) (by decide) hkv
            (Or.inl (hKh kv hkvK))
          simp only [kindLoop, hy]
          rw [if_neg hmem]
          apply ih hF2t h hKh
          intro y hy2
          rcases List.mem_append.mp hy2 with h1 | h1
          · exact hacc y h1
          · rw [List.mem_singleton.mp h1]
            exact hkvK

/-- Rebuilding the apiVersion enum from pointwise-preserved triples yields
the same list: the loop reads only `k["group"]` and `k["version"]`, and
every engaged value is either hashable or an empty container. -/
theorem apiLoop_pres : ∀ {items items2 acc A : List JValue},
    List.Forall₂ (fun x y => ∀ key val, key ≠ "default" → key ≠ "$ref" → key ≠ "enum" →
      jGetItem x key = some val →
      (isHashable val = true ∨ val = .arr [] ∨ val = .obj []) →
      jGetItem y key = some val) items items2 →
    apiLoop items acc = some A → (∀ y ∈ A, isHashable y = true) →
    (∀ y ∈ acc, y ∈ A) → apiLoop items2 acc = some A := by
  intro items
  induction items with
  | nil =>
    intro items2 acc A hF2 h _ _
    cases hF2
    exact h
  | cons k ks ih =>
    intro items2 acc A hF2 h hAh hacc
    cases hF2 with
    | cons hR hF2t =>
      simp only [apiLoop] at h
      cases hg : jGetItem k "group" with
      | none => rw [hg] at h; exact Option.noConfusion h
      | some g =>
        simp only [hg] at h
        by_cases hmem : (acc.any fun e => pyEq e g) = true
        · rw [if_pos hmem] at h
          have hgh : isHashable g = true := by
            obtain ⟨e, he, hpe⟩ := List.any_eq_true.mp hmem
            exact pyEq_hashable hpe (hAh e (hacc e he))
          have hy := hR "group" g (by decide) (by decide) (by decide) hg (Or.inl hgh)
          simp only [apiLoop, hy]
          rw [if_pos hmem]
          exact ih hF2t h hAh hacc
        · rw [if_neg hmem] at h
          cases hlen : pyLen g with
          | none => simp only [hlen] at h; exact Option.noConfusion h
          | some n =>
            simp only [hlen] at h
            by_cases hn : n > 0
            · rw [if_pos hn] at h
              cases hfg : pyFormat g with
              | none =>
                simp only [hfg] at h
                exact Option.noConfusion h
              | some gs =>
                cases hfv : (jGetItem k "version").bind pyFormat with
                | none =>
                  simp only [hfg, hfv] at h
                  exact Option.noConfusion h
                | some vs =>
                  simp only [hfg, hfv] at h
                  have hgstr : isHashable g = true := by
                    cases g with
                    | str _ => rfl
                    | null => exact absurd hlen (by simp [pyLen])
                    | bool _ => exact absurd hlen (by simp [pyLen])
                    | num _ => exact absurd hlen (by simp [pyLen])
                    | arr _ => exact absurd hfg (by simp [pyFormat])
                    | obj _ => exact absurd hfg (by simp [pyFormat])
                  obtain ⟨vv, hvv, hfvv⟩ : ∃ vv, jGetItem k "version" = some vv ∧
                      pyFormat vv = some vs := by
                    cases hvv0 : jGetItem k "version" with
                    | none => rw [hvv0] at hfv; exact Option.noConfusion hfv
                    | some vv =>
                      rw [hvv0, Option.some_bind] at hfv
                      exact ⟨vv, rfl, hfv⟩
                  have hvvh : isHashable vv = true := by
                    cases vv with
                    | str _ => rfl
                    | null => rfl
                    | bool _ => rfl
                    | num _ => rfl
                    | arr _ => exact absurd hfvv (by simp [pyFormat])
                    | obj _ => exact absurd hfvv (by simp [pyFormat])
                  have hgy := hR "group" g (by decide) (by decide) (by decide) hg
                    (Or.inl hgstr)
                  have hvy := hR "version" vv (by decide) (by decide) (by decide) hvv
                    (Or.inl hvvh)
                  simp only [apiLoop, hgy]
                  rw [if_neg hmem]
                  simp only [hlen]
                  rw [if_pos hn]
                  simp only [hvy, Option.some_bind, hfg, hfvv]
                  apply ih hF2t h hAh
                  intro y hy2
                  rcases List.mem_append.mp hy2 with h1 | h1
                  · exact hacc y h1
                  · rw [List.mem_singleton.mp h1]
                    exact apiLoop_acc_mem h _
                      (List.mem_append_right _ (List.mem_singleton.mpr rfl))
            · rw [if_neg hn] at h
              cases hvv : jGetItem k "version" with
              | none => simp only [hvv] at h; exact Option.noConfusion h
              | some vv =>
                simp only [hvv] at h
                have hvvA : vv ∈ A :=
                  apiLoop_acc_mem h vv
                    (List.mem_append_right _ (List.mem_singleton.mpr rfl))
                have hgp : isHashable g = true ∨ g = .arr [] ∨ g = .obj [] := by
                  have hn0 : n = 0 := by omega
                  cases g with
                  | str _ => exact Or.inl rfl
                  | arr l =>
                    refine Or.inr (Or.inl ?_)
                    simp only [pyLen] at hlen
                    have hl0 : l = [] := List.length_eq_zero.mp
                      (by rw [Option.some_inj.mp hlen, hn0])
                    rw [hl0]
                  | obj fs0 =>
                    refine Or.inr (Or.inr ?_)
                    simp only [pyLen] at hlen
                    have hl0 : fs0 = [] := List.length_eq_zero.mp
                      (by rw [Option.some_inj.mp hlen, hn0])
                    rw [hl0]
                  | null => exact absurd hlen (by simp [pyLen])
                  | bool _ => exact absurd hlen (by simp [pyLen])
                  | num _ => exact absurd hlen (by simp [pyLen])
                have hgy := hR "group" g (by decide) (by decide) (by decide) hg hgp
                have hvy := hR "version" vv (by decide) (by decide) (by decide) hvv
                  (Or.inl (hAh vv hvvA))
                simp only [apiLoop, hgy]
                rw [if_neg hmem]
                simp only [hlen]
                rw [if_neg hn]
                simp only [hvy]
                apply ih hF2t h hAh
                intro y hy2
                rcases List.mem_append.mp hy2 with h1 | h1
                · exact hacc y h1
                · rw [List.mem_singleton.mp h1]
                  exact hvvA

theorem lookup_mem : ∀ {fs : Fields} {k : String} {v : JValue},
    lookupF fs k = some v → (k, v) ∈ fs := by
  intro fs
  induction fs with
  | nil => intro k v h; exact Option.noConfusion h
  | cons p fs ih =>
    intro k v h
    obtain ⟨a, b⟩ := p
    simp only [lookupF] at h
    by_cases hk : a = k
    · rw [if_pos hk] at h
      rw [hk, Option.some_inj.mp h]
      exact List.mem_cons_self _ _
    · rw [if_neg hk] at h
      exact List.mem_cons_of_mem _ (ih h)

theorem jGetItem_obj_of_some {x : JValue} {key : String} {val : JValue}
    (h : jGetItem x key = some val) : ∃ tfs, x = .obj tfs := by
  cases x with
  | obj tfs => exact ⟨tfs, rfl⟩
  | null => exact Option.noConfusion h
  | bool _ => exact Option.noConfusion h
  | num _ => exact Option.noConfusion h
  | str _ => exact Option.noConfusion h
  | arr _ => exact Option.noConfusion h

theorem kindLoop_items_obj : ∀ {items acc K : List JValue}, kindLoop items acc = some K →
    ∀ x ∈ items, ∃ tfs, x = .obj tfs := by
  intro items
  induction items with
  | nil => intro acc K _ x hx; exact absurd hx (List.not_mem_nil x)
  | cons k ks ih =>
    intro acc K h x hx
    simp only [kindLoop] at h
    cases hkv : jGetItem k "kind" with
    | none => rw [hkv] at h; exact Option.noConfusion h
    | some kv =>
      simp only [hkv] at h
      rcases List.mem_cons.mp hx with hx1 | hx1
      · rw [hx1]
        exact jGetItem_obj_of_some hkv
      · by_cases hmem : (acc.any fun e => pyEq e kv) = true
        · rw [if_pos hmem] at h
          exact ih h x hx1
        · rw [if_neg hmem] at h
          exact ih h x hx1

theorem apiLoop_items_obj : ∀ {items acc A : List JValue}, apiLoop items acc = some A →
    ∀ x ∈ items, ∃ tfs, x = .obj tfs := by
  intro items
  induction items with
  | nil => intro acc A _ x hx; exact absurd hx (List.not_mem_nil x)
  | cons k ks ih =>
    intro acc A h x hx
    simp only [apiLoop] at h
    cases hg : jGetItem k "group" with
    | none => rw [hg] at h; exact Option.noConfusion h
    | some g =>
      simp only [hg] at h
      rcases List.mem_cons.mp hx with hx1 | hx1
      · rw [hx1]
        exact jGetItem_obj_of_some hg
      · by_cases hmem : (acc.any fun e => pyEq e g) = true
        · rw [if_pos hmem] at h
          exact ih h x hx1
        · rw [if_neg hmem] at h
          cases hlen : pyLen g with
          | none => simp only [hlen] at h; exact Option.noConfusion h
          | some n =>
            simp only [hlen] at h
            by_cases hn : n > 0
            · rw [if_pos hn] at h
              cases hfg : pyFormat g with
              | none => simp only [hfg] at h; exact Option.noConfusion h
              | some gs =>
                cases hfv : (jGetItem k "version").bind pyFormat with
                | none => simp only [hfg, hfv] at h; exact Option.noConfusion h
                | some vs =>
                  simp only [hfg, hfv] at h
                  exact ih h x hx1
            · rw [if_neg hn] at h
              cases hvv : jGetItem k "version" with
              | none => simp only [hvv] at h; exact Option.noConfusion h
              | some vv =>
                simp only [hvv] at h
                exact ih h x hx1

theorem SafeV_setF_obj {fs c : Fields} {k : String} (hs : SafeV (.obj fs))
    (hk : k ≠ "allOf") (hc : SafeV (.obj c)) : SafeV (.obj (setF fs k (.obj c))) := by
  cases hs with
  | obj _ h1 h2 h3 =>
    apply SafeV.obj
    · rw [hasKeyF_setF_ne_eq (fun hh => hk hh.symm)]
      exact h1
    · exact noDupKeysB_setF h2
    · intro kv hkv
      rcases mem_setF hkv with h4 | h4
      · exact h3 kv h4
      · rw [h4]
        exact SafeChild.obj c hc

theorem SafeV_setF_arrH {fs : Fields} {k : String} {l : List JValue} (hs : SafeV (.obj fs))
    (hk : k ≠ "allOf") (hl : ∀ x ∈ l, isHashable x = true) :
    SafeV (.obj (setF fs k (.arr l))) := by
  cases hs with
  | obj _ h1 h2 h3 =>
    apply SafeV.obj
    · rw [hasKeyF_setF_ne_eq (fun hh => hk hh.symm)]
      exact h1
    · exact noDupKeysB_setF h2
    · intro kv hkv
      rcases mem_setF hkv with h4 | h4
      · exact h3 kv h4
      · rw [h4]
        exact SafeChild.arr l (fun x hx => SafeElem.nonObj x (isHashable_ne_obj (hl x hx)))

theorem SafeV_child_obj {fs c : Fields} {k : String} (hs : SafeV (.obj fs))
    (hl : lookupF fs k = some (.obj c)) : SafeV (.obj c) := by
  cases hs with
  | obj _ _ _ h3 =>
    have hsc := h3 (k, .obj c) (lookup_mem hl)
    cases hsc with
    | obj _ hv => exact hv

/-- Lookups of hashable or empty-container values at non-special keys
survive a successful cleanup of an `allOf`-free node. -/
theorem cleanupSchema_pres_special {dF : List JValue → List JValue} {fuel : Nat}
    {fs fs5 : Fields} (hNoAll : hasKeyF fs "allOf" = false)
    (h : cleanupSchema dF fuel (.obj fs) = some (.obj fs5)) :
    ∀ k val, k ≠ "default" → k ≠ "$ref" → k ≠ "enum" → lookupF fs k = some val →
      (isHashable val = true ∨ val = .arr [] ∨ val = .obj []) →
      lookupF fs5 k = some val := by
  match fuel with
  | 0 => exact Option.noConfusion h
  | fuel + 1 =>
    obtain ⟨fs2', fs4, fs5', h2, h4, h5, hw⟩ := cleanupSchema_succ_elim h
    have hww : fs5 = fs5' := by injection hw
    subst hww
    have hskip := hoistStep_skip_nokey (@hasKeyF_popF_of_not fs "default" "allOf" hNoAll)
    rw [h2] at hskip
    have hfs2 : fs2' = popF fs "default" := Option.some_inj.mp hskip
    subst hfs2
    intro k val hkd hkr hke hl hp
    have hl4 : lookupF fs4 k = some val := by
      rw [enumStep_lookup_ne h4 hke, refStep_lookup_ne hkr, lookupF_popF_ne hkd]
      exact hl
    rcases hp with hp | hp | hp
    · exact cleanupFields_scalar_fwd h5 hl4 (isHashable_ne_obj hp)
        (fun xs hc => by rw [hc] at hp; exact Bool.noConfusion hp)
    · rw [hp] at hl4 ⊢
      obtain ⟨l2, f, he, hlk⟩ := cleanupFields_arr_fwd2 h5 hl4
      have hl20 : l2.length = 0 := by rw [cleanupElems_length he]; rfl
      rw [List.length_eq_zero.mp hl20] at hlk
      exact hlk
    · rw [hp] at hl4 ⊢
      obtain ⟨c2, f, hrun, hlk⟩ := cleanupFields_obj_fwd2 h5 hl4
      have hk2 : keysF c2 = [] := by
        have hkk := (cleanupSchema_props
          (show hasKeyF ([] : Fields) "allOf" = false from rfl) hrun).1
        simpa [popF, keysF] using hkk
      have hc2 : c2 = [] := by
        cases c2 with
        | nil => rfl
        | cons q qs => exact absurd hk2 (by simp [keysF])
      rw [hc2] at hlk
      exact hlk

/-- The cleaned gvk triples preserve the lookups the `_fix_kind` loops
engage. -/
theorem triples_rel {dF : List JValue → List JValue} : ∀ {fuel : Nat} {xs ys : List JValue},
    cleanupElems dF fuel xs = some ys → (∀ x ∈ xs, SafeElem x) →
    List.Forall₂ (fun x y => ∀ key val, key ≠ "default" → key ≠ "$ref" → key ≠ "enum" →
      jGetItem x key = some val →
      (isHashable val = true ∨ val = .arr [] ∨ val = .obj []) →
      jGetItem y key = some val) xs ys := by
  intro fuel xs ys h hsafe
  have hF2 := cleanupElems_forall2 h
  clear h
  induction hF2 with
  | nil => exact List.Forall₂.nil
  | cons hrel hF2t ih =>
    apply List.Forall₂.cons
    · rcases hrel with ⟨ofs, f, hx, hrun⟩ | ⟨hy, _⟩
      · subst hx
        obtain ⟨gs, hg⟩ := cleanupSchema_obj_out hrun
        rw [hg] at hrun
        have hsv : SafeV (.obj ofs) := by
          have hse := hsafe _ (List.mem_cons_self _ _)
          cases hse with
          | obj _ hv => exact hv
          | nonObj _ hne => exact absurd rfl (hne ofs)
        have hNoAll : hasKeyF ofs "allOf" = false := by
          cases hsv with
          | obj _ h1 _ _ => exact h1
        intro key val hkd hkr hke hj hp
        simp only [jGetItem] at hj
        rw [hg]
        simp only [jGetItem]
        exact cleanupSchema_pres_special hNoAll hrun key val hkd hkr hke hj hp
      · subst hy
        intro key val _ _ _ hj _
        exact hj
    · exact ih (fun q hq => hsafe q (List.mem_cons_of_mem _ hq))

/-- Decomposition of a successful cleanup on an `allOf`-free node: the
hoist is a no-op, and entries at non-special keys reach the field-cleaning
stage unchanged. -/
theorem cleanupSchema_chain {dF : List JValue → List JValue} {fuel : Nat} {fs fs5 : Fields}
    (hNoAll : hasKeyF fs "allOf" = false)
    (h : cleanupSchema dF fuel (.obj fs) = some (.obj fs5)) :
    ∃ fs4 f', enumStep dF (refStep (popF fs "default")) = some fs4 ∧
      cleanupFields dF f' fs4 = some fs5 ∧ fuel = f' + 1 ∧
      (∀ k, k ≠ "default" → k ≠ "$ref" → k ≠ "enum" → lookupF fs4 k = lookupF fs k) := by
  match fuel with
  | 0 => exact Option.noConfusion h
  | fuel + 1 =>
    obtain ⟨fs2', fs4, fs5', h2, h4, h5, hw⟩ := cleanupSchema_succ_elim h
    have hww : fs5 = fs5' := by injection hw
    subst hww
    have hskip := hoistStep_skip_nokey (@hasKeyF_popF_of_not fs "default" "allOf" hNoAll)
    rw [h2] at hskip
    have hfs2 : fs2' = popF fs "default" := Option.some_inj.mp hskip
    subst hfs2
    refine ⟨fs4, fuel, h4, h5, rfl, ?_⟩
    intro k hkd hkr hke
    rw [enumStep_lookup_ne h4 hke, refStep_lookup_ne hkr, lookupF_popF_ne hkd]

/-- Cleaning a node whose `enum` was just rebuilt as the list `K`: the
elements of `K` are hashable, the cleaned node stores `dF K`, and resetting
that entry back to `K` is a legitimate enum reset. -/
theorem enum_set_node {dF : List JValue → List JValue} (hsub : DedupSub dF) {f : Nat}
    {kfs kW : Fields} {K : List JValue}
    (hNoAll : hasKeyF kfs "allOf" = false)
    (h : cleanupSchema dF f (.obj (setF kfs "enum" (.arr K))) = some (.obj kW)) :
    (∀ x ∈ K, isHashable x = true) ∧ lookupF kW "enum" = some (.arr (dF K)) ∧
    ResetV dF kW (setF kW "enum" (.arr K)) := by
  have hNoAllB : hasKeyF (setF kfs "enum" (.arr K)) "allOf" = false := by
    rw [hasKeyF_setF_ne_eq (by decide)]
    exact hNoAll
  obtain ⟨fs4, f', h4, h5, hf, hch⟩ := cleanupSchema_chain hNoAllB h
  have hle : lookupF (refStep (popF (setF kfs "enum" (.arr K)) "default")) "enum"
      = some (.arr K) := by
    rw [refStep_lookup_ne (by decide), lookupF_popF_ne (by decide)]
    exact lookupF_setF_self
  rcases enumStep_elim h4 with ⟨l0, hl0, hall0, hfs4⟩ | ⟨hnoarr, _⟩
  · rw [hle] at hl0
    have h6 := Option.some_inj.mp hl0
    have h7 : K = l0 := by injection h6
    subst h7
    have hhash : ∀ x ∈ K, isHashable x = true := fun x hx => List.all_eq_true.mp hall0 x hx
    have hl4 : lookupF fs4 "enum" = some (.arr (dF K)) := by
      rw [hfs4]
      exact lookupF_setF_self
    obtain ⟨l2, f2, he2, hlk⟩ := cleanupFields_arr_fwd2 h5 hl4
    have hl2 : l2 = dF K := cleanupElems_hashable_eq he2
      (fun x hx => hhash x (hsub K hhash x hx))
    rw [hl2] at hlk
    exact ⟨hhash, hlk, ResetV.reset kW kW K (dF K) (ResetF_refl kW) hlk hhash rfl⟩
  · exact absurd hle (hnoarr K)

/-- Items drawn from the gvk value before and after cleanup are pointwise
preserved for the loops' lookups. -/
theorem gvk_items_pres {dF : List JValue → List JValue} {fuel : Nat} {bfs wfs : Fields}
    {g : JValue} {items : List JValue}
    (hNoAll : hasKeyF bfs "allOf" = false)
    (h : cleanupSchema dF fuel (.obj bfs) = some (.obj wfs))
    (hgl : lookupF bfs gvkKey = some g)
    (hit : pyIterate g = some items)
    (hobj : ∀ x ∈ items, ∃ tfs, x = .obj tfs)
    (hsafeg : SafeChild g) :
    ∃ g2 items2, lookupF wfs gvkKey = some g2 ∧ pyIterate g2 = some items2 ∧
      List.Forall₂ (fun x y => ∀ key val, key ≠ "default" → key ≠ "$ref" → key ≠ "enum" →
        jGetItem x key = some val →
        (isHashable val = true ∨ val = .arr [] ∨ val = .obj []) →
        jGetItem y key = some val) items items2 := by
  cases g with
  | arr ts =>
    have hts : items = ts := by
      simp only [pyIterate] at hit
      exact (Option.some_inj.mp hit).symm
    subst hts
    obtain ⟨fs4, f', h4, h5, hf, hch⟩ := cleanupSchema_chain hNoAll h
    have hl4 : lookupF fs4 gvkKey = some (.arr items) := by
      rw [hch gvkKey (by decide) (by decide) (by decide)]
      exact hgl
    obtain ⟨ys, f2, he2, hlk⟩ := cleanupFields_arr_fwd2 h5 hl4
    have hse : ∀ x ∈ items, SafeElem x := by
      cases hsafeg with
      | arr _ hv => exact hv
    exact ⟨.arr ys, ys, hlk, rfl, triples_rel he2 hse⟩
  | obj gfs =>
    simp only [pyIterate] at hit
    have hitems : items = gfs.map (fun kv => JValue.str kv.1) :=
      (Option.some_inj.mp hit).symm
    cases gfs with
    | cons q qs =>
      exfalso
      have hx : JValue.str q.1 ∈ items := by
        rw [hitems]
        exact List.mem_cons_self _ _
      obtain ⟨tfs, htfs⟩ := hobj _ hx
      exact JValue.noConfusion htfs
    | nil =>
      have hitems0 : items = [] := by rw [hitems]; rfl
      subst hitems0
      have hpres : lookupF wfs gvkKey = some (.obj []) :=
        cleanupSchema_pres_special hNoAll h gvkKey (.obj []) (by decide) (by decide)
          (by decide) hgl (Or.inr (Or.inr rfl))
      exact ⟨.obj [], [], hpres, rfl, List.Forall₂.nil⟩
  | str s =>
    simp only [pyIterate] at hit
    have hitems : items = s.data.map (fun c => JValue.str (String.mk [c])) :=
      (Option.some_inj.mp hit).symm
    cases hs : s.data with
    | cons c cs =>
      exfalso
      rw [hs] at hitems
      have hx : JValue.str (String.mk [c]) ∈ items := by
        rw [hitems]
        exact List.mem_cons_self _ _
      obtain ⟨tfs, htfs⟩ := hobj _ hx
      exact JValue.noConfusion htfs
    | nil =>
      have hitems0 : items = [] := by rw [hitems, hs]; rfl
      subst hitems0
      have hpres : lookupF wfs gvkKey = some (.str s) :=
        cleanupSchema_pres_special hNoAll h gvkKey (.str s) (by decide) (by decide)
          (by decide) hgl (Or.inl rfl)
      refine ⟨.str s, [], hpres, ?_, List.Forall₂.nil⟩
      simp only [pyIterate, hs, List.map_nil]
  | null => exact Option.noConfusion hit
  | bool _ => exact Option.noConfusion hit
  | num _ => exact Option.noConfusion hit

/-- A dict-valued entry at a non-special key of an `allOf`-free node is
cleaned to the cleanup of that dict. -/
theorem cleanup_obj_value {dF : List JValue → List JValue} {fuel : Nat}
    {bfs wfs c : Fields} {k : String}
    (hNoAll : hasKeyF bfs "allOf" = false)
    (h : cleanupSchema dF fuel (.obj bfs) = some (.obj wfs))
    (hkd : k ≠ "default") (hkr : k ≠ "$ref") (hke : k ≠ "enum")
    (hl : lookupF bfs k = some (.obj c)) :
    ∃ c2 f2, cleanupSchema dF f2 (.obj c) = some (.obj c2) ∧
      lookupF wfs k = some (.obj c2) := by
  obtain ⟨fs4, f', h4, h5, hf, hch⟩ := cleanupSchema_chain hNoAll h
  have hl4 : lookupF fs4 k = some (.obj c) := by
    rw [hch k hkd hkr hke]
    exact hl
  exact cleanupFields_obj_fwd2 h5 hl4

/-- Driver for second-pass stability on a node whose first-pass `_fix_kind`
output is `fsA`: given that the cleaned node `wfs` admits a second
`_fix_kind` whose output is an enum-reset of `wfs`, the whole per-value
pass is stable. -/
theorem gvk_driver {dF : List JValue → List JValue} (hsub : DedupSub dF)
    (hidem : DedupIdem dF) {n : Nat} {fsA : Fields} {w : JValue}
    (hfx : cleanupSchema dF (n + 1) (apStep (.obj fsA)) = some w)
    (hP2 : ∀ bfs wfs, (bfs = fsA ∨ bfs = setF fsA "additionalProperties" (.bool false)) →
      cleanupSchema dF (n + 1) (.obj bfs) = some (.obj wfs) →
      SafeV (.obj bfs) ∧
      ∃ wA, fixKind (.obj wfs) = some (.obj wA) ∧ ResetF dF wfs wA ∧
        keysF wA = keysF wfs ∧
        (∀ k, k ≠ "properties" → lookupF wA k = lookupF wfs k)) :
    normalizeValue dF (n + 1) w = some w := by
  cases hmv : hasKeyF fsA "x-kubernetes-preserve-unknown-fields" with
  | true =>
    have hap : apStep (.obj fsA) = .obj fsA := by
      simp only [apStep]
      rw [if_pos hmv]
    rw [hap] at hfx
    obtain ⟨wfs, hg⟩ := cleanupSchema_obj_out hfx
    rw [hg] at hfx
    obtain ⟨hsvA, wA, hfk2, hRF, hkA, hlkA⟩ := hP2 fsA wfs (Or.inl rfl) hfx
    have hNoAllA : hasKeyF fsA "allOf" = false := by
      cases hsvA with
      | obj _ h1 _ _ => exact h1
    have hkeysW : keysF wfs = keysF (popF fsA "default") :=
      (cleanupSchema_props hNoAllA hfx).1
    have hm2 : hasKeyF wfs "x-kubernetes-preserve-unknown-fields" = true := by
      rw [hasKeyF_eq_of_keys hkeysW, hasKeyF_popF_ne (by decide)]
      exact hmv
    have hm2A : hasKeyF wA "x-kubernetes-preserve-unknown-fields" = true := by
      rw [hasKeyF_eq_of_keys hkA]
      exact hm2
    have hap2 : apStep (.obj wA) = .obj wA := by
      simp only [apStep]
      rw [if_pos hm2A]
    have hres : cleanupSchema dF (n + 1) (.obj wA) = some (.obj wfs) :=
      (cleanup_idem_reset hsub hidem (n + 1)).1 fsA wfs wA hsvA hfx
        (ResetV.noreset _ _ hRF)
    rw [hg]
    simp only [normalizeValue]
    rw [hfk2, Option.some_bind, hap2]
    exact hres
  | false =>
    have hap : apStep (.obj fsA)
        = .obj (setF fsA "additionalProperties" (.bool false)) := by
      simp only [apStep]
      rw [if_neg (by simp [hmv])]
    rw [hap] at hfx
    obtain ⟨wfs, hg⟩ := cleanupSchema_obj_out hfx
    rw [hg] at hfx
    obtain ⟨hsvb, wA, hfk2, hRF, hkA, hlkA⟩ := hP2 _ wfs (Or.inr rfl) hfx
    have hNoAllB : hasKeyF (setF fsA "additionalProperties" (.bool false)) "allOf"
        = false := by
      cases hsvb with
      | obj _ h1 _ _ => exact h1
    have hNodupB : noDupKeysB (setF fsA "additionalProperties" (.bool false)) = true := by
      cases hsvb with
      | obj _ _ h2 _ => exact h2
    have hkeysW : keysF wfs
        = keysF (popF (setF fsA "additionalProperties" (.bool false)) "default") :=
      (cleanupSchema_props hNoAllB hfx).1
    have hm2 : hasKeyF wfs "x-kubernetes-preserve-unknown-fields" = false := by
      rw [hasKeyF_eq_of_keys hkeysW, hasKeyF_popF_ne (by decide),
        hasKeyF_setF_ne_eq (by decide)]
      exact hmv
    have hm2A : hasKeyF wA "x-kubernetes-preserve-unknown-fields" = false := by
      rw [hasKeyF_eq_of_keys hkA]
      exact hm2
    have haPw : lookupF wfs "additionalProperties" = some (.bool false) :=
      cleanupSchema_pres_special hNoAllB hfx "additionalProperties" (.bool false)
        (by decide) (by decide) (by decide) lookupF_setF_self (Or.inl rfl)
    have haPA : lookupF wA "additionalProperties" = some (.bool false) := by
      rw [hlkA _ (by decide)]
      exact haPw
    have hndW : noDupKeysB wfs = true := by
      rw [noDupKeysB_iff, hkeysW, keysF_popF]
      exact ((noDupKeysB_iff.mp hNodupB).filter _)
    have hndA : noDupKeysB wA = true := by
      rw [noDupKeysB_eq_of_keys hkA]
      exact hndW
    have hap2 : apStep (.obj wA) = .obj wA := by
      simp only [apStep]
      rw [if_neg (by simp [hm2A]), setF_lookup_eq_of_nodup hndA haPA]
    have hres : cleanupSchema dF (n + 1) (.obj wA) = some (.obj wfs) :=
      (cleanup_idem_reset hsub hidem (n + 1)).1 _ wfs wA hsvb hfx
        (ResetV.noreset _ _ hRF)
    rw [hg]
    simp only [normalizeValue]
    rw [hfk2, Option.some_bind, hap2]
    exact hres

/-- Second-pass `_fix_kind` stability when both `kind` and `apiVersion`
enums were rebuilt on the first pass. -/
theorem gvk_core_TT {dF : List JValue → List JValue} (hsub : DedupSub dF) {n : Nat}
    {bfs wfs pfs kfs afs : Fields} {g : JValue} {items K A : List JValue}
    (hNoAllB : hasKeyF bfs "allOf" = false)
    (hNodupB : noDupKeysB bfs = true)
    (hrun : cleanupSchema dF (n + 1) (.obj bfs) = some (.obj wfs))
    (hPb : lookupF bfs "properties" = some (.obj (setF (setF pfs "kind"
      (.obj (setF kfs "enum" (.arr K)))) "apiVersion" (.obj (setF afs "enum" (.arr A))))))
    (hgb : lookupF bfs gvkKey = some g)
    (hit : pyIterate g = some items)
    (hK : kindLoop items [] = some K)
    (hA : apiLoop items [] = some A)
    (hsafeg : SafeChild g)
    (hNoAllP : hasKeyF pfs "allOf" = false) (hNodupP : noDupKeysB pfs = true)
    (hNoAllK : hasKeyF kfs "allOf" = false) (hNoAllA : hasKeyF afs "allOf" = false) :
    (∀ x ∈ K, isHashable x = true) ∧ (∀ x ∈ A, isHashable x = true) ∧
    ∃ wA, fixKind (.obj wfs) = some (.obj wA) ∧ ResetF dF wfs wA ∧
      keysF wA = keysF wfs ∧ (∀ k, k ≠ "properties" → lookupF wA k = lookupF wfs k) := by
  obtain ⟨pW, fP, hrunP, hlkP⟩ :=
    cleanup_obj_value hNoAllB hrun (by decide) (by decide) (by decide) hPb
  have hNoAllPA : hasKeyF (setF (setF pfs "kind" (.obj (setF kfs "enum" (.arr K))))
      "apiVersion" (.obj (setF afs "enum" (.arr A)))) "allOf" = false := by
    rw [hasKeyF_setF_ne_eq (by decide), hasKeyF_setF_ne_eq (by decide)]
    exact hNoAllP
  have hNodupPA : noDupKeysB (setF (setF pfs "kind" (.obj (setF kfs "enum" (.arr K))))
      "apiVersion" (.obj (setF afs "enum" (.arr A)))) = true :=
    noDupKeysB_setF (noDupKeysB_setF hNodupP)
  have hlkApA : lookupF (setF (setF pfs "kind" (.obj (setF kfs "enum" (.arr K))))
      "apiVersion" (.obj (setF afs "enum" (.arr A)))) "kind"
      = some (.obj (setF kfs "enum" (.arr K))) := by
    rw [lookupF_setF_ne (by decide)]
    exact lookupF_setF_self
  obtain ⟨kW, fK, hrunK, hlkK⟩ :=
    cleanup_obj_value hNoAllPA hrunP (by decide) (by decide) (by decide) hlkApA
  obtain ⟨hKhash, hkWenum, hkWreset⟩ := enum_set_node hsub hNoAllK hrunK
  have hlkApA2 : lookupF (setF (setF pfs "kind" (.obj (setF kfs "enum" (.arr K))))
      "apiVersion" (.obj (setF afs "enum" (.arr A)))) "apiVersion"
      = some (.obj (setF afs "enum" (.arr A))) := lookupF_setF_self
  obtain ⟨aW, fA2, hrunA, hlkA2⟩ :=
    cleanup_obj_value hNoAllPA hrunP (by decide) (by decide) (by decide) hlkApA2
  obtain ⟨hAhash, haWenum, haWreset⟩ := enum_set_node hsub hNoAllA hrunA
  have hkeysPW := (cleanupSchema_props hNoAllPA hrunP).1
  have hk2 : hasKeyF pW "kind" = true := by
    rw [hasKeyF_eq_of_keys hkeysPW, hasKeyF_popF_ne (by decide),
      hasKeyF_setF_ne_eq (by decide)]
    exact hasKeyF_setF_self
  have ha2 : hasKeyF pW "apiVersion" = true := by
    rw [hasKeyF_eq_of_keys hkeysPW, hasKeyF_popF_ne (by decide)]
    exact hasKeyF_setF_self
  have hkeysW := (cleanupSchema_props hNoAllB hrun).1
  have hgvk2 : hasKeyF wfs gvkKey = true := by
    rw [hasKeyF_eq_of_keys hkeysW, hasKeyF_popF_ne (by decide)]
    exact hasKeyF_of_lookupF_some hgb
  obtain ⟨g2, items2, hg2, hit2, hF2⟩ :=
    gvk_items_pres hNoAllB hrun hgb hit (kindLoop_items_obj hK) hsafeg
  have hK2 : kindLoop items2 [] = some K :=
    kindLoop_pres hF2 hK hKhash (fun y hy => absurd hy (List.not_mem_nil y))
  have hA2 : apiLoop items2 [] = some A :=
    apiLoop_pres hF2 hA hAhash (fun y hy => absurd hy (List.not_mem_nil y))
  have hfk2 := fixKind_gvk_TT hgvk2 hlkP hk2 hlkK ha2 hlkA2 hg2 hit2 hK2 hA2
  have hndW : noDupKeysB wfs = true := by
    rw [noDupKeysB_iff, hkeysW, keysF_popF]
    exact (noDupKeysB_iff.mp hNodupB).filter _
  have hndPW : noDupKeysB pW = true := by
    rw [noDupKeysB_iff, hkeysPW, keysF_popF]
    exact (noDupKeysB_iff.mp hNodupPA).filter _
  have hRF1 : ResetF dF pW (setF pW "kind" (.obj (setF kW "enum" (.arr K)))) :=
    ResetF_setF_child (ResetF_refl pW) hndPW hlkK hkWreset
  have hRF2 : ResetF dF pW (setF (setF pW "kind" (.obj (setF kW "enum" (.arr K))))
      "apiVersion" (.obj (setF aW "enum" (.arr A)))) :=
    ResetF_setF_child hRF1 hndPW hlkA2 haWreset
  have hRF : ResetF dF wfs (setF wfs "properties" (.obj (setF (setF pW "kind"
      (.obj (setF kW "enum" (.arr K)))) "apiVersion" (.obj (setF aW "enum" (.arr A)))))) :=
    ResetF_setF_child (ResetF_refl wfs) hndW hlkP (ResetV.noreset _ _ hRF2)
  refine ⟨hKhash, hAhash, _, hfk2, hRF, ?_, ?_⟩
  · exact keysF_setF_of_has (hasKeyF_of_lookupF_some hlkP)
  · intro k hk
    exact lookupF_setF_ne hk

/-- Second-pass `_fix_kind` stability when only the `kind` enum was
rebuilt. -/
theorem gvk_core_TF {dF : List JValue → List JValue} (hsub : DedupSub dF) {n : Nat}
    {bfs wfs pfs kfs : Fields} {g : JValue} {items K : List JValue}
    (hNoAllB : hasKeyF bfs "allOf" = false)
    (hNodupB : noDupKeysB bfs = true)
    (hrun : cleanupSchema dF (n + 1) (.obj bfs) = some (.obj wfs))
    (hPb : lookupF bfs "properties"
      = some (.obj (setF pfs "kind" (.obj (setF kfs "enum" (.arr K))))))
    (hgb : lookupF bfs gvkKey = some g)
    (hit : pyIterate g = some items)
    (hK : kindLoop items [] = some K)
    (hsafeg : SafeChild g)
    (hNoAllP : hasKeyF pfs "allOf" = false) (hNodupP : noDupKeysB pfs = true)
    (hNoAllK : hasKeyF kfs "allOf" = false)
    (haF : hasKeyF pfs "apiVersion" = false) :
    (∀ x ∈ K, isHashable x = true) ∧
    ∃ wA, fixKind (.obj wfs) = some (.obj wA) ∧ ResetF dF wfs wA ∧
      keysF wA = keysF wfs ∧ (∀ k, k ≠ "properties" → lookupF wA k = lookupF wfs k) := by
  obtain ⟨pW, fP, hrunP, hlkP⟩ :=
    cleanup_obj_value hNoAllB hrun (by decide) (by decide) (by decide) hPb
  have hNoAllPA : hasKeyF (setF pfs "kind" (.obj (setF kfs "enum" (.arr K)))) "allOf"
      = false := by
    rw [hasKeyF_setF_ne_eq (by decide)]
    exact hNoAllP
  have hNodupPA : noDupKeysB (setF pfs "kind" (.obj (setF kfs "enum" (.arr K)))) = true :=
    noDupKeysB_setF hNodupP
  have hlkApA : lookupF (setF pfs "kind" (.obj (setF kfs "enum" (.arr K)))) "kind"
      = some (.obj (setF kfs "enum" (.arr K))) := lookupF_setF_self
  obtain ⟨kW, fK, hrunK, hlkK⟩ :=
    cleanup_obj_value hNoAllPA hrunP (by decide) (by decide) (by decide) hlkApA
  obtain ⟨hKhash, hkWenum, hkWreset⟩ := enum_set_node hsub hNoAllK hrunK
  have hkeysPW := (cleanupSchema_props hNoAllPA hrunP).1
  have hk2 : hasKeyF pW "kind" = true := by
    rw [hasKeyF_eq_of_keys hkeysPW, hasKeyF_popF_ne (by decide)]
    exact hasKeyF_setF_self
  have ha2F : hasKeyF pW "apiVersion" = false := by
    rw [hasKeyF_eq_of_keys hkeysPW, hasKeyF_popF_ne (by decide),
      hasKeyF_setF_ne_eq (by decide)]
    exact haF
  have hkeysW := (cleanupSchema_props hNoAllB hrun).1
  have hgvk2 : hasKeyF wfs gvkKey = true := by
    rw [hasKeyF_eq_of_keys hkeysW, hasKeyF_popF_ne (by decide)]
    exact hasKeyF_of_lookupF_some hgb
  obtain ⟨g2, items2, hg2, hit2, hF2⟩ :=
    gvk_items_pres hNoAllB hrun hgb hit (kindLoop_items_obj hK) hsafeg
  have hK2 : kindLoop items2 [] = some K :=
    kindLoop_pres hF2 hK hKhash (fun y hy => absurd hy (List.not_mem_nil y))
  have hfk2 := fixKind_gvk_TF hgvk2 hlkP hk2 hlkK ha2F hg2 hit2 hK2
  have hndW : noDupKeysB wfs = true := by
    rw [noDupKeysB_iff, hkeysW, keysF_popF]
    exact (noDupKeysB_iff.mp hNodupB).filter _
  have hndPW : noDupKeysB pW = true := by
    rw [noDupKeysB_iff, hkeysPW, keysF_popF]
    exact (noDupKeysB_iff.mp hNodupPA).filter _
  have hRF1 : ResetF dF pW (setF pW "kind" (.obj (setF kW "enum" (.arr K)))) :=
    ResetF_setF_child (ResetF_refl pW) hndPW hlkK hkWreset
  have hRF : ResetF dF wfs (setF wfs "properties"
      (.obj (setF pW "kind" (.obj (setF kW "enum" (.arr K)))))) :=
    ResetF_setF_child (ResetF_refl wfs) hndW hlkP (ResetV.noreset _ _ hRF1)
  refine ⟨hKhash, _, hfk2, hRF, ?_, ?_⟩
  · exact keysF_setF_of_has (hasKeyF_of_lookupF_some hlkP)
  · intro k hk
    exact lookupF_setF_ne hk

/-- Second-pass `_fix_kind` stability when only the `apiVersion` enum was
rebuilt. -/
theorem gvk_core_FT {dF : List JValue → List JValue} (hsub : DedupSub dF) {n : Nat}
    {bfs wfs pfs afs : Fields} {g : JValue} {items A : List JValue}
    (hNoAllB : hasKeyF bfs "allOf" = false)
    (hNodupB : noDupKeysB bfs = true)
    (hrun : cleanupSchema dF (n + 1) (.obj bfs) = some (.obj wfs))
    (hPb : lookupF bfs "properties"
      = some (.obj (setF pfs "apiVersion" (.obj (setF afs "enum" (.arr A))))))
    (hgb : lookupF bfs gvkKey = some g)
    (hit : pyIterate g = some items)
    (hA : apiLoop items [] = some A)
    (hsafeg : SafeChild g)
    (hNoAllP : hasKeyF pfs "allOf" = false) (hNodupP : noDupKeysB pfs = true)
    (hNoAllA : hasKeyF afs "allOf" = false)
    (hkF : hasKeyF pfs "kind" = false) :
    (∀ x ∈ A, isHashable x = true) ∧
    ∃ wA, fixKind (.obj wfs) = some (.obj wA) ∧ ResetF dF wfs wA ∧
      keysF wA = keysF wfs ∧ (∀ k, k ≠ "properties" → lookupF wA k = lookupF wfs k) := by
  obtain ⟨pW, fP, hrunP, hlkP⟩ :=
    cleanup_obj_value hNoAllB hrun (by decide) (by decide) (by decide) hPb
  have hNoAllPA : hasKeyF (setF pfs "apiVersion" (.obj (setF afs "enum" (.arr A)))) "allOf"
      = false := by
    rw [hasKeyF_setF_ne_eq (by decide)]
    exact hNoAllP
  have hNodupPA : noDupKeysB (setF pfs "apiVersion" (.obj (setF afs "enum" (.arr A))))
      = true := noDupKeysB_setF hNodupP
  have hlkApA2 : lookupF (setF pfs "apiVersion" (.obj (setF afs "enum" (.arr A))))
      "apiVersion" = some (.obj (setF afs "enum" (.arr A))) := lookupF_setF_self
  obtain ⟨aW, fA2, hrunA, hlkA2⟩ :=
    cleanup_obj_value hNoAllPA hrunP (by decide) (by decide) (by decide) hlkApA2
  obtain ⟨hAhash, haWenum, haWreset⟩ := enum_set_node hsub hNoAllA hrunA
  have hkeysPW := (cleanupSchema_props hNoAllPA hrunP).1
  have hk2F : hasKeyF pW "kind" = false := by
    rw [hasKeyF_eq_of_keys hkeysPW, hasKeyF_popF_ne (by decide),
      hasKeyF_setF_ne_eq (by decide)]
    exact hkF
  have ha2 : hasKeyF pW "apiVersion" = true := by
    rw [hasKeyF_eq_of_keys hkeysPW, hasKeyF_popF_ne (by decide)]
    exact hasKeyF_setF_self
  have hkeysW := (cleanupSchema_props hNoAllB hrun).1
  have hgvk2 : hasKeyF wfs gvkKey = true := by
    rw [hasKeyF_eq_of_keys hkeysW, hasKeyF_popF_ne (by decide)]
    exact hasKeyF_of_lookupF_some hgb
  obtain ⟨g2, items2, hg2, hit2, hF2⟩ :=
    gvk_items_pres hNoAllB hrun hgb hit (apiLoop_items_obj hA) hsafeg
  have hA2 : apiLoop items2 [] = some A :=
    apiLoop_pres hF2 hA hAhash (fun y hy => absurd hy (List.not_mem_nil y))
  have hfk2 := fixKind_gvk_FT hgvk2 hlkP hk2F ha2 hlkA2 hg2 hit2 hA2
  have hndW : noDupKeysB wfs = true := by
    rw [noDupKeysB_iff, hkeysW, keysF_popF]
    exact (noDupKeysB_iff.mp hNodupB).filter _
  have hndPW : noDupKeysB pW = true := by
    rw [noDupKeysB_iff, hkeysPW, keysF_popF]
    exact (noDupKeysB_iff.mp hNodupPA).filter _
  have hRF1 : ResetF dF pW (setF pW "apiVersion" (.obj (setF aW "enum" (.arr A)))) :=
    ResetF_setF_child (ResetF_refl pW) hndPW hlkA2 haWreset
  have hRF : ResetF dF wfs (setF wfs "properties"
      (.obj (setF pW "apiVersion" (.obj (setF aW "enum" (.arr A)))))) :=
    ResetF_setF_child (ResetF_refl wfs) hndW hlkP (ResetV.noreset _ _ hRF1)
  refine ⟨hAhash, _, hfk2, hRF, ?_, ?_⟩
  · exact keysF_setF_of_has (hasKeyF_of_lookupF_some hlkP)
  · intro k hk
    exact lookupF_setF_ne hk

/-- Membership of a string among cleaned list elements is unchanged: dicts
stay dicts and everything else is kept verbatim. -/
theorem any_pyEq_str_pres {dF : List JValue → List JValue} {fuel : Nat}
    {xs ys : List JValue} {s : String} (h : cleanupElems dF fuel xs = some ys) :
    (ys.any fun y => pyEq y (.str s)) = (xs.any fun x => pyEq x (.str s)) := by
  have hF2 := cleanupElems_forall2 h
  clear h
  induction hF2 with
  | nil => rfl
  | cons hrel hF2t ih =>
    simp only [List.any_cons]
    rw [ih]
    congr 1
    rcases hrel with ⟨ofs, f, hx, hrun⟩ | ⟨hy, _⟩
    · subst hx
      obtain ⟨gs, hg⟩ := cleanupSchema_obj_out hrun
      rw [hg]
      rfl
    · rw [hy]

theorem fixKind_kind_nonobj {fs pfs : Fields} {kn : JValue}
    (hgvk : hasKeyF fs gvkKey = true)
    (hP : lookupF fs "properties" = some (.obj pfs))
    (hkT : hasKeyF pfs "kind" = true)
    (hkv : lookupF pfs "kind" = some kn)
    (han : asObj kn = none) :
    fixKind (.obj fs) = none := by
  simp [fixKind, hgvk, hP, pyIn, hkT, jGetItem, hkv, han]

theorem fixKind_iter_fail {fs pfs kfs : Fields} {g : JValue}
    (hgvk : hasKeyF fs gvkKey = true)
    (hP : lookupF fs "properties" = some (.obj pfs))
    (hkT : hasKeyF pfs "kind" = true)
    (hkv : lookupF pfs "kind" = some (.obj kfs))
    (hg : lookupF fs gvkKey = some g)
    (hit : pyIterate g = none) :
    fixKind (.obj fs) = none := by
  simp [fixKind, hgvk, hP, pyIn, hkT, jGetItem, hkv, asObj, hg, hit]

theorem fixKind_kindLoop_fail {fs pfs kfs : Fields} {g : JValue} {items : List JValue}
    (hgvk : hasKeyF fs gvkKey = true)
    (hP : lookupF fs "properties" = some (.obj pfs))
    (hkT : hasKeyF pfs "kind" = true)
    (hkv : lookupF pfs "kind" = some (.obj kfs))
    (hg : lookupF fs gvkKey = some g)
    (hit : pyIterate g = some items)
    (hK : kindLoop items [] = none) :
    fixKind (.obj fs) = none := by
  simp [fixKind, hgvk, hP, pyIn, hkT, jGetItem, hkv, asObj, hg, hit, hK]

set_option maxHeartbeats 2000000 in
theorem fixKind_api_nonobj_afterT {fs pfs kfs : Fields} {g an : JValue}
    {items K : List JValue}
    (hgvk : hasKeyF fs gvkKey = true)
    (hP : lookupF fs "properties" = some (.obj pfs))
    (hkT : hasKeyF pfs "kind" = true)
    (hkv : lookupF pfs "kind" = some (.obj kfs))
    (hg : lookupF fs gvkKey = some g)
    (hitems : pyIterate g = some items)
    (hK : kindLoop items [] = some K)
    (haT : hasKeyF pfs "apiVersion" = true)
    (hav : lookupF pfs "apiVersion" = some an)
    (han : asObj an = none) :
    fixKind (.obj fs) = none := by
  have h1 : lookupF (setF fs "properties"
      (.obj (setF pfs "kind" (.obj (setF kfs "enum" (.arr K)))))) "properties"
      = some (.obj (setF pfs "kind" (.obj (setF kfs "enum" (.arr K))))) := lookupF_setF_self
  have h2 : lookupF (setF pfs "kind" (.obj (setF kfs "enum" (.arr K)))) "apiVersion"
      = some an := by
    rw [lookupF_setF_ne (by decide)]
    exact hav
  have h4 : hasKeyF (setF pfs "kind" (.obj (setF kfs "enum" (.arr K)))) "apiVersion"
      = true := by
    rw [hasKeyF_setF_ne_eq (by decide)]
    exact haT
  have hkobj : asObj (JValue.obj kfs) = some kfs := rfl
  simp [fixKind, setPath2, jGetItem, setIn, pyIn, hgvk, hP, hkT, hkv, haT, hav, hg,
    hitems, hK, h1, h2, h4, han, hkobj]

set_option maxHeartbeats 2000000 in
theorem fixKind_apiLoop_fail_afterT {fs pfs kfs afs : Fields} {g : JValue}
    {items K : List JValue}
    (hgvk : hasKeyF fs gvkKey = true)
    (hP : lookupF fs "properties" = some (.obj pfs))
    (hkT : hasKeyF pfs "kind" = true)
    (hkv : lookupF pfs "kind" = some (.obj kfs))
    (hg : lookupF fs gvkKey = some g)
    (hitems : pyIterate g = some items)
    (hK : kindLoop items [] = some K)
    (haT : hasKeyF pfs "apiVersion" = true)
    (hav : lookupF pfs "apiVersion" = some (.obj afs))
    (hA : apiLoop items [] = none) :
    fixKind (.obj fs) = none := by
  have h1 : lookupF (setF fs "properties"
      (.obj (setF pfs "kind" (.obj (setF kfs "enum" (.arr K)))))) "properties"
      = some (.obj (setF pfs "kind" (.obj (setF kfs "enum" (.arr K))))) := lookupF_setF_self
  have h2 : lookupF (setF pfs "kind" (.obj (setF kfs "enum" (.arr K)))) "apiVersion"
      = some (.obj afs) := by
    rw [lookupF_setF_ne (by decide)]
    exact hav
  have h3 : lookupF (setF fs "properties"
      (.obj (setF pfs "kind" (.obj (setF kfs "enum" (.arr K)))))) gvkKey = some g := by
    rw [lookupF_setF_ne (by decide)]
    exact hg
  have h4 : hasKeyF (setF pfs "kind" (.obj (setF kfs "enum" (.arr K)))) "apiVersion"
      = true := by
    rw [hasKeyF_setF_ne_eq (by decide)]
    exact haT
  simp [fixKind, setPath2, jGetItem, asObj, setIn, pyIn, hgvk, hP, hkT, hkv, haT, hav, hg,
    hitems, hK, h1, h2, h3, h4, hA]

theorem fixKind_api_nonobj_F {fs pfs : Fields} {an : JValue}
    (hgvk : hasKeyF fs gvkKey = true)
    (hP : lookupF fs "properties" = some (.obj pfs))
    (hkF : hasKeyF pfs "kind" = false)
    (haT : hasKeyF pfs "apiVersion" = true)
    (hav : lookupF pfs "apiVersion" = some an)
    (han : asObj an = none) :
    fixKind (.obj fs) = none := by
  simp [fixKind, hgvk, hP, pyIn, hkF, haT, jGetItem, hav, han]

theorem fixKind_iter_fail_F {fs pfs afs : Fields} {g : JValue}
    (hgvk : hasKeyF fs gvkKey = true)
    (hP : lookupF fs "properties" = some (.obj pfs))
    (hkF : hasKeyF pfs "kind" = false)
    (haT : hasKeyF pfs "apiVersion" = true)
    (hav : lookupF pfs "apiVersion" = some (.obj afs))
    (hg : lookupF fs gvkKey = some g)
    (hit : pyIterate g = none) :
    fixKind (.obj fs) = none := by
  simp [fixKind, hgvk, hP, pyIn, hkF, haT, jGetItem, hav, asObj, hg, hit]

theorem fixKind_apiLoop_fail_F {fs pfs afs : Fields} {g : JValue} {items : List JValue}
    (hgvk : hasKeyF fs gvkKey = true)
    (hP : lookupF fs "properties" = some (.obj pfs))
    (hkF : hasKeyF pfs "kind" = false)
    (haT : hasKeyF pfs "apiVersion" = true)
    (hav : lookupF pfs "apiVersion" = some (.obj afs))
    (hg : lookupF fs gvkKey = some g)
    (hit : pyIterate g = some items)
    (hA : apiLoop items [] = none) :
    fixKind (.obj fs) = none := by
  simp [fixKind, hgvk, hP, pyIn, hkF, haT, jGetItem, hav, asObj, hg, hit, hA]

/-- Per-value idempotence of the full pass on safe dict values carrying
`x-kubernetes-group-version-kind`: the second `_fix_kind` rebuilds the same
enums from the preserved triples, and re-cleaning absorbs them. -/
theorem normalizeValue_idem_gvk {dF : List JValue → List JValue} (hsub : DedupSub dF)
    (hidem : DedupIdem dF) {n : Nat} {fs : Fields} {w : JValue}
    (hsv : SafeV (.obj fs)) (hgvk : hasKeyF fs gvkKey = true)
    (hfx : (fixKind (.obj fs)).bind
      (fun a => cleanupSchema dF (n + 1) (apStep a)) = some w) :
    normalizeValue dF (n + 1) w = some w := by
  have hNoAll : hasKeyF fs "allOf" = false := by
    cases hsv with
    | obj _ h1 _ _ => exact h1
  have hNodup : noDupKeysB fs = true := by
    cases hsv with
    | obj _ _ h2 _ => exact h2
  obtain ⟨g, hgl⟩ := lookupF_isSome_of_has hgvk
  have hsafeg : SafeChild g := by
    cases hsv with
    | obj _ _ _ h3 => exact h3 (gvkKey, g) (lookup_mem hgl)
  cases hprops : lookupF fs "properties" with
  | none =>
    rw [show fixKind (.obj fs) = none from by simp [fixKind, hgvk, hprops]] at hfx
    exact Option.noConfusion hfx
  | some P =>
    cases P with
    | null =>
      rw [show fixKind (.obj fs) = none from by simp [fixKind, hgvk, hprops, pyIn]] at hfx
      exact Option.noConfusion hfx
    | bool _ =>
      rw [show fixKind (.obj fs) = none from by simp [fixKind, hgvk, hprops, pyIn]] at hfx
      exact Option.noConfusion hfx
    | num _ =>
      rw [show fixKind (.obj fs) = none from by simp [fixKind, hgvk, hprops, pyIn]] at hfx
      exact Option.noConfusion hfx
    | str s =>
      cases hpk : charsHasSub "kind".data s.data with
      | true =>
        rw [show fixKind (.obj fs) = none from by
          simp [fixKind, hgvk, hprops, pyIn, hpk, jGetItem]] at hfx
        exact Option.noConfusion hfx
      | false =>
        cases hpa : charsHasSub "apiVersion".data s.data with
        | true =>
          rw [show fixKind (.obj fs) = none from by
            simp [fixKind, hgvk, hprops, pyIn, hpk, hpa, jGetItem]] at hfx
          exact Option.noConfusion hfx
        | false =>
          rw [fixKind_no_branch hgvk hprops (by simp [pyIn, hpk]) (by simp [pyIn, hpa]),
            Option.some_bind] at hfx
          apply gvk_driver hsub hidem hfx
          intro bfs wfs hb hrun
          have hNoAllB : hasKeyF bfs "allOf" = false := by
            rcases hb with rfl | rfl
            · exact hNoAll
            · rw [hasKeyF_setF_ne_eq (by decide)]
              exact hNoAll
          have hbP : lookupF bfs "properties" = some (.str s) := by
            rcases hb with rfl | rfl
            · exact hprops
            · rw [lookupF_setF_ne (by decide)]
              exact hprops
          have hP2l : lookupF wfs "properties" = some (.str s) :=
            cleanupSchema_pres_special hNoAllB hrun "properties" (.str s) (by decide)
              (by decide) (by decide) hbP (Or.inl rfl)
          have hgvk2 : hasKeyF wfs gvkKey = true := by
            rw [hasKeyF_eq_of_keys (cleanupSchema_props hNoAllB hrun).1,
              hasKeyF_popF_ne (by decide)]
            rcases hb with rfl | rfl
            · exact hgvk
            · rw [hasKeyF_setF_ne_eq (by decide)]
              exact hgvk
          refine ⟨?_, wfs, fixKind_no_branch hgvk2 hP2l (by simp [pyIn, hpk])
            (by simp [pyIn, hpa]), ResetF_refl wfs, rfl, fun _ _ => rfl⟩
          rcases hb with rfl | rfl
          · exact hsv
          · exact SafeV_setF_bool hsv (by decide)
    | arr xs =>
      cases hpk : (xs.any fun x => pyEq x (.str "kind")) with
      | true =>
        rw [show fixKind (.obj fs) = none from by
          simp [fixKind, hgvk, hprops, pyIn, hpk, jGetItem]] at hfx
        exact Option.noConfusion hfx
      | false =>
        cases hpa : (xs.any fun x => pyEq x (.str "apiVersion")) with
        | true =>
          rw [show fixKind (.obj fs) = none from by
            simp [fixKind, hgvk, hprops, pyIn, hpk, hpa, jGetItem]] at hfx
          exact Option.noConfusion hfx
        | false =>
          rw [fixKind_no_branch hgvk hprops (by simp [pyIn, hpk]) (by simp [pyIn, hpa]),
            Option.some_bind] at hfx
          apply gvk_driver hsub hidem hfx
          intro bfs wfs hb hrun
          have hNoAllB : hasKeyF bfs "allOf" = false := by
            rcases hb with rfl | rfl
            · exact hNoAll
            · rw [hasKeyF_setF_ne_eq (by decide)]
              exact hNoAll
          have hbP : lookupF bfs "properties" = some (.arr xs) := by
            rcases hb with rfl | rfl
            · exact hprops
            · rw [lookupF_setF_ne (by decide)]
              exact hprops
          obtain ⟨fs4, f', h4, h5, hf, hch⟩ := cleanupSchema_chain hNoAllB hrun
          have hl4 : lookupF fs4 "properties" = some (.arr xs) := by
            rw [hch _ (by decide) (by decide) (by decide)]
            exact hbP
          obtain ⟨ys, f2, he2, hlk2⟩ := cleanupFields_arr_fwd2 h5 hl4
          have hk2 : (ys.any fun y => pyEq y (.str "kind")) = false := by
            rw [any_pyEq_str_pres he2]
            exact hpk
          have ha2 : (ys.any fun y => pyEq y (.str "apiVersion")) = false := by
            rw [any_pyEq_str_pres he2]
            exact hpa
          have hgvk2 : hasKeyF wfs gvkKey = true := by
            rw [hasKeyF_eq_of_keys (cleanupSchema_props hNoAllB hrun).1,
              hasKeyF_popF_ne (by decide)]
            rcases hb with rfl | rfl
            · exact hgvk
            · rw [hasKeyF_setF_ne_eq (by decide)]
              exact hgvk
          refine ⟨?_, wfs, fixKind_no_branch hgvk2 hlk2 (by simp [pyIn, hk2])
            (by simp [pyIn, ha2]), ResetF_refl wfs, rfl, fun _ _ => rfl⟩
          rcases hb with rfl | rfl
          · exact hsv
          · exact SafeV_setF_bool hsv (by decide)
    | obj pfs =>
      have hsvP : SafeV (.obj pfs) := SafeV_child_obj hsv hprops
      have hNoAllP : hasKeyF pfs "allOf" = false := by
        cases hsvP with
        | obj _ h1 _ _ => exact h1
      have hNodupP : noDupKeysB pfs = true := by
        cases hsvP with
        | obj _ _ h2 _ => exact h2
      cases hk : hasKeyF pfs "kind" with
      | true =>
        obtain ⟨kn, hkv⟩ := lookupF_isSome_of_has hk
        cases kn with
        | null =>
          rw [fixKind_kind_nonobj hgvk hprops hk hkv rfl] at hfx
          exact Option.noConfusion hfx
        | bool _ =>
          rw [fixKind_kind_nonobj hgvk hprops hk hkv rfl] at hfx
          exact Option.noConfusion hfx
        | num _ =>
          rw [fixKind_kind_nonobj hgvk hprops hk hkv rfl] at hfx
          exact Option.noConfusion hfx
        | str _ =>
          rw [fixKind_kind_nonobj hgvk hprops hk hkv rfl] at hfx
          exact Option.noConfusion hfx
        | arr _ =>
          rw [fixKind_kind_nonobj hgvk hprops hk hkv rfl] at hfx
          exact Option.noConfusion hfx
        | obj kfs =>
          have hsvK : SafeV (.obj kfs) := SafeV_child_obj hsvP hkv
          have hNoAllK : hasKeyF kfs "allOf" = false := by
            cases hsvK with
            | obj _ h1 _ _ => exact h1
          cases hit : pyIterate g with
          | none =>
            rw [fixKind_iter_fail hgvk hprops hk hkv hgl hit] at hfx
            exact Option.noConfusion hfx
          | some items =>
            cases hK : kindLoop items [] with
            | none =>
              rw [fixKind_kindLoop_fail hgvk hprops hk hkv hgl hit hK] at hfx
              exact Option.noConfusion hfx
            | some K =>
              cases ha : hasKeyF pfs "apiVersion" with
              | false =>
                rw [fixKind_gvk_TF hgvk hprops hk hkv ha hgl hit hK,
                  Option.some_bind] at hfx
                apply gvk_driver hsub hidem hfx
                intro bfs wfs hb hrun
                have hNoAllB : hasKeyF bfs "allOf" = false := by
                  rcases hb with rfl | rfl
                  · rw [hasKeyF_setF_ne_eq (by decide)]
                    exact hNoAll
                  · rw [hasKeyF_setF_ne_eq (by decide), hasKeyF_setF_ne_eq (by decide)]
                    exact hNoAll
                have hNodupB : noDupKeysB bfs = true := by
                  rcases hb with rfl | rfl
                  · exact noDupKeysB_setF hNodup
                  · exact noDupKeysB_setF (noDupKeysB_setF hNodup)
                have hbP : lookupF bfs "properties"
                    = some (.obj (setF pfs "kind" (.obj (setF kfs "enum" (.arr K))))) := by
                  rcases hb with rfl | rfl
                  · exact lookupF_setF_self
                  · rw [lookupF_setF_ne (by decide)]
                    exact lookupF_setF_self
                have hbg : lookupF bfs gvkKey = some g := by
                  rcases hb with rfl | rfl
                  · rw [lookupF_setF_ne (by decide)]
                    exact hgl
                  · rw [lookupF_setF_ne (by decide), lookupF_setF_ne (by decide)]
                    exact hgl
                obtain ⟨hKhash, wA, hfk2, hRF, hkeys2, hlk2⟩ :=
                  gvk_core_TF hsub hNoAllB hNodupB hrun hbP hbg hit hK hsafeg
                    hNoAllP hNodupP hNoAllK ha
                refine ⟨?_, wA, hfk2, hRF, hkeys2, hlk2⟩
                have hsvfsA := SafeV_setF_obj hsv
                  (show "properties" ≠ "allOf" by decide)
                  (SafeV_setF_obj hsvP (show "kind" ≠ "allOf" by decide)
                    (SafeV_setF_arrH hsvK (show "enum" ≠ "allOf" by decide) hKhash))
                rcases hb with rfl | rfl
                · exact hsvfsA
                · exact SafeV_setF_bool hsvfsA (by decide)
              | true =>
                obtain ⟨an, hav⟩ := lookupF_isSome_of_has ha
                cases an with
                | null =>
                  rw [fixKind_api_nonobj_afterT hgvk hprops hk hkv hgl hit hK ha hav
                    rfl] at hfx
                  exact Option.noConfusion hfx
                | bool _ =>
                  rw [fixKind_api_nonobj_afterT hgvk hprops hk hkv hgl hit hK ha hav
                    rfl] at hfx
                  exact Option.noConfusion hfx
                | num _ =>
                  rw [fixKind_api_nonobj_afterT hgvk hprops hk hkv hgl hit hK ha hav
                    rfl] at hfx
                  exact Option.noConfusion hfx
                | str _ =>
                  rw [fixKind_api_nonobj_afterT hgvk hprops hk hkv hgl hit hK ha hav
                    rfl] at hfx
                  exact Option.noConfusion hfx
                | arr _ =>
                  rw [fixKind_api_nonobj_afterT hgvk hprops hk hkv hgl hit hK ha hav
                    rfl] at hfx
                  exact Option.noConfusion hfx
                | obj afs =>
                  have hsvA2 : SafeV (.obj afs) := SafeV_child_obj hsvP hav
                  have hNoAllA2 : hasKeyF afs "allOf" = false := by
                    cases hsvA2 with
                    | obj _ h1 _ _ => exact h1
                  cases hA : apiLoop items [] with
                  | none =>
                    rw [fixKind_apiLoop_fail_afterT hgvk hprops hk hkv hgl hit hK ha hav
                      hA] at hfx
                    exact Option.noConfusion hfx
                  | some A =>
                    rw [fixKind_gvk_TT hgvk hprops hk hkv ha hav hgl hit hK hA,
                      Option.some_bind] at hfx
                    apply gvk_driver hsub hidem hfx
                    intro bfs wfs hb hrun
                    have hNoAllB : hasKeyF bfs "allOf" = false := by
                      rcases hb with rfl | rfl
                      · rw [hasKeyF_setF_ne_eq (by decide)]
                        exact hNoAll
                      · rw [hasKeyF_setF_ne_eq (by decide),
                          hasKeyF_setF_ne_eq (by decide)]
                        exact hNoAll
                    have hNodupB : noDupKeysB bfs = true := by
                      rcases hb with rfl | rfl
                      · exact noDupKeysB_setF hNodup
                      · exact noDupKeysB_setF (noDupKeysB_setF hNodup)
                    have hbP : lookupF bfs "properties"
                        = some (.obj (setF (setF pfs "kind"
                          (.obj (setF kfs "enum" (.arr K)))) "apiVersion"
                          (.obj (setF afs "enum" (.arr A))))) := by
                      rcases hb with rfl | rfl
                      · exact lookupF_setF_self
                      · rw [lookupF_setF_ne (by decide)]
                        exact lookupF_setF_self
                    have hbg : lookupF bfs gvkKey = some g := by
                      rcases hb with rfl | rfl
                      · rw [lookupF_setF_ne (by decide)]
                        exact hgl
                      · rw [lookupF_setF_ne (by decide), lookupF_setF_ne (by decide)]
                        exact hgl
                    obtain ⟨hKhash, hAhash, wA, hfk2, hRF, hkeys2, hlk2⟩ :=
                      gvk_core_TT hsub hNoAllB hNodupB hrun hbP hbg hit hK hA hsafeg
                        hNoAllP hNodupP hNoAllK hNoAllA2
                    refine ⟨?_, wA, hfk2, hRF, hkeys2, hlk2⟩
                    have hsvfsA := SafeV_setF_obj hsv
                      (show "properties" ≠ "allOf" by decide)
                      (SafeV_setF_obj
                        (SafeV_setF_obj hsvP (show "kind" ≠ "allOf" by decide)
                          (SafeV_setF_arrH hsvK (show "enum" ≠ "allOf" by decide) hKhash))
                        (show "apiVersion" ≠ "allOf" by decide)
                        (SafeV_setF_arrH hsvA2 (show "enum" ≠ "allOf" by decide) hAhash))
                    rcases hb with rfl | rfl
                    · exact hsvfsA
                    · exact SafeV_setF_bool hsvfsA (by decide)
      | false =>
        cases ha : hasKeyF pfs "apiVersion" with
        | false =>
          rw [fixKind_no_branch hgvk hprops (by simp [pyIn, hk]) (by simp [pyIn, ha]),
            Option.some_bind] at hfx
          apply gvk_driver hsub hidem hfx
          intro bfs wfs hb hrun
          have hNoAllB : hasKeyF bfs "allOf" = false := by
            rcases hb with rfl | rfl
            · exact hNoAll
            · rw [hasKeyF_setF_ne_eq (by decide)]
              exact hNoAll
          have hbP : lookupF bfs "properties" = some (.obj pfs) := by
            rcases hb with rfl | rfl
            · exact hprops
            · rw [lookupF_setF_ne (by decide)]
              exact hprops
          obtain ⟨pfs2, fP, hrunP, hlkP2⟩ :=
            cleanup_obj_value hNoAllB hrun (by decide) (by decide) (by decide) hbP
          have hkeysPW := (cleanupSchema_props hNoAllP hrunP).1
          have hk2 : hasKeyF pfs2 "kind" = false := by
            rw [hasKeyF_eq_of_keys hkeysPW, hasKeyF_popF_ne (by decide)]
            exact hk
          have ha2 : hasKeyF pfs2 "apiVersion" = false := by
            rw [hasKeyF_eq_of_keys hkeysPW, hasKeyF_popF_ne (by decide)]
            exact ha
          have hgvk2 : hasKeyF wfs gvkKey = true := by
            rw [hasKeyF_eq_of_keys (cleanupSchema_props hNoAllB hrun).1,
              hasKeyF_popF_ne (by decide)]
            rcases hb with rfl | rfl
            · exact hgvk
            · rw [hasKeyF_setF_ne_eq (by decide)]
              exact hgvk
          refine ⟨?_, wfs, fixKind_no_branch hgvk2 hlkP2 (by simp [pyIn, hk2])
            (by simp [pyIn, ha2]), ResetF_refl wfs, rfl, fun _ _ => rfl⟩
          rcases hb with rfl | rfl
          · exact hsv
          · exact SafeV_setF_bool hsv (by decide)
        | true =>
          obtain ⟨an, hav⟩ := lookupF_isSome_of_has ha
          cases an with
          | null =>
            rw [fixKind_api_nonobj_F hgvk hprops hk ha hav rfl] at hfx
            exact Option.noConfusion hfx
          | bool _ =>
            rw [fixKind_api_nonobj_F hgvk hprops hk ha hav rfl] at hfx
            exact Option.noConfusion hfx
          | num _ =>
            rw [fixKind_api_nonobj_F hgvk hprops hk ha hav rfl] at hfx
            exact Option.noConfusion hfx
          | str _ =>
            rw [fixKind_api_nonobj_F hgvk hprops hk ha hav rfl] at hfx
            exact Option.noConfusion hfx
          | arr _ =>
            rw [fixKind_api_nonobj_F hgvk hprops hk ha hav rfl] at hfx
            exact Option.noConfusion hfx
          | obj afs =>
            have hsvA2 : SafeV (.obj afs) := SafeV_child_obj hsvP hav
            have hNoAllA2 : hasKeyF afs "allOf" = false := by
              cases hsvA2 with
              | obj _ h1 _ _ => exact h1
            cases hit : pyIterate g with
            | none =>
              rw [fixKind_iter_fail_F hgvk hprops hk ha hav hgl hit] at hfx
              exact Option.noConfusion hfx
            | some items =>
              cases hA : apiLoop items [] with
              | none =>
                rw [fixKind_apiLoop_fail_F hgvk hprops hk ha hav hgl hit hA] at hfx
                exact Option.noConfusion hfx
              | some A =>
                rw [fixKind_gvk_FT hgvk hprops hk ha hav hgl hit hA,
                  Option.some_bind] at hfx
                apply gvk_driver hsub hidem hfx
                intro bfs wfs hb hrun
                have hNoAllB : hasKeyF bfs "allOf" = false := by
                  rcases hb with rfl | rfl
                  · rw [hasKeyF_setF_ne_eq (by decide)]
                    exact hNoAll
                  · rw [hasKeyF_setF_ne_eq (by decide), hasKeyF_setF_ne_eq (by decide)]
                    exact hNoAll
                have hNodupB : noDupKeysB bfs = true := by
                  rcases hb with rfl | rfl
                  · exact noDupKeysB_setF hNodup
                  · exact noDupKeysB_setF (noDupKeysB_setF hNodup)
                have hbP : lookupF bfs "properties"
                    = some (.obj (setF pfs "apiVersion"
                      (.obj (setF afs "enum" (.arr A))))) := by
                  rcases hb with rfl | rfl
                  · exact lookupF_setF_self
                  · rw [lookupF_setF_ne (by decide)]
                    exact lookupF_setF_self
                have hbg : lookupF bfs gvkKey = some g := by
                  rcases hb with rfl | rfl
                  · rw [lookupF_setF_ne (by decide)]
                    exact hgl
                  · rw [lookupF_setF_ne (by decide), lookupF_setF_ne (by decide)]
                    exact hgl
                obtain ⟨hAhash, wA, hfk2, hRF, hkeys2, hlk2⟩ :=
                  gvk_core_FT hsub hNoAllB hNodupB hrun hbP hbg hit hA hsafeg
                    hNoAllP hNodupP hNoAllA2 hk
                refine ⟨?_, wA, hfk2, hRF, hkeys2, hlk2⟩
                have hsvfsA := SafeV_setF_obj hsv
                  (show "properties" ≠ "allOf" by decide)
                  (SafeV_setF_obj hsvP (show "apiVersion" ≠ "allOf" by decide)
                    (SafeV_setF_arrH hsvA2 (show "enum" ≠ "allOf" by decide) hAhash))
                rcases hb with rfl | rfl
                · exact hsvfsA
                · exact SafeV_setF_bool hsvfsA (by decide)

/-- Per-value idempotence of the full pass (`_fix_kind`,
`additionalProperties` defaulting, `_cleanup_schema`) on safe dict values
without `x-kubernetes-group-version-kind`; non-dict values are skipped by
the pass and trivially stable. -/
theorem normalizeValue_idem {dF : List JValue → List JValue} (hsub : DedupSub dF)
    (hidem : DedupIdem dF) {fuel : Nat} {v w : JValue}
    (hsafe : ∀ fs, v = .obj fs → SafeV (.obj fs))
    (h : normalizeValue dF fuel v = some w) :
    normalizeValue dF fuel w = some w := by
  match v with
  | .null =>
    simp only [normalizeValue] at h
    rw [← Option.some_inj.mp h]
    rfl
  | .bool b =>
    simp only [normalizeValue] at h
    rw [← Option.some_inj.mp h]
    rfl
  | .num n =>
    simp only [normalizeValue] at h
    rw [← Option.some_inj.mp h]
    rfl
  | .str s =>
    simp only [normalizeValue] at h
    rw [← Option.some_inj.mp h]
    rfl
  | .arr xs =>
    simp only [normalizeValue] at h
    rw [← Option.some_inj.mp h]
    rfl
  | .obj fs =>
    have hsv : SafeV (.obj fs) := hsafe fs rfl
    simp only [normalizeValue] at h
    cases fuel with
    | zero =>
      cases hfk : fixKind (.obj fs) with
      | none => rw [hfk] at h; exact Option.noConfusion h
      | some a => rw [hfk, Option.some_bind] at h; exact Option.noConfusion h
    | succ n =>
      cases hgvk : hasKeyF fs gvkKey with
      | true => exact normalizeValue_idem_gvk hsub hidem hsv hgvk h
      | false =>
        rw [fixKind_no_gvk hgvk, Option.some_bind] at h
        cases hmv : hasKeyF fs "x-kubernetes-preserve-unknown-fields" with
        | true =>
          have hap : apStep (.obj fs) = .obj fs := by
            simp only [apStep]
            rw [if_pos hmv]
          rw [hap] at h
          obtain ⟨gs, hg⟩ := cleanupSchema_obj_out h
          have hNoAll : hasKeyF fs "allOf" = false := by
            cases hsv with
            | obj _ h1 _ _ => exact h1
          obtain ⟨hkeys, hfwd⟩ := cleanupSchema_props hNoAll (by rw [hg] at h; exact h)
          have hgvk5 : hasKeyF gs gvkKey = false := by
            rw [hasKeyF_eq_of_keys hkeys, hasKeyF_popF_ne (by decide)]
            exact hgvk
          have hm5 : hasKeyF gs "x-kubernetes-preserve-unknown-fields" = true := by
            rw [hasKeyF_eq_of_keys hkeys, hasKeyF_popF_ne (by decide)]
            exact hmv
          have hclean2 : cleanupSchema dF (n + 1) w = some w :=
            (cleanup_idem hsub hidem (n + 1)).1 fs w hsv h
          rw [hg]
          simp only [normalizeValue]
          rw [fixKind_no_gvk hgvk5, Option.some_bind]
          have hap5 : apStep (.obj gs) = .obj gs := by
            simp only [apStep]
            rw [if_pos hm5]
          rw [hap5]
          rw [hg] at hclean2
          exact hclean2
        | false =>
          have hap : apStep (.obj fs) = .obj (setF fs "additionalProperties" (.bool false)) := by
            simp only [apStep]
            rw [if_neg (by simp [hmv])]
          rw [hap] at h
          have hNoduB : noDupKeysB fs = true := by
            cases hsv with
            | obj _ _ h2 _ => exact h2
          have hsvb : SafeV (.obj (setF fs "additionalProperties" (.bool false))) :=
            SafeV_setF_bool hsv (by decide)
          have hNoAllB : hasKeyF (setF fs "additionalProperties" (.bool false)) "allOf" = false := by
            cases hsvb with
            | obj _ h1 _ _ => exact h1
          obtain ⟨gs, hg⟩ := cleanupSchema_obj_out h
          obtain ⟨hkeys, hfwd⟩ := cleanupSchema_props hNoAllB (by rw [hg] at h; exact h)
          have hgvk5 : hasKeyF gs gvkKey = false := by
            rw [hasKeyF_eq_of_keys hkeys, hasKeyF_popF_ne (by decide),
              hasKeyF_setF_ne_eq (by decide)]
            exact hgvk
          have hm5 : hasKeyF gs "x-kubernetes-preserve-unknown-fields" = false := by
            rw [hasKeyF_eq_of_keys hkeys, hasKeyF_popF_ne (by decide),
              hasKeyF_setF_ne_eq (by decide)]
            exact hmv
          have haP5 : lookupF gs "additionalProperties" = some (.bool false) :=
            hfwd "additionalProperties" (.bool false) (by decide) (by decide) (by decide)
              lookupF_setF_self
              (by intro _ hh; exact JValue.noConfusion hh)
              (by intro _ hh; exact JValue.noConfusion hh)
          have hnd5 : noDupKeysB gs = true := by
            rw [noDupKeysB_iff, hkeys, keysF_popF]
            exact (noDupKeysB_iff.mp (noDupKeysB_setF hNoduB)).filter _
          have hset5 : setF gs "additionalProperties" (.bool false) = gs :=
            setF_lookup_eq_of_nodup hnd5 haP5
          have hclean2 : cleanupSchema dF (n + 1) w = some w :=
            (cleanup_idem hsub hidem (n + 1)).1 _ w hsvb h
          rw [hg]
          simp only [normalizeValue]
          rw [fixKind_no_gvk hgvk5, Option.some_bind]
          have hap5 : apStep (.obj gs) = .obj gs := by
            simp only [apStep]
            rw [if_neg (by simp [hm5]), hset5]
          rw [hap5]
          rw [hg] at hclean2
          exact hclean2


/-- Set-level idempotence of the per-cycle normalization loop. -/
theorem normalizeSet_idem {dF : List JValue → List JValue} (hsub : DedupSub dF)
    (hidem : DedupIdem dF) {fuel : Nat} :
    ∀ {S T : Fields},
      (∀ kv ∈ S, ∀ fs, Prod.snd kv = .obj fs → SafeV (.obj fs)) →
      normalizeSet dF fuel S = some T → normalizeSet dF fuel T = some T := by
  intro S
  induction S with
  | nil =>
    intro T _ h
    simp only [normalizeSet] at h
    rw [← Option.some_inj.mp h]
    rfl
  | cons kv S ih =>
    intro T hsafe h
    obtain ⟨k, v⟩ := kv
    simp only [normalizeSet] at h
    cases h1 : normalizeValue dF fuel v with
    | none => rw [h1] at h; exact Option.noConfusion h
    | some v2 =>
      rw [h1, Option.some_bind] at h
      cases h2 : normalizeSet dF fuel S with
      | none => rw [h2] at h; exact Option.noConfusion h
      | some T2 =>
        rw [h2, Option.some_bind] at h
        have hT : T = (k, v2) :: T2 := (Option.some_inj.mp h).symm
        have hv2 : normalizeValue dF fuel v2 = some v2 :=
          normalizeValue_idem hsub hidem
            (fun fs hfs => hsafe (k, v) (List.mem_cons_self _ _) fs hfs) h1
        have hT2 : normalizeSet dF fuel T2 = some T2 :=
          ih (fun q hq fs hfs => hsafe q (List.mem_cons_of_mem _ hq) fs hfs) h2
        rw [hT]
        simp only [normalizeSet]
        rw [hv2, Option.some_bind, hT2, Option.some_bind]

/-- The executable checker `safeVB` is sound for `SafeV` (and its fields /
elements companions for `SafeChild` / `SafeElem`). -/
theorem safeVB_sound :
    ∀ fuel : Nat,
      (∀ v, safeVB fuel v = true → SafeV v) ∧
      (∀ fs, safeFieldsB fuel fs = true → ∀ kv ∈ fs, SafeChild (Prod.snd kv)) ∧
      (∀ xs, safeElemsB fuel xs = true → ∀ x ∈ xs, SafeElem x) := by
  intro fuel
  induction fuel with
  | zero =>
    refine ⟨fun v h => ?_, fun fs h => ?_, fun xs h => ?_⟩
    · simp [safeVB] at h
    · simp [safeFieldsB] at h
    · simp [safeElemsB] at h
  | succ fuel ih =>
    obtain ⟨ihv, ihf, ihe⟩ := ih
    refine ⟨fun v h => ?_, fun fs h => ?_, fun xs h => ?_⟩
    · match v with
      | .obj fs =>
        simp only [safeVB, Bool.and_eq_true, Bool.not_eq_true'] at h
        exact SafeV.obj fs h.1.1 h.1.2 (ihf fs h.2)
      | .null => simp [safeVB] at h
      | .bool b => simp [safeVB] at h
      | .num n => simp [safeVB] at h
      | .str s => simp [safeVB] at h
      | .arr xs => simp [safeVB] at h
    · match fs with
      | [] =>
        intro kv hkv
        exact absurd hkv (List.not_mem_nil kv)
      | (k, .obj ofs) :: fs =>
        simp only [safeFieldsB, Bool.and_eq_true] at h
        intro kv hkv
        rcases List.mem_cons.mp hkv with rfl | hm
        · exact SafeChild.obj ofs (ihv _ h.1)
        · exact ihf fs h.2 kv hm
      | (k, .arr xs) :: fs =>
        simp only [safeFieldsB, Bool.and_eq_true] at h
        intro kv hkv
        rcases List.mem_cons.mp hkv with rfl | hm
        · exact SafeChild.arr xs (ihe xs h.1)
        · exact ihf fs h.2 kv hm
      | (k, .null) :: fs =>
        have h0 : safeFieldsB fuel fs = true := h
        intro kv hkv
        rcases List.mem_cons.mp hkv with rfl | hm
        · exact SafeChild.null
        · exact ihf fs h0 kv hm
      | (k, .bool b) :: fs =>
        have h0 : safeFieldsB fuel fs = true := h
        intro kv hkv
        rcases List.mem_cons.mp hkv with rfl | hm
        · exact SafeChild.bool b
        · exact ihf fs h0 kv hm
      | (k, .num n) :: fs =>
        have h0 : safeFieldsB fuel fs = true := h
        intro kv hkv
        rcases List.mem_cons.mp hkv with rfl | hm
        · exact SafeChild.num n
        · exact ihf fs h0 kv hm
      | (k, .str s) :: fs =>
        have h0 : safeFieldsB fuel fs = true := h
        intro kv hkv
        rcases List.mem_cons.mp hkv with rfl | hm
        · exact SafeChild.str s
        · exact ihf fs h0 kv hm
    · match xs with
      | [] =>
        intro x hx
        exact absurd hx (List.not_mem_nil x)
      | .obj ofs :: xs =>
        simp only [safeElemsB, Bool.and_eq_true] at h
        intro x hx
        rcases List.mem_cons.mp hx with rfl | hm
        · exact SafeElem.obj ofs (ihv _ h.1)
        · exact ihe xs h.2 x hm
      | .null :: xs =>
        have h0 : safeElemsB fuel xs = true := h
        intro x hx
        rcases List.mem_cons.mp hx with rfl | hm
        · exact SafeElem.nonObj _ (fun fs hq => JValue.noConfusion hq)
        · exact ihe xs h0 x hm
      | .bool b :: xs =>
        have h0 : safeElemsB fuel xs = true := h
        intro x hx
        rcases List.mem_cons.mp hx with rfl | hm
        · exact SafeElem.nonObj _ (fun fs hq => JValue.noConfusion hq)
        · exact ihe xs h0 x hm
      | .num n :: xs =>
        have h0 : safeElemsB fuel xs = true := h
        intro x hx
        rcases List.mem_cons.mp hx with rfl | hm
        · exact SafeElem.nonObj _ (fun fs hq => JValue.noConfusion hq)
        · exact ihe xs h0 x hm
      | .str s :: xs =>
        have h0 : safeElemsB fuel xs = true := h
        intro x hx
        rcases List.mem_cons.mp hx with rfl | hm
        · exact SafeElem.nonObj _ (fun fs hq => JValue.noConfusion hq)
        · exact ihe xs h0 x hm
      | .arr ys :: xs =>
        have h0 : safeElemsB fuel xs = true := h
        intro x hx
        rcases List.mem_cons.mp hx with rfl | hm
        · exact SafeElem.nonObj _ (fun fs hq => JValue.noConfusion hq)
        · exact ihe xs h0 x hm

/-- C9 (amended): the full normalization pass is not idempotent in general
(counterexample `c9_second_pass_changes_result`); it is idempotent on
SchemaSets whose dict values are safe — no `allOf` key at any node the
cleanup recursion visits, and unique keys as in any Python dict —
provided the set-iteration order chosen for enum de-duplication keeps
only input elements and is stable on its own output. -/
theorem c9_amended_idempotent_without_allOf (dF : List JValue → List JValue)
    (hsub : DedupSub dF) (hidem : DedupIdem dF) (fuel : Nat) (S T : Fields)
    (hsafe : ∀ kv ∈ S, ∀ fs, Prod.snd kv = JValue.obj fs → SafeV (.obj fs))
    (h : normalizeSet dF fuel S = some T) :
    normalizeSet dF fuel T = some T :=
  normalizeSet_idem hsub hidem hsafe h

/-- C9 witness: on the safe set `c9safeSet` (no `allOf`, but with a gvk
triple and both `properties` sub-nodes) with the order-preserving
de-duplication, the first pass yields `c9safeOut` and the second pass —
including the recomputation of both enums — returns it unchanged. -/
theorem c9_amended_idempotent_without_allOf_witness :
    normalizeSet dedupPy 12 c9safeSet = some c9safeOut ∧
    normalizeSet dedupPy 12 c9safeOut = some c9safeOut := by
  have hsafe : ∀ kv ∈ c9safeSet, ∀ fs, Prod.snd kv = JValue.obj fs →
      SafeV (.obj fs) := by
    intro kv hkv fs hfs
    simp only [c9safeSet, List.mem_cons, List.not_mem_nil, or_false] at hkv
    subst hkv
    cases hfs
    exact (safeVB_sound 10).1 _ (by decide)
  exact ⟨rfl, c9_amended_idempotent_without_allOf dedupPy dedupPy_sub dedupPy_idem 12
    c9safeSet c9safeOut hsafe rfl⟩

end K8Schema
